import Mathlib

/-!
CeedNumerics, `Sources/Numerics_C/Utils.c`.

A shallow embedding of the three strided kernels of `Utils.c`
(`strided_set_float`, `strided_set_gen`, `flip_gen`) and a verification of
their contracts.

Modelling conventions.

* The kernels are embedded twice.  The first embedding computes on unbounded
  integers (`Int`, `Nat`): it is what the kernels compute as long as no value
  leaves the range of its C type.  The second embedding (`to_long` and the
  definitions whose names end in `_w`) makes the widths of `long` and `size_t`
  explicit, 64 bits, and reduces every stored value modulo `2^64`.  The
  theorems `strided_set_float_w_eq`, `strided_set_gen_w_eq` and `flip_gen_w_eq`
  state when the two agree: the number of elements and all offsets of the views
  are `long` values.
* The byte counter `int i` of the byte loops is a natural number; it does not
  overflow for element widths below `2^31`.
* A buffer is a `List α`; a position is an `Int` (the C cursors are `long`).
  Reading or writing outside the list is the failure `Failure.outOfBounds`
  (undefined behaviour in C).
* The arrays `shape`, `sstrides`, `dstrides`, `axes` are lists read with
  `List.getD`; the per-axis iterator array `it[MAX_RANK]` is a function of the
  axis number, initially constant zero.
* The unbounded `for (;;)` loops take an iteration budget (`fuel`); running out
  of it is the failure `Failure.outOfFuel`.  Theorems state that a budget of
  the number of visited elements is enough.
* The element type is a parameter: the kernels only move elements.
-/

namespace CeedNumerics

/-! ## The embedding -/

/-- The ways in which a call does not return normally. -/
inductive Failure where
  /-- An `assert` of the source failed. -/
  | assertion
  /-- An access outside of the buffer. -/
  | outOfBounds
  /-- The iteration budget ran out before the loop returned. -/
  | outOfFuel
  deriving DecidableEq, Repr

/-- The maximum supported rank, `#define MAX_RANK 16`. -/
def MAX_RANK : Nat := 16

/-- Read `buf[pos]`. -/
def load {α : Type} (buf : List α) (pos : Int) : Except Failure α :=
  if 0 ≤ pos then
    match buf[pos.toNat]? with
    | some v => .ok v
    | none => .error .outOfBounds
  else .error .outOfBounds

/-- Write `buf[pos] = v`. -/
def store {α : Type} (buf : List α) (pos : Int) (v : α) : Except Failure (List α) :=
  if 0 ≤ pos ∧ pos.toNat < buf.length then .ok (buf.set pos.toNat v)
  else .error .outOfBounds

/-- The array `shape` read at `dim`: `shape[dim]`. -/
def extent (shape : List Int) (dim : Nat) : Int := shape.getD dim 0

/-- A `size_t` stride array read at `dim`: `sstrides[dim]`, `dstrides[dim]`. -/
def stride (strides : List Nat) (dim : Nat) : Int := (strides.getD dim 0 : Int)

/-- The stride scaled by the element width, `strides[dim] * bpe`, as a product
of unbounded integers: the value the set-up loops store in `it[dim].sstride`
and `it[dim].dstride` when the product is below `2^64`.  The `size_t` product
itself is `byte_stride_w`. -/
def byte_stride (strides : List Nat) (bpe : Nat) (dim : Nat) : Int :=
  ((strides.getD dim 0 * bpe : Nat) : Int)

/-- The loop state shared by the three kernels: the coordinate counters
`it[dim].coordinate` and the two running offsets `spos`, `dpos`. -/
structure Cursor where
  coordinate : Nat → Int
  spos : Int
  dpos : Int

/-- The value of `count` after `dim` rounds of the set-up loop
`long count = rank > 0 ? 1 : 0; for (dim...) count *= shape[dim];`, as a
product of unbounded integers: the value of the `long` when the product of the
extents is below `2^63` (`count_w_eq`).  The `long` itself is `count_w`. -/
def count_upto (rank : Nat) (shape : List Int) : Nat → Int
  | 0 => if rank > 0 then 1 else 0
  | dim + 1 => count_upto rank shape dim * extent shape dim

/-- The carry loop `for (long dim = rank-1; dim >= 0; dim--) { ... }` of
`strided_set_float` and `strided_set_gen` (lines 68-83 and 129-144), entered
with `dim + 1` axes still to examine.  `none` is `return`; `some cur` is the
cursor with which the outer loop goes on (after `break`, or when the loop
condition fails). -/
def carry (shape sstride dstride : Nat → Int) : Nat → Cursor → Option Cursor
  | 0, cur => some cur
  | dim + 1, cur =>
    let coordinate := cur.coordinate dim + 1
    let spos := cur.spos + sstride dim
    let dpos := cur.dpos + dstride dim
    if coordinate = shape dim then
      let cur' : Cursor :=
        { coordinate := Function.update cur.coordinate dim 0
          spos := spos - shape dim * sstride dim
          dpos := dpos - shape dim * dstride dim }
      if dim = 0 then none else carry shape sstride dstride dim cur'
    else
      some { coordinate := Function.update cur.coordinate dim coordinate
             spos := spos, dpos := dpos }

/-- The main loop of `strided_set_float` (lines 65-84). -/
def strided_set_float_loop {α : Type} (rank : Nat) (shape : List Int) (dstrides : List Nat)
    (src : List α) (sstrides : List Nat) : Nat → Cursor → List α → Except Failure (List α)
  | 0, _, _ => .error .outOfFuel
  | fuel + 1, cur, dest => do
    let v ← load src cur.spos
    let dest ← store dest cur.dpos v
    match carry (extent shape) (stride sstrides) (stride dstrides) rank cur with
    | none => pure dest
    | some cur' => strided_set_float_loop rank shape dstrides src sstrides fuel cur' dest

/-- The function `strided_set_float` (lines 33-85).  The result is the destination buffer
after the call. -/
def strided_set_float {α : Type} (fuel : Nat) (rank : Nat) (shape : List Int) (bpe : Nat)
    (dest : List α) (dstrides : List Nat) (src : List α) (sstrides : List Nat) :
    Except Failure (List α) :=
  let _ := bpe
  if rank > MAX_RANK then .error .assertion
  else if count_upto rank shape rank = 0 then .ok dest
  else strided_set_float_loop rank shape dstrides src sstrides fuel
    { coordinate := fun _ => 0, spos := 0, dpos := 0 } dest

/-- The byte loop `for (int i = 0; i < bpe; i++) dest[dpos+i] = src[spos+i];`
(line 127), run for `i` rounds. -/
def copy_bytes {α : Type} (src : List α) (spos dpos : Int) : Nat → List α → Except Failure (List α)
  | 0, dest => pure dest
  | i + 1, dest => do
    let dest ← copy_bytes src spos dpos i dest
    let v ← load src (spos + i)
    store dest (dpos + i) v

/-- The main loop of `strided_set_gen` (lines 126-145); the strides are the
`bpe`-adjusted `it[dim].sstride`, `it[dim].dstride`. -/
def strided_set_gen_loop {α : Type} (rank : Nat) (shape : List Int) (bpe : Nat)
    (dstrides : List Nat) (src : List α) (sstrides : List Nat) :
    Nat → Cursor → List α → Except Failure (List α)
  | 0, _, _ => .error .outOfFuel
  | fuel + 1, cur, dest => do
    let dest ← copy_bytes src cur.spos cur.dpos bpe dest
    match carry (extent shape) (byte_stride sstrides bpe) (byte_stride dstrides bpe) rank cur with
    | none => pure dest
    | some cur' => strided_set_gen_loop rank shape bpe dstrides src sstrides fuel cur' dest

/-- The function `strided_set_gen` (lines 87-146).  The result is the destination buffer,
as bytes, after the call. -/
def strided_set_gen {α : Type} (fuel : Nat) (rank : Nat) (shape : List Int) (bpe : Nat)
    (dest : List α) (dstrides : List Nat) (src : List α) (sstrides : List Nat) :
    Except Failure (List α) :=
  if rank > MAX_RANK then .error .assertion
  else if count_upto rank shape rank = 0 then .ok dest
  else strided_set_gen_loop rank shape bpe dstrides src sstrides fuel
    { coordinate := fun _ => 0, spos := 0, dpos := 0 } dest

/-- The locals of `flip_gen` that its set-up loop (lines 170-188) computes. -/
structure FlipIt where
  tshape : Nat → Int
  sstride : Nat → Int
  dstride : Nat → Int
  dpos : Int
  swapped_dims : Int
  count : Int
  first : Bool

/-- The set-up loop of `flip_gen` (lines 163-188) after `dim` rounds. -/
def flip_setup (rank : Nat) (shape : List Int) (bpe : Nat) (dstrides : List Nat)
    (axes : List Bool) : Nat → Except Failure FlipIt
  | 0 => .ok
    { tshape := fun _ => 0, sstride := fun _ => 0, dstride := fun _ => 0
      dpos := 0, swapped_dims := 0, count := if rank > 0 then 1 else 0, first := true }
  | dim + 1 => do
    let it ← flip_setup rank shape bpe dstrides axes dim
    let count := it.count * extent shape dim
    if ¬ (dstrides.getD dim 0 > 0) then throw Failure.assertion
    let stride : Int := byte_stride dstrides bpe dim
    if axes.getD dim false then
      pure
        { tshape := Function.update it.tshape dim
            (if it.first then Int.tdiv (extent shape dim + 1) 2 else extent shape dim)
          sstride := Function.update it.sstride dim stride
          dstride := Function.update it.dstride dim (-stride)
          dpos := it.dpos + (extent shape dim - 1) * stride
          swapped_dims := it.swapped_dims + 1
          count := count
          first := false }
    else
      pure
        { tshape := Function.update it.tshape dim (extent shape dim)
          sstride := Function.update it.sstride dim stride
          dstride := Function.update it.dstride dim stride
          dpos := it.dpos
          swapped_dims := it.swapped_dims
          count := count
          first := it.first }

/-- The byte-wise swap of lines 195-201, run for `i` rounds. -/
def swap_bytes {α : Type} (spos dpos : Int) : Nat → List α → Except Failure (List α)
  | 0, dest => pure dest
  | i + 1, dest => do
    let dest ← swap_bytes spos dpos i dest
    let tmp ← load dest (dpos + i)
    let v ← load dest (spos + i)
    let dest ← store dest (dpos + i) v
    store dest (spos + i) tmp

/-- The carry loop of `flip_gen` (lines 203-225), entered with `dim + 1` axes
still to examine: the carry loop of the copies on `tshape`, with the crossing
guard `if (dpos < spos) return;` before `break`. -/
def flip_carry (tshape sstride dstride : Nat → Int) : Nat → Cursor → Option Cursor
  | 0, cur => some cur
  | dim + 1, cur =>
    let coordinate := cur.coordinate dim + 1
    let spos := cur.spos + sstride dim
    let dpos := cur.dpos + dstride dim
    if coordinate = tshape dim then
      let cur' : Cursor :=
        { coordinate := Function.update cur.coordinate dim 0
          spos := spos - tshape dim * sstride dim
          dpos := dpos - tshape dim * dstride dim }
      if dim = 0 then none else flip_carry tshape sstride dstride dim cur'
    else if dpos < spos then none
    else
      some { coordinate := Function.update cur.coordinate dim coordinate
             spos := spos, dpos := dpos }

/-- The main loop of `flip_gen` (lines 193-226). -/
def flip_gen_loop {α : Type} (rank : Nat) (bpe : Nat) (it : FlipIt) :
    Nat → Cursor → List α → Except Failure (List α)
  | 0, _, _ => .error .outOfFuel
  | fuel + 1, cur, dest => do
    let dest ← swap_bytes cur.spos cur.dpos bpe dest
    match flip_carry it.tshape it.sstride it.dstride rank cur with
    | none => pure dest
    | some cur' => flip_gen_loop rank bpe it fuel cur' dest

/-- The function `flip_gen` (lines 149-227).  The result is the buffer, as bytes, after the
call. -/
def flip_gen {α : Type} (fuel : Nat) (rank : Nat) (shape : List Int) (bpe : Nat)
    (dest : List α) (dstrides : List Nat) (axes : List Bool) : Except Failure (List α) :=
  if rank > MAX_RANK then .error .assertion
  else do
    let it ← flip_setup rank shape bpe dstrides axes rank
    let cur : Cursor := { coordinate := fun _ => 0, spos := 0, dpos := it.dpos }
    if it.swapped_dims = 0 then .ok dest
    else if it.count = 0 then .ok dest
    else flip_gen_loop rank bpe it fuel cur dest

/-! ## Vocabulary of the contracts -/

/-- The multi-index `c` lies in the box of extents `T` over the first `n`
axes: `0 ≤ c a < T a`. -/
def InShape (T : Nat → Int) (n : Nat) (c : Nat → Int) : Prop :=
  ∀ a, a < n → 0 ≤ c a ∧ c a < T a

/-- The product of the first `n` extents. -/
def extent_prod (T : Nat → Int) : Nat → Int
  | 0 => 1
  | n + 1 => extent_prod T n * T n

/-- The linear offset `Σ_{a<n} c a * str a` of a multi-index. -/
def offset (str : Nat → Int) (c : Nat → Int) : Nat → Int
  | 0 => 0
  | n + 1 => offset str c n + c n * str n

/-- The row-major position of a multi-index among those of the box `T`
(axis `n-1` fastest, axis `0` slowest). -/
def ravel (T : Nat → Int) (c : Nat → Int) : Nat → Int
  | 0 => 0
  | n + 1 => ravel T c n * T n + c n

/-- The `k`-th multi-index of the box `T` over `n` axes in row-major order
(its mixed-radix digits; zero on the axes `≥ n`). -/
def unravel (T : Nat → Int) : Nat → Int → Nat → Int
  | 0, _ => fun _ => 0
  | n + 1, k => Function.update (unravel T n (k / T n)) n (k % T n)

/-- The sequence of cursor pairs `(spos, dpos)` at which the main loop of the
copies executes its body: the loop of `strided_set_float_loop` and
`strided_set_gen_loop` with the copy left out. -/
def copy_trace (shape sstride dstride : Nat → Int) (rank : Nat) :
    Nat → Cursor → Option (List (Int × Int))
  | 0, _ => none
  | fuel + 1, cur =>
    match carry shape sstride dstride rank cur with
    | none => some [(cur.spos, cur.dpos)]
    | some cur' =>
      (copy_trace shape sstride dstride rank fuel cur').map (fun tr => (cur.spos, cur.dpos) :: tr)

/-- The sequence of cursor pairs `(spos, dpos)` at which `strided_set_float`
copies an element. -/
def strided_set_float_trace (fuel : Nat) (rank : Nat) (shape : List Int)
    (dstrides : List Nat) (sstrides : List Nat) : Except Failure (List (Int × Int)) :=
  if rank > MAX_RANK then .error .assertion
  else if count_upto rank shape rank = 0 then .ok []
  else match copy_trace (extent shape) (stride sstrides) (stride dstrides) rank fuel
      { coordinate := fun _ => 0, spos := 0, dpos := 0 } with
    | none => .error .outOfFuel
    | some tr => .ok tr

/-- The sequence of cursor pairs `(spos, dpos)`, in bytes, at which
`strided_set_gen` copies an element. -/
def strided_set_gen_trace (fuel : Nat) (rank : Nat) (shape : List Int) (bpe : Nat)
    (dstrides : List Nat) (sstrides : List Nat) : Except Failure (List (Int × Int)) :=
  if rank > MAX_RANK then .error .assertion
  else if count_upto rank shape rank = 0 then .ok []
  else match copy_trace (extent shape) (byte_stride sstrides bpe) (byte_stride dstrides bpe)
      rank fuel
      { coordinate := fun _ => 0, spos := 0, dpos := 0 } with
    | none => .error .outOfFuel
    | some tr => .ok tr

/-- The sequence of cursor pairs `(spos, dpos)` at which the main loop of
`flip_gen` swaps an element: `flip_gen_loop` with the swap left out. -/
def flip_trace (tshape sstride dstride : Nat → Int) (rank : Nat) :
    Nat → Cursor → Option (List (Int × Int))
  | 0, _ => none
  | fuel + 1, cur =>
    match flip_carry tshape sstride dstride rank cur with
    | none => some [(cur.spos, cur.dpos)]
    | some cur' =>
      (flip_trace tshape sstride dstride rank fuel cur').map (fun tr => (cur.spos, cur.dpos) :: tr)

/-- The sequence of cursor pairs `(spos, dpos)`, in bytes, at which `flip_gen`
swaps an element. -/
def flip_gen_trace (fuel : Nat) (rank : Nat) (shape : List Int) (bpe : Nat)
    (dstrides : List Nat) (axes : List Bool) : Except Failure (List (Int × Int)) :=
  if rank > MAX_RANK then .error .assertion
  else do
    let it ← flip_setup rank shape bpe dstrides axes rank
    let cur : Cursor := { coordinate := fun _ => 0, spos := 0, dpos := it.dpos }
    if it.swapped_dims = 0 then .ok []
    else if it.count = 0 then .ok []
    else match flip_trace it.tshape it.sstride it.dstride rank fuel cur with
      | none => .error .outOfFuel
      | some tr => .ok tr

/-- The pair of offsets of the `k`-th multi-index of the box `T` in row-major
order, for the strides `σ` (from the base `S0`) and `δ` (from the base `D0`). -/
def pair_at (T σ δ : Nat → Int) (n : Nat) (S0 D0 : Int) (k : Int) : Int × Int :=
  (S0 + offset σ (unravel T n k) n, D0 + offset δ (unravel T n k) n)

/-- The axis `a` is selected by the mask `axes`. -/
def flipped (axes : List Bool) (a : Nat) : Prop := axes.getD a false = true

instance (axes : List Bool) (a : Nat) : Decidable (flipped axes a) := by
  unfold flipped; infer_instance

/-- The axis `a` is the first selected axis, in outer-to-inner order. -/
def first_flipped (axes : List Bool) (a : Nat) : Prop :=
  flipped axes a ∧ ∀ b, b < a → ¬ flipped axes b

instance (axes : List Bool) (a : Nat) : Decidable (first_flipped axes a) := by
  unfold first_flipped; infer_instance

/-- The extents of the box that `flip_gen` walks (`it[dim].tshape`): the
shape, with the extent of the first selected axis replaced by `(extent+1)/2`. -/
def flip_tshape (shape : List Int) (axes : List Bool) (a : Nat) : Int :=
  if first_flipped axes a then Int.tdiv (extent shape a + 1) 2 else extent shape a

/-- The step of the backward cursor of `flip_gen` (`it[dim].dstride`). -/
def flip_dstride (dstrides : List Nat) (bpe : Nat) (axes : List Bool) (a : Nat) : Int :=
  if flipped axes a then - byte_stride dstrides bpe a else byte_stride dstrides bpe a

/-- The mirror image `r(c)` of a multi-index: `extent - 1 - c a` on the
selected axes, `c a` on the others. -/
def mirror (shape : List Int) (axes : List Bool) (c : Nat → Int) (a : Nat) : Int :=
  if flipped axes a then extent shape a - 1 - c a else c a

/-- Where the byte now at position `x` was before the `w` bytes at `p.1` and
the `w` bytes at `p.2` were exchanged. -/
def swap_pos (w : Nat) (p : Int × Int) (x : Int) : Int :=
  if p.1 ≤ x ∧ x < p.1 + w then p.2 + (x - p.1)
  else if p.2 ≤ x ∧ x < p.2 + w then p.1 + (x - p.2)
  else x

/-- Where the byte now at position `x` was before the exchanges of the pairs
`f 0, ..., f (m-1)`, made in this order. -/
def flip_perm (w : Nat) (f : Nat → Int × Int) : Nat → Int → Int
  | 0, x => x
  | m + 1, x => flip_perm w f m (swap_pos w (f m) x)

/-- The byte ranges of width `w` at `a` and at `b` do not meet. -/
def Apart (w : Nat) (a b : Int) : Prop := a + w ≤ b ∨ b + w ≤ a

/-- The byte position `x` lies in one of the two ranges of the pair `p`. -/
def InPair (w : Nat) (p : Int × Int) (x : Int) : Prop :=
  (p.1 ≤ x ∧ x < p.1 + w) ∨ (p.2 ≤ x ∧ x < p.2 + w)

/-- The pair of byte offsets that `flip_gen` swaps at the `j`-th multi-index
`c` of its walked box: the offset of `c` and the offset of its mirror image. -/
def flip_pair (shape : List Int) (bpe : Nat) (dstrides : List Nat) (axes : List Bool)
    (rank : Nat) (j : Nat) : Int × Int :=
  (offset (stride dstrides) (unravel (flip_tshape shape axes) rank j) rank * bpe,
   offset (stride dstrides)
    (mirror shape axes (unravel (flip_tshape shape axes) rank j)) rank * bpe)

/-- The value of a `long` to which the integer `x` is assigned: the
representative of `x` modulo `2^64` in `[-2^63, 2^63)`. -/
def to_long (x : Int) : Int :=
  (x + 9223372036854775808) % 18446744073709551616 - 9223372036854775808

/-- The `size_t` product `strides[dim] * bpe`, modulo `2^64`: the value that the
set-up loops compute for `it[dim].sstride` and `it[dim].dstride` (lines 120-121
and 173-174). -/
def byte_stride_w (strides : List Nat) (bpe : Nat) (dim : Nat) : Int :=
  ((strides.getD dim 0 * bpe % 18446744073709551616 : Nat) : Int)

/-- The value of `long count` after `dim` rounds of the set-up loop
`long count = rank > 0 ? 1 : 0; for (dim...) count *= shape[dim];`. -/
def count_w (rank : Nat) (shape : List Int) : Nat → Int
  | 0 => if rank > 0 then 1 else 0
  | dim + 1 => to_long (count_w rank shape dim * extent shape dim)

/-- The carry loop of the three kernels (lines 68-83, 129-144) on `long`
cursors and coordinates, entered with `dim + 1` axes still to examine. -/
def carry_w (shape sstride dstride : Nat → Int) : Nat → Cursor → Option Cursor
  | 0, cur => some cur
  | dim + 1, cur =>
    let coordinate := to_long (cur.coordinate dim + 1)
    let spos := to_long (cur.spos + sstride dim)
    let dpos := to_long (cur.dpos + dstride dim)
    if coordinate = shape dim then
      let cur' : Cursor :=
        { coordinate := Function.update cur.coordinate dim 0
          spos := to_long (spos - shape dim * sstride dim)
          dpos := to_long (dpos - shape dim * dstride dim) }
      if dim = 0 then none else carry_w shape sstride dstride dim cur'
    else
      some { coordinate := Function.update cur.coordinate dim coordinate
             spos := spos, dpos := dpos }

/-- The main loop of `strided_set_float` (lines 65-84) on `long` cursors. -/
def strided_set_float_loop_w {α : Type} (rank : Nat) (shape : List Int) (dstrides : List Nat)
    (src : List α) (sstrides : List Nat) : Nat → Cursor → List α → Except Failure (List α)
  | 0, _, _ => .error .outOfFuel
  | fuel + 1, cur, dest => do
    let v ← load src cur.spos
    let dest ← store dest cur.dpos v
    match carry_w (extent shape) (stride sstrides) (stride dstrides) rank cur with
    | none => pure dest
    | some cur' => strided_set_float_loop_w rank shape dstrides src sstrides fuel cur' dest

/-- The function `strided_set_float` (lines 33-85) on 64-bit words. -/
def strided_set_float_w {α : Type} (fuel : Nat) (rank : Nat) (shape : List Int) (bpe : Nat)
    (dest : List α) (dstrides : List Nat) (src : List α) (sstrides : List Nat) :
    Except Failure (List α) :=
  let _ := bpe
  if rank > MAX_RANK then .error .assertion
  else if count_w rank shape rank = 0 then .ok dest
  else strided_set_float_loop_w rank shape dstrides src sstrides fuel
    { coordinate := fun _ => 0, spos := 0, dpos := 0 } dest

/-- The byte loop `for (int i = 0; i < bpe; i++) dest[dpos+i] = src[spos+i];`
(line 127), run for `i` rounds; the indices `dpos+i`, `spos+i` are `long`. -/
def copy_bytes_w {α : Type} (src : List α) (spos dpos : Int) :
    Nat → List α → Except Failure (List α)
  | 0, dest => pure dest
  | i + 1, dest => do
    let dest ← copy_bytes_w src spos dpos i dest
    let v ← load src (to_long (spos + i))
    store dest (to_long (dpos + i)) v

/-- The main loop of `strided_set_gen` (lines 126-145) on `long` cursors, with
the `size_t` steps `it[dim].sstride`, `it[dim].dstride`. -/
def strided_set_gen_loop_w {α : Type} (rank : Nat) (shape : List Int) (bpe : Nat)
    (dstrides : List Nat) (src : List α) (sstrides : List Nat) :
    Nat → Cursor → List α → Except Failure (List α)
  | 0, _, _ => .error .outOfFuel
  | fuel + 1, cur, dest => do
    let dest ← copy_bytes_w src cur.spos cur.dpos bpe dest
    match carry_w (extent shape) (byte_stride_w sstrides bpe) (byte_stride_w dstrides bpe)
        rank cur with
    | none => pure dest
    | some cur' => strided_set_gen_loop_w rank shape bpe dstrides src sstrides fuel cur' dest

/-- The function `strided_set_gen` (lines 87-146) on 64-bit words. -/
def strided_set_gen_w {α : Type} (fuel : Nat) (rank : Nat) (shape : List Int) (bpe : Nat)
    (dest : List α) (dstrides : List Nat) (src : List α) (sstrides : List Nat) :
    Except Failure (List α) :=
  if rank > MAX_RANK then .error .assertion
  else if count_w rank shape rank = 0 then .ok dest
  else strided_set_gen_loop_w rank shape bpe dstrides src sstrides fuel
    { coordinate := fun _ => 0, spos := 0, dpos := 0 } dest

/-- The set-up loop of `flip_gen` (lines 163-188) after `dim` rounds, on 64-bit
words: the steps are the `size_t` product stored in a `long`. -/
def flip_setup_w (rank : Nat) (shape : List Int) (bpe : Nat) (dstrides : List Nat)
    (axes : List Bool) : Nat → Except Failure FlipIt
  | 0 => .ok
    { tshape := fun _ => 0, sstride := fun _ => 0, dstride := fun _ => 0
      dpos := 0, swapped_dims := 0, count := if rank > 0 then 1 else 0, first := true }
  | dim + 1 => do
    let it ← flip_setup_w rank shape bpe dstrides axes dim
    let count := to_long (it.count * extent shape dim)
    if ¬ (dstrides.getD dim 0 > 0) then throw Failure.assertion
    let stride : Int := to_long (byte_stride_w dstrides bpe dim)
    if axes.getD dim false then
      pure
        { tshape := Function.update it.tshape dim
            (if it.first then Int.tdiv (to_long (extent shape dim + 1)) 2
              else extent shape dim)
          sstride := Function.update it.sstride dim stride
          dstride := Function.update it.dstride dim (to_long (-stride))
          dpos := to_long (it.dpos + (extent shape dim - 1) * stride)
          swapped_dims := to_long (it.swapped_dims + 1)
          count := count
          first := false }
    else
      pure
        { tshape := Function.update it.tshape dim (extent shape dim)
          sstride := Function.update it.sstride dim stride
          dstride := Function.update it.dstride dim stride
          dpos := it.dpos
          swapped_dims := it.swapped_dims
          count := count
          first := it.first }

/-- The byte-wise swap of lines 195-201, run for `i` rounds, with `long`
indices. -/
def swap_bytes_w {α : Type} (spos dpos : Int) : Nat → List α → Except Failure (List α)
  | 0, dest => pure dest
  | i + 1, dest => do
    let dest ← swap_bytes_w spos dpos i dest
    let tmp ← load dest (to_long (dpos + i))
    let v ← load dest (to_long (spos + i))
    let dest ← store dest (to_long (dpos + i)) v
    store dest (to_long (spos + i)) tmp

/-- The carry loop of `flip_gen` (lines 203-225) on `long` cursors. -/
def flip_carry_w (tshape sstride dstride : Nat → Int) : Nat → Cursor → Option Cursor
  | 0, cur => some cur
  | dim + 1, cur =>
    let coordinate := to_long (cur.coordinate dim + 1)
    let spos := to_long (cur.spos + sstride dim)
    let dpos := to_long (cur.dpos + dstride dim)
    if coordinate = tshape dim then
      let cur' : Cursor :=
        { coordinate := Function.update cur.coordinate dim 0
          spos := to_long (spos - tshape dim * sstride dim)
          dpos := to_long (dpos - tshape dim * dstride dim) }
      if dim = 0 then none else flip_carry_w tshape sstride dstride dim cur'
    else if dpos < spos then none
    else
      some { coordinate := Function.update cur.coordinate dim coordinate
             spos := spos, dpos := dpos }

/-- The main loop of `flip_gen` (lines 193-226) on `long` cursors. -/
def flip_gen_loop_w {α : Type} (rank : Nat) (bpe : Nat) (it : FlipIt) :
    Nat → Cursor → List α → Except Failure (List α)
  | 0, _, _ => .error .outOfFuel
  | fuel + 1, cur, dest => do
    let dest ← swap_bytes_w cur.spos cur.dpos bpe dest
    match flip_carry_w it.tshape it.sstride it.dstride rank cur with
    | none => pure dest
    | some cur' => flip_gen_loop_w rank bpe it fuel cur' dest

/-- The function `flip_gen` (lines 149-227) on 64-bit words. -/
def flip_gen_w {α : Type} (fuel : Nat) (rank : Nat) (shape : List Int) (bpe : Nat)
    (dest : List α) (dstrides : List Nat) (axes : List Bool) : Except Failure (List α) :=
  if rank > MAX_RANK then .error .assertion
  else do
    let it ← flip_setup_w rank shape bpe dstrides axes rank
    let cur : Cursor := { coordinate := fun _ => 0, spos := 0, dpos := it.dpos }
    if it.swapped_dims = 0 then .ok dest
    else if it.count = 0 then .ok dest
    else flip_gen_loop_w rank bpe it fuel cur dest

/-- The sequence of cursor pairs `(spos, dpos)` at which the main loop of the
copies on 64-bit words executes its body. -/
def copy_trace_w (shape sstride dstride : Nat → Int) (rank : Nat) :
    Nat → Cursor → Option (List (Int × Int))
  | 0, _ => none
  | fuel + 1, cur =>
    match carry_w shape sstride dstride rank cur with
    | none => some [(cur.spos, cur.dpos)]
    | some cur' =>
      (copy_trace_w shape sstride dstride rank fuel cur').map
        (fun tr => (cur.spos, cur.dpos) :: tr)

/-- The sequence of cursor pairs `(spos, dpos)` at which `strided_set_float`
copies an element, on 64-bit words. -/
def strided_set_float_trace_w (fuel : Nat) (rank : Nat) (shape : List Int)
    (dstrides : List Nat) (sstrides : List Nat) : Except Failure (List (Int × Int)) :=
  if rank > MAX_RANK then .error .assertion
  else if count_w rank shape rank = 0 then .ok []
  else match copy_trace_w (extent shape) (stride sstrides) (stride dstrides) rank fuel
      { coordinate := fun _ => 0, spos := 0, dpos := 0 } with
    | none => .error .outOfFuel
    | some tr => .ok tr

/-- The sequence of cursor pairs `(spos, dpos)`, in bytes, at which
`strided_set_gen` copies an element, on 64-bit words. -/
def strided_set_gen_trace_w (fuel : Nat) (rank : Nat) (shape : List Int) (bpe : Nat)
    (dstrides : List Nat) (sstrides : List Nat) : Except Failure (List (Int × Int)) :=
  if rank > MAX_RANK then .error .assertion
  else if count_w rank shape rank = 0 then .ok []
  else match copy_trace_w (extent shape) (byte_stride_w sstrides bpe)
      (byte_stride_w dstrides bpe) rank fuel
      { coordinate := fun _ => 0, spos := 0, dpos := 0 } with
    | none => .error .outOfFuel
    | some tr => .ok tr

/-- The sequence of cursor pairs `(spos, dpos)` at which the main loop of
`flip_gen` on 64-bit words swaps an element. -/
def flip_trace_w (tshape sstride dstride : Nat → Int) (rank : Nat) :
    Nat → Cursor → Option (List (Int × Int))
  | 0, _ => none
  | fuel + 1, cur =>
    match flip_carry_w tshape sstride dstride rank cur with
    | none => some [(cur.spos, cur.dpos)]
    | some cur' =>
      (flip_trace_w tshape sstride dstride rank fuel cur').map
        (fun tr => (cur.spos, cur.dpos) :: tr)

/-- The sequence of cursor pairs `(spos, dpos)`, in bytes, at which `flip_gen`
swaps an element, on 64-bit words. -/
def flip_gen_trace_w (fuel : Nat) (rank : Nat) (shape : List Int) (bpe : Nat)
    (dstrides : List Nat) (axes : List Bool) : Except Failure (List (Int × Int)) :=
  if rank > MAX_RANK then .error .assertion
  else do
    let it ← flip_setup_w rank shape bpe dstrides axes rank
    let cur : Cursor := { coordinate := fun _ => 0, spos := 0, dpos := it.dpos }
    if it.swapped_dims = 0 then .ok []
    else if it.count = 0 then .ok []
    else match flip_trace_w it.tshape it.sstride it.dstride rank fuel cur with
      | none => .error .outOfFuel
      | some tr => .ok tr

/-- The cursor of the kernels on 64-bit words that corresponds to a cursor on
unbounded integers: the same coordinates, the offsets stored in a `long`. -/
def wrap_cursor (cur : Cursor) : Cursor :=
  { coordinate := cur.coordinate, spos := to_long cur.spos, dpos := to_long cur.dpos }

/-! ## Theorems -/

/-! ### Arithmetic of the odometer -/

theorem offset_update_ge (str c : Nat → Int) (d : Nat) (v : Int) (n : Nat) (h : n ≤ d) :
    offset str (Function.update c d v) n = offset str c n := by
  induction n with
  | zero => rfl
  | succ n ih =>
    have hne : n ≠ d := by omega
    simp [offset, ih (by omega), Function.update_noteq hne]

theorem ravel_update_ge (T c : Nat → Int) (d : Nat) (v : Int) (n : Nat) (h : n ≤ d) :
    ravel T (Function.update c d v) n = ravel T c n := by
  induction n with
  | zero => rfl
  | succ n ih =>
    have hne : n ≠ d := by omega
    simp [ravel, ih (by omega), Function.update_noteq hne]

theorem offset_congr (str c c' : Nat → Int) (n : Nat) (h : ∀ a, a < n → c a = c' a) :
    offset str c n = offset str c' n := by
  induction n with
  | zero => rfl
  | succ n ih =>
    simp [offset, ih (fun a ha => h a (by omega)), h n (by omega)]

theorem ravel_congr (T c c' : Nat → Int) (n : Nat) (h : ∀ a, a < n → c a = c' a) :
    ravel T c n = ravel T c' n := by
  induction n with
  | zero => rfl
  | succ n ih =>
    simp [ravel, ih (fun a ha => h a (by omega)), h n (by omega)]

theorem InShape.mono {T : Nat → Int} {n m : Nat} {c : Nat → Int} (h : InShape T n c)
    (hm : m ≤ n) : InShape T m c :=
  fun a ha => h a (by omega)

theorem InShape.update {T : Nat → Int} {n : Nat} {c : Nat → Int} (h : InShape T n c)
    (d : Nat) (v : Int) (hv : 0 ≤ v ∧ v < T d) : InShape T n (Function.update c d v) := by
  intro a ha
  by_cases e : a = d
  · subst e; simpa using hv
  · simpa [Function.update_noteq e] using h a ha

theorem extent_prod_pos (T : Nat → Int) (n : Nat) (h : ∀ a, a < n → 0 < T a) :
    0 < extent_prod T n := by
  induction n with
  | zero => simp [extent_prod]
  | succ n ih =>
    simp only [extent_prod]
    exact Int.mul_pos (ih (fun a ha => h a (by omega))) (h n (by omega))

theorem InShape.extent_pos {T : Nat → Int} {n : Nat} {c : Nat → Int} (h : InShape T n c)
    (a : Nat) (ha : a < n) : 0 < T a := by
  have := h a ha
  omega

theorem ravel_bounds (T c : Nat → Int) (n : Nat) (h : InShape T n c) :
    0 ≤ ravel T c n ∧ ravel T c n + 1 ≤ extent_prod T n := by
  induction n with
  | zero => simp [ravel, extent_prod]
  | succ n ih =>
    obtain ⟨h0, h1⟩ := ih (h.mono (by omega))
    obtain ⟨c0, c1⟩ := h n (by omega)
    simp only [ravel, extent_prod]
    constructor
    · have := Int.mul_nonneg h0 (by omega : (0 : Int) ≤ T n)
      omega
    · have : (ravel T c n + 1) * T n ≤ extent_prod T n * T n :=
        Int.mul_le_mul_of_nonneg_right h1 (by omega)
      have e : (ravel T c n + 1) * T n = ravel T c n * T n + T n := by ring
      omega
theorem unravel_ge (T : Nat → Int) (n : Nat) (k : Int) (a : Nat) (h : n ≤ a) :
    unravel T n k a = 0 := by
  induction n generalizing k with
  | zero => rfl
  | succ n ih =>
    have hne : a ≠ n := by omega
    simp [unravel, Function.update_noteq hne, ih (k / T n) (by omega)]

theorem unravel_inShape (T : Nat → Int) (n : Nat) (hT : ∀ a, a < n → 0 < T a) (k : Int) :
    InShape T n (unravel T n k) := by
  induction n generalizing k with
  | zero => intro a ha; omega
  | succ n ih =>
    intro a ha
    by_cases e : a = n
    · subst e
      have hp := hT a (by omega)
      simp only [unravel, Function.update_same]
      exact ⟨Int.emod_nonneg _ (by omega), Int.emod_lt_of_pos _ hp⟩
    · simp only [unravel, Function.update_noteq e]
      exact ih (fun b hb => hT b (by omega)) (k / T n) a (by omega)

theorem unravel_ravel (T c : Nat → Int) (n : Nat) (h : InShape T n c) (a : Nat) (ha : a < n) :
    unravel T n (ravel T c n) a = c a := by
  induction n generalizing a with
  | zero => omega
  | succ n ih =>
    obtain ⟨c0, c1⟩ := h n (by omega)
    have hq : (ravel T c n * T n + c n) / T n = ravel T c n := by
      rw [Int.add_comm, Int.add_mul_ediv_right _ _ (by omega), Int.ediv_eq_zero_of_lt c0 c1]
      simp
    have hr : (ravel T c n * T n + c n) % T n = c n := by
      rw [Int.add_comm, Int.add_mul_emod_self, Int.emod_eq_of_lt c0 c1]
    by_cases e : a = n
    · subst e
      simp only [unravel, ravel, Function.update_same, hr]
    · simp only [unravel, ravel, Function.update_noteq e, hq]
      exact ih (h.mono (by omega)) a (by omega)

theorem ravel_unravel (T : Nat → Int) (n : Nat) (hT : ∀ a, a < n → 0 < T a) (k : Int)
    (h0 : 0 ≤ k) (h1 : k < extent_prod T n) : ravel T (unravel T n k) n = k := by
  induction n generalizing k with
  | zero => simp only [extent_prod] at h1; simp only [ravel]; omega
  | succ n ih =>
    have hp := hT n (by omega)
    simp only [extent_prod] at h1
    have hq0 : 0 ≤ k / T n := Int.ediv_nonneg h0 (by omega)
    have hq1 : k / T n < extent_prod T n := by
      apply Int.ediv_lt_of_lt_mul hp h1
    simp only [ravel, unravel, Function.update_same]
    rw [ravel_update_ge _ _ _ _ _ (le_refl n), ih (fun b hb => hT b (by omega)) _ hq0 hq1]
    exact Int.ediv_add_emod' k (T n)

theorem ravel_succ (T c : Nat → Int) (n : Nat) :
    ravel T c (n + 1) = ravel T c n * T n + c n := rfl

theorem offset_succ (str c : Nat → Int) (n : Nat) :
    offset str c (n + 1) = offset str c n + c n * str n := rfl

/-! ### The carry loop -/

/-- One run of the carry loop from a multi-index of the box: it returns exactly
at the last multi-index, and otherwise moves to the next one in row-major order,
both offsets following. -/
theorem carry_spec (T σ δ : Nat → Int) (n : Nat) (cur : Cursor)
    (h : InShape T (n + 1) cur.coordinate) :
    match carry T σ δ (n + 1) cur with
    | none => ravel T cur.coordinate (n + 1) + 1 = extent_prod T (n + 1)
    | some cur' =>
      InShape T (n + 1) cur'.coordinate ∧
      ravel T cur'.coordinate (n + 1) = ravel T cur.coordinate (n + 1) + 1 ∧
      (∀ a, n + 1 ≤ a → cur'.coordinate a = cur.coordinate a) ∧
      cur'.spos - offset σ cur'.coordinate (n + 1) = cur.spos - offset σ cur.coordinate (n + 1) ∧
      cur'.dpos - offset δ cur'.coordinate (n + 1) = cur.dpos - offset δ cur.coordinate (n + 1) := by
  induction n generalizing cur with
  | zero =>
    obtain ⟨c0, c1⟩ := h 0 (by omega)
    unfold carry
    by_cases e : cur.coordinate 0 + 1 = T 0
    · simp [e, ravel, extent_prod]
    · simp only [e, if_false]
      refine ⟨?_, ?_, ?_, ?_, ?_⟩
      · exact h.update 0 _ ⟨by omega, by omega⟩
      · simp [ravel]
      · intro a ha
        exact Function.update_noteq (by omega) _ _
      · simp [offset]; ring
      · simp [offset]; ring
  | succ n ih =>
    obtain ⟨c0, c1⟩ := h (n + 1) (by omega)
    unfold carry
    by_cases e : cur.coordinate (n + 1) + 1 = T (n + 1)
    · simp only [e, if_true, Nat.succ_ne_zero, if_false]
      have hv : InShape T (n + 1) (Function.update cur.coordinate (n + 1) 0) :=
        (h.update (n + 1) 0 ⟨by omega, by omega⟩).mono (by omega)
      have := ih { coordinate := Function.update cur.coordinate (n + 1) 0
                   spos := cur.spos + σ (n + 1) - T (n + 1) * σ (n + 1)
                   dpos := cur.dpos + δ (n + 1) - T (n + 1) * δ (n + 1) } hv
      revert this
      cases carry T σ δ (n + 1) _ with
      | none =>
        simp only [ravel_update_ge _ _ _ _ _ (le_refl (n + 1))]
        intro hr
        simp only [ravel, extent_prod] at hr ⊢
        rw [← hr]
        have : cur.coordinate (n + 1) = T (n + 1) - 1 := by omega
        rw [this]; ring
      | some cur' =>
        simp only [ravel_update_ge _ _ _ _ _ (le_refl (n + 1)),
          offset_update_ge _ _ _ _ _ (le_refl (n + 1))]
        rintro ⟨hin, hr, hfix, hs, hd⟩
        have hz : cur'.coordinate (n + 1) = 0 := by
          rw [hfix (n + 1) (le_refl _)]; simp
        refine ⟨?_, ?_, ?_, ?_, ?_⟩
        · intro a ha
          by_cases ea : a = n + 1
          · subst ea; rw [hz]; omega
          · exact hin a (by omega)
        · simp only [ravel] at hr ⊢
          rw [hr, hz]
          have : cur.coordinate (n + 1) = T (n + 1) - 1 := by omega
          rw [this]; ring
        · intro a ha
          rw [hfix a (by omega)]
          exact Function.update_noteq (by omega) _ _
        · simp only [offset] at hs ⊢
          rw [hz]
          have : cur.coordinate (n + 1) = T (n + 1) - 1 := by omega
          rw [this]
          linear_combination hs
        · simp only [offset] at hd ⊢
          rw [hz]
          have : cur.coordinate (n + 1) = T (n + 1) - 1 := by omega
          rw [this]
          linear_combination hd
    · simp only [e, if_false]
      refine ⟨?_, ?_, ?_, ?_, ?_⟩
      · exact h.update (n + 1) _ ⟨by omega, by omega⟩
      · rw [ravel_succ T (Function.update _ _ _) (n + 1), ravel_succ T cur.coordinate (n + 1),
          ravel_update_ge _ _ _ _ _ (le_refl (n + 1)), Function.update_same]
        ring
      · intro a ha
        exact Function.update_noteq (by omega) _ _
      · rw [offset_succ σ (Function.update _ _ _) (n + 1), offset_succ σ cur.coordinate (n + 1),
          offset_update_ge _ _ _ _ _ (le_refl (n + 1)), Function.update_same]
        ring
      · rw [offset_succ δ (Function.update _ _ _) (n + 1), offset_succ δ cur.coordinate (n + 1),
          offset_update_ge _ _ _ _ _ (le_refl (n + 1)), Function.update_same]
        ring

/-! ### The traversal of the copies -/

theorem pair_at_ravel (T σ δ : Nat → Int) (n : Nat) (S0 D0 : Int) (c : Nat → Int)
    (h : InShape T n c) :
    pair_at T σ δ n S0 D0 (ravel T c n) = (S0 + offset σ c n, D0 + offset δ c n) := by
  unfold pair_at
  rw [offset_congr σ _ c n (unravel_ravel T c n h), offset_congr δ _ c n (unravel_ravel T c n h)]

/-- From the multi-index of row-major position `k`, the main loop of the copies
visits the multi-indices of positions `k, k+1, ..., N-1` in this order and
returns, when its budget is at least `N - k`. -/
theorem copy_trace_spec (T σ δ : Nat → Int) (n : Nat) (S0 D0 : Int) (fuel : Nat) (cur : Cursor)
    (h : InShape T (n + 1) cur.coordinate)
    (hs : cur.spos = S0 + offset σ cur.coordinate (n + 1))
    (hd : cur.dpos = D0 + offset δ cur.coordinate (n + 1))
    (hf : extent_prod T (n + 1) ≤ ravel T cur.coordinate (n + 1) + fuel) :
    copy_trace T σ δ (n + 1) fuel cur =
      some ((List.range (extent_prod T (n + 1) - ravel T cur.coordinate (n + 1)).toNat).map
        (fun j : Nat => pair_at T σ δ (n + 1) S0 D0 (ravel T cur.coordinate (n + 1) + j))) := by
  induction fuel generalizing cur with
  | zero =>
    have := (ravel_bounds T cur.coordinate (n + 1) h).2
    omega
  | succ fuel ih =>
    have hb := ravel_bounds T cur.coordinate (n + 1) h
    have hc := carry_spec T σ δ n cur h
    unfold copy_trace
    revert hc
    cases carry T σ δ (n + 1) cur with
    | none =>
      intro hc
      have e1 : (extent_prod T (n + 1) - ravel T cur.coordinate (n + 1)).toNat = 1 := by omega
      have e2 : List.range 1 = [0] := rfl
      simp only [e1, e2, List.map_cons, List.map_nil, Nat.cast_zero, add_zero,
        pair_at_ravel T σ δ (n + 1) S0 D0 _ h, hs, hd]
    | some cur' =>
      rintro ⟨hin, hr, -, hs', hd'⟩
      have hs2 : cur'.spos = S0 + offset σ cur'.coordinate (n + 1) := by omega
      have hd2 : cur'.dpos = D0 + offset δ cur'.coordinate (n + 1) := by omega
      have hb' := ravel_bounds T cur'.coordinate (n + 1) hin
      simp only [ih cur' hin hs2 hd2 (by omega), Option.map_some']
      have e1 : (extent_prod T (n + 1) - ravel T cur.coordinate (n + 1)).toNat =
          (extent_prod T (n + 1) - ravel T cur'.coordinate (n + 1)).toNat + 1 := by omega
      rw [e1, List.range_succ_eq_map, List.map_cons, List.map_map]
      congr 2
      · simp only [Nat.cast_zero, add_zero, pair_at_ravel T σ δ (n + 1) S0 D0 _ h, hs, hd]
      · apply List.map_congr_left
        intro j _
        simp only [Function.comp, hr, Nat.cast_succ]
        congr 1
        ring

/-! ### Buffers -/

theorem load_ok {α : Type} (buf : List α) (pos : Int) (h0 : 0 ≤ pos) (h1 : pos < buf.length) :
    ∃ v, load buf pos = .ok v := by
  have hlt : pos.toNat < buf.length := by omega
  refine ⟨buf[pos.toNat], ?_⟩
  simp [load, h0, List.getElem?_eq_getElem hlt]

theorem store_ok {α : Type} (buf : List α) (pos : Int) (v : α) (h0 : 0 ≤ pos)
    (h1 : pos < buf.length) : store buf pos v = .ok (buf.set pos.toNat v) := by
  have hlt : pos.toNat < buf.length := by omega
  simp [store, h0, hlt]

theorem load_set {α : Type} (buf : List α) (pos : Int) (v : α) (h0 : 0 ≤ pos)
    (h1 : pos < buf.length) (x : Int) :
    load (buf.set pos.toNat v) x = if x = pos then .ok v else load buf x := by
  have hlt : pos.toNat < buf.length := by omega
  by_cases e : x = pos
  · subst e
    simp [load, h0, List.getElem?_set, hlt]
  · simp only [e, if_false]
    by_cases hx : 0 ≤ x
    · have hne : pos.toNat ≠ x.toNat := by omega
      simp [load, hx, List.getElem?_set, hne]
    · simp [load, hx]

/-- Two buffers of the same length that read the same everywhere are equal. -/
theorem buf_ext {α : Type} (b1 b2 : List α) (hlen : b1.length = b2.length)
    (h : ∀ x : Int, load b1 x = load b2 x) : b1 = b2 := by
  apply List.ext_getElem hlen
  intro i h1 h2
  have := h (i : Int)
  simp only [load, Int.toNat_ofNat, Int.ofNat_nonneg, if_true, List.getElem?_eq_getElem h1,
    List.getElem?_eq_getElem h2] at this
  exact Except.ok.inj this

/-- The byte loop of `strided_set_gen` copies the `w` bytes at `s` of the
source to the `w` bytes at `d` of the destination. -/
theorem copy_bytes_spec {α : Type} (src dest : List α) (s d : Int) (w : Nat)
    (hs0 : 0 ≤ s) (hs1 : s + w ≤ src.length) (hd0 : 0 ≤ d) (hd1 : d + w ≤ dest.length) :
    ∃ dest', copy_bytes src s d w dest = .ok dest' ∧ dest'.length = dest.length ∧
      ∀ x, load dest' x = if d ≤ x ∧ x < d + w then load src (s + (x - d)) else load dest x := by
  induction w with
  | zero =>
    refine ⟨dest, rfl, rfl, ?_⟩
    intro x
    have : ¬ (d ≤ x ∧ x < d + ((0 : Nat) : Int)) := by omega
    simp only [this, if_false]
  | succ w ih =>
    obtain ⟨d1, e1, l1, r1⟩ := ih (by omega) (by omega)
    obtain ⟨v, hv⟩ := load_ok src (s + w) (by omega) (by omega)
    refine ⟨d1.set (d + w).toNat v, ?_, ?_, ?_⟩
    · simp only [copy_bytes, e1, hv, bind, Except.bind]
      exact store_ok d1 (d + w) v (by omega) (by omega)
    · simp [l1]
    · intro x
      rw [load_set d1 (d + w) v (by omega) (by omega), r1]
      by_cases e : x = d + w
      · subst e
        have : (d ≤ d + (w : Int) ∧ d + (w : Int) < d + ((w + 1 : Nat) : Int)) := by omega
        simp only [if_true, this, ← hv]
        congr 1
        omega
      · simp only [e, if_false]
        by_cases hx : d ≤ x ∧ x < d + w
        · have : d ≤ x ∧ x < d + ((w + 1 : Nat) : Int) := by omega
          simp only [hx, this, and_self, if_true]
        · have : ¬ (d ≤ x ∧ x < d + ((w + 1 : Nat) : Int)) := by omega
          simp only [hx, this, if_false]

/-! ### The copies as a fold over their traversal -/

theorem strided_set_gen_loop_eq_fold {α : Type} (rank : Nat) (shape : List Int) (bpe : Nat)
    (dstrides : List Nat) (src : List α) (sstrides : List Nat) (fuel : Nat) (cur : Cursor)
    (dest : List α) (tr : List (Int × Int))
    (h : copy_trace (extent shape) (byte_stride sstrides bpe) (byte_stride dstrides bpe) rank
      fuel cur = some tr) :
    strided_set_gen_loop rank shape bpe dstrides src sstrides fuel cur dest =
      tr.foldlM (fun dest p => copy_bytes src p.1 p.2 bpe dest) dest := by
  induction fuel generalizing cur dest tr with
  | zero => simp [copy_trace] at h
  | succ fuel ih =>
    unfold copy_trace at h
    unfold strided_set_gen_loop
    revert h
    cases hc : carry (extent shape) (byte_stride sstrides bpe) (byte_stride dstrides bpe) rank cur with
    | none =>
      intro h
      simp only [Option.some.injEq] at h
      subst h
      simp only [List.foldlM_cons, List.foldlM_nil]
    | some cur' =>
      intro h
      cases ht : copy_trace (extent shape) (byte_stride sstrides bpe) (byte_stride dstrides bpe)
          rank fuel cur' with
      | none => simp [ht] at h
      | some tr' =>
        simp only [ht, Option.map_some', Option.some.injEq] at h
        subst h
        simp only [List.foldlM_cons]
        cases hb : copy_bytes src cur.spos cur.dpos bpe dest with
        | error e => rfl
        | ok d1 =>
          simp only [bind, Except.bind]
          exact ih cur' d1 tr' ht

/-- The typed copy is the generic copy of elements of width one. -/
theorem strided_set_float_loop_eq_gen {α : Type} (rank : Nat) (shape : List Int)
    (dstrides : List Nat) (src : List α) (sstrides : List Nat) (fuel : Nat) (cur : Cursor)
    (dest : List α) :
    strided_set_float_loop rank shape dstrides src sstrides fuel cur dest =
      strided_set_gen_loop rank shape 1 dstrides src sstrides fuel cur dest := by
  have e1 : byte_stride sstrides 1 = stride sstrides := by
    funext a; simp [byte_stride, stride]
  have e2 : byte_stride dstrides 1 = stride dstrides := by
    funext a; simp [byte_stride, stride]
  induction fuel generalizing cur dest with
  | zero => rfl
  | succ fuel ih =>
    unfold strided_set_float_loop strided_set_gen_loop
    simp only [copy_bytes, e1, e2, Nat.cast_zero, add_zero, bind, Except.bind, pure, Except.pure]
    cases load src cur.spos with
    | error e => rfl
    | ok v =>
      simp only
      cases store dest cur.dpos v with
      | error e => rfl
      | ok d1 =>
        simp only
        cases carry (extent shape) (stride sstrides) (stride dstrides) rank cur with
        | none => rfl
        | some cur' => exact ih cur' d1

/-- Folding the element copy over a list of in-bounds offset pairs succeeds;
bytes outside every destination range keep their value, and a byte of a
destination range that no later pair overwrites holds the source byte. -/
theorem copy_fold_spec {α : Type} (src : List α) (w : Nat) (tr : List (Int × Int))
    (dest : List α)
    (hin : ∀ p ∈ tr, 0 ≤ p.1 ∧ p.1 + w ≤ src.length ∧ 0 ≤ p.2 ∧ p.2 + w ≤ dest.length) :
    ∃ dest', tr.foldlM (fun dest p => copy_bytes src p.1 p.2 w dest) dest = .ok dest' ∧
      dest'.length = dest.length ∧
      (∀ x, (∀ p ∈ tr, ¬ (p.2 ≤ x ∧ x < p.2 + w)) → load dest' x = load dest x) ∧
      (∀ (k : Nat) (p : Int × Int), tr[k]? = some p → ∀ x : Int, p.2 ≤ x → x < p.2 + w →
        (∀ (k' : Nat) (p' : Int × Int), k < k' → tr[k']? = some p' →
          ¬ (p'.2 ≤ x ∧ x < p'.2 + w)) →
        load dest' x = load src (p.1 + (x - p.2))) := by
  induction tr generalizing dest with
  | nil =>
    refine ⟨dest, rfl, rfl, fun x _ => rfl, ?_⟩
    intro k p hk
    simp at hk
  | cons p0 tr ih =>
    obtain ⟨h1, h2, h3, h4⟩ := hin p0 (List.mem_cons_self _ _)
    obtain ⟨d1, e1, l1, r1⟩ := copy_bytes_spec src dest p0.1 p0.2 w h1 h2 h3 h4
    obtain ⟨d2, e2, l2, fr, lw⟩ := ih d1 (fun p hp => by
      rw [l1]; exact hin p (List.mem_cons_of_mem _ hp))
    refine ⟨d2, ?_, by rw [l2, l1], ?_, ?_⟩
    · simp only [List.foldlM_cons, e1, bind, Except.bind]
      exact e2
    · intro x hx
      rw [fr x (fun p hp => hx p (List.mem_cons_of_mem _ hp)), r1 x]
      simp only [hx p0 (List.mem_cons_self _ _), if_false]
    · intro k p hk x hx0 hx1 hlater
      cases k with
      | zero =>
        simp only [List.getElem?_cons_zero, Option.some.injEq] at hk
        subst hk
        rw [fr x, r1 x]
        · simp only [hx0, hx1, and_self, if_true]
        · intro p hp
          obtain ⟨j, hj⟩ := List.getElem?_of_mem hp
          exact hlater (j + 1) p (by omega) (by simpa using hj)
      | succ k =>
        simp only [List.getElem?_cons_succ] at hk
        apply lw k p hk x hx0 hx1
        intro k' p' hk' hp'
        exact hlater (k' + 1) p' (by omega) (by simpa using hp')

/-! ### The set-up of the copies -/

theorem count_upto_eq (rank : Nat) (shape : List Int) (h : 0 < rank) (n : Nat) :
    count_upto rank shape n = extent_prod (extent shape) n := by
  induction n with
  | zero => simp [count_upto, extent_prod, h]
  | succ n ih => simp [count_upto, extent_prod, ih]

theorem count_upto_rank_zero (shape : List Int) : count_upto 0 shape 0 = 0 := by
  simp [count_upto]

theorem extent_prod_eq_zero (T : Nat → Int) (n a : Nat) (ha : a < n) (h : T a = 0) :
    extent_prod T n = 0 := by
  induction n with
  | zero => omega
  | succ n ih =>
    simp only [extent_prod]
    by_cases e : a = n
    · subst e; simp [h]
    · simp [ih (by omega)]

theorem ravel_zero (T : Nat → Int) (n : Nat) : ravel T (fun _ => 0) n = 0 := by
  induction n with
  | zero => rfl
  | succ n ih => simp [ravel, ih]

theorem offset_zero (str : Nat → Int) (n : Nat) : offset str (fun _ => 0) n = 0 := by
  induction n with
  | zero => rfl
  | succ n ih => simp [offset, ih]

theorem offset_byte_stride (strides : List Nat) (bpe : Nat) (c : Nat → Int) (n : Nat) :
    offset (byte_stride strides bpe) c n = offset (stride strides) c n * bpe := by
  induction n with
  | zero => simp [offset]
  | succ n ih =>
    simp only [offset, ih, byte_stride, stride, Nat.cast_mul]
    ring

theorem inShape_zero (T : Nat → Int) (n : Nat) (hT : ∀ a, a < n → 1 ≤ T a) :
    InShape T n (fun _ => 0) := by
  intro a ha
  have := hT a ha
  exact ⟨le_refl 0, by show (0 : Int) < T a; omega⟩

/-- The traversal of the copies over a shape of positive extents: the offsets
of the multi-indices of the shape in row-major order. -/
theorem copy_trace_init (T σ δ : Nat → Int) (rank fuel : Nat) (hr0 : 1 ≤ rank)
    (hT : ∀ a, a < rank → 1 ≤ T a) (hfuel : extent_prod T rank ≤ fuel) :
    copy_trace T σ δ rank fuel { coordinate := fun _ => 0, spos := 0, dpos := 0 } =
      some ((List.range (extent_prod T rank).toNat).map
        (fun k : Nat => pair_at T σ δ rank 0 0 k)) := by
  obtain ⟨n, rfl⟩ : ∃ n, rank = n + 1 := ⟨rank - 1, by omega⟩
  have h := copy_trace_spec T σ δ n 0 0 fuel { coordinate := fun _ => 0, spos := 0, dpos := 0 }
    (inShape_zero T (n + 1) hT) (by simp [offset_zero]) (by simp [offset_zero])
    (by simp only [ravel_zero]; omega)
  simp only [ravel_zero, sub_zero, zero_add] at h
  exact h

theorem strided_set_gen_eq_fold {α : Type} (fuel rank : Nat) (shape : List Int) (bpe : Nat)
    (dest : List α) (dstrides : List Nat) (src : List α) (sstrides : List Nat)
    (hr0 : 1 ≤ rank) (hr : rank ≤ 16) (hT : ∀ a, a < rank → 1 ≤ extent shape a)
    (hfuel : extent_prod (extent shape) rank ≤ fuel) :
    strided_set_gen fuel rank shape bpe dest dstrides src sstrides =
      ((List.range (extent_prod (extent shape) rank).toNat).map
        (fun k : Nat => pair_at (extent shape) (byte_stride sstrides bpe)
          (byte_stride dstrides bpe) rank 0 0 k)).foldlM
        (fun dest p => copy_bytes src p.1 p.2 bpe dest) dest := by
  have hpos := extent_prod_pos (extent shape) rank (fun a ha => by have := hT a ha; omega)
  have hc : count_upto rank shape rank ≠ 0 := by
    rw [count_upto_eq rank shape (by omega)]; omega
  have hr' : ¬ rank > MAX_RANK := by simp [MAX_RANK]; omega
  simp only [strided_set_gen, hr', hc, if_false]
  exact strided_set_gen_loop_eq_fold rank shape bpe dstrides src sstrides fuel _ dest _
    (copy_trace_init _ _ _ rank fuel hr0 hT hfuel)

theorem strided_set_float_eq_fold {α : Type} (fuel rank : Nat) (shape : List Int) (bpe : Nat)
    (dest : List α) (dstrides : List Nat) (src : List α) (sstrides : List Nat)
    (hr0 : 1 ≤ rank) (hr : rank ≤ 16) (hT : ∀ a, a < rank → 1 ≤ extent shape a)
    (hfuel : extent_prod (extent shape) rank ≤ fuel) :
    strided_set_float fuel rank shape bpe dest dstrides src sstrides =
      ((List.range (extent_prod (extent shape) rank).toNat).map
        (fun k : Nat => pair_at (extent shape) (byte_stride sstrides 1)
          (byte_stride dstrides 1) rank 0 0 k)).foldlM
        (fun dest p => copy_bytes src p.1 p.2 1 dest) dest := by
  have hpos := extent_prod_pos (extent shape) rank (fun a ha => by have := hT a ha; omega)
  have hc : count_upto rank shape rank ≠ 0 := by
    rw [count_upto_eq rank shape (by omega)]; omega
  have hr' : ¬ rank > MAX_RANK := by simp [MAX_RANK]; omega
  simp only [strided_set_float, hr', hc, if_false, strided_set_float_loop_eq_gen]
  exact strided_set_gen_loop_eq_fold rank shape 1 dstrides src sstrides fuel _ dest _
    (copy_trace_init _ _ _ rank fuel hr0 hT hfuel)

/-- Two element ranges of width `w` that share a byte start at the same
element. -/
theorem element_eq_of_byte (e e' : Int) (w : Nat) (i : Int) (hi0 : 0 ≤ i) (hi1 : i < w)
    (h0 : e' * w ≤ e * w + i) (h1 : e * w + i < e' * w + w) : e = e' := by
  rcases lt_trichotomy e e' with h | h | h
  · have : (e + 1) * (w : Int) ≤ e' * w := Int.mul_le_mul_of_nonneg_right (by omega) (by omega)
    have e1 : (e + 1) * (w : Int) = e * w + w := by ring
    omega
  · exact h
  · have : (e' + 1) * (w : Int) ≤ e * w := Int.mul_le_mul_of_nonneg_right (by omega) (by omega)
    have e1 : (e' + 1) * (w : Int) = e' * w + w := by ring
    omega

theorem getElem?_map_range {β : Type} (f : Nat → β) (m k : Nat) :
    ((List.range m).map f)[k]? = if k < m then some (f k) else none := by
  by_cases h : k < m
  · simp [h, List.getElem?_map, List.getElem?_range h]
  · simp [h, List.getElem?_map]
    omega

theorem pair_at_byte (T : Nat → Int) (ss ds : List Nat) (bpe rank : Nat) (k : Int) :
    pair_at T (byte_stride ss bpe) (byte_stride ds bpe) rank 0 0 k =
      (offset (stride ss) (unravel T rank k) rank * bpe,
       offset (stride ds) (unravel T rank k) rank * bpe) := by
  simp [pair_at, offset_byte_stride]

/-- The result of the copies, seen through the views: the fold of the element
copy over the row-major traversal succeeds when both views are in bounds; it
changes no byte outside of the destination view, and an element of the
destination view that no later multi-index writes again holds the bytes of the
source element of its multi-index. -/
theorem copy_view_spec {α : Type} (T : Nat → Int) (ss ds : List Nat) (rank bpe : Nat)
    (src dest : List α) (hT : ∀ a, a < rank → 1 ≤ T a)
    (hsrc : ∀ c, InShape T rank c →
      0 ≤ offset (stride ss) c rank ∧ (offset (stride ss) c rank + 1) * bpe ≤ src.length)
    (hdst : ∀ c, InShape T rank c →
      0 ≤ offset (stride ds) c rank ∧ (offset (stride ds) c rank + 1) * bpe ≤ dest.length) :
    ∃ dest', ((List.range (extent_prod T rank).toNat).map
        (fun k : Nat => pair_at T (byte_stride ss bpe) (byte_stride ds bpe) rank 0 0 k)).foldlM
        (fun dest p => copy_bytes src p.1 p.2 bpe dest) dest = .ok dest' ∧
      dest'.length = dest.length ∧
      (∀ x : Int, (∀ c, InShape T rank c → ¬ (offset (stride ds) c rank * bpe ≤ x ∧
          x < offset (stride ds) c rank * bpe + bpe)) → load dest' x = load dest x) ∧
      (∀ c, InShape T rank c →
        (∀ c', InShape T rank c' → ravel T c rank < ravel T c' rank →
          offset (stride ds) c' rank ≠ offset (stride ds) c rank) →
        ∀ i : Nat, i < bpe → load dest' (offset (stride ds) c rank * bpe + i) =
          load src (offset (stride ss) c rank * bpe + i)) := by
  have hTpos : ∀ a, a < rank → 0 < T a := fun a ha => by have := hT a ha; omega
  have hin : ∀ p ∈ (List.range (extent_prod T rank).toNat).map
      (fun k : Nat => pair_at T (byte_stride ss bpe) (byte_stride ds bpe) rank 0 0 k),
      0 ≤ p.1 ∧ p.1 + bpe ≤ src.length ∧ 0 ≤ p.2 ∧ p.2 + bpe ≤ dest.length := by
    intro p hp
    obtain ⟨k, -, rfl⟩ := List.mem_map.1 hp
    have hu := unravel_inShape T rank hTpos k
    obtain ⟨s0, s1⟩ := hsrc _ hu
    obtain ⟨d0, d1⟩ := hdst _ hu
    rw [pair_at_byte]
    have e1 : ∀ z : Int, (z + 1) * (bpe : Int) = z * bpe + bpe := fun z => by ring
    rw [e1] at s1 d1
    exact ⟨Int.mul_nonneg s0 (by omega), s1, Int.mul_nonneg d0 (by omega), d1⟩
  obtain ⟨dest', e, l, fr, lw⟩ := copy_fold_spec src bpe _ dest hin
  refine ⟨dest', e, l, ?_, ?_⟩
  · intro x hx
    apply fr
    intro p hp
    obtain ⟨k, -, rfl⟩ := List.mem_map.1 hp
    rw [pair_at_byte]
    exact hx _ (unravel_inShape T rank hTpos k)
  · intro c hc hlast i hi
    have hb := ravel_bounds T c rank hc
    have hk : (ravel T c rank).toNat < (extent_prod T rank).toNat := by omega
    have hcast : (((ravel T c rank).toNat : Nat) : Int) = ravel T c rank := by omega
    have hget := getElem?_map_range
      (fun k : Nat => pair_at T (byte_stride ss bpe) (byte_stride ds bpe) rank 0 0 k)
      (extent_prod T rank).toNat (ravel T c rank).toNat
    simp only [hk, if_true, hcast, pair_at_ravel _ _ _ _ _ _ _ hc, offset_byte_stride,
      zero_add] at hget
    have := lw _ _ hget (offset (stride ds) c rank * bpe + i) (by simp) (by simp; omega) ?_
    · simpa using this
    · intro k' p' hlt hp'
      rw [getElem?_map_range] at hp'
      by_cases hk' : k' < (extent_prod T rank).toNat
      · simp only [hk', if_true, Option.some.injEq] at hp'
        subst hp'
        rw [pair_at_byte]
        simp only
        intro hx
        have hu := unravel_inShape T rank hTpos (k' : Int)
        have hru := ravel_unravel T rank hTpos (k' : Int) (by omega) (by omega)
        have heq := element_eq_of_byte (offset (stride ds) c rank)
          (offset (stride ds) (unravel T rank k') rank) bpe i (by omega) (by omega) hx.1 hx.2
        exact hlast _ hu (by rw [hru]; omega) heq.symm
      · simp [hk'] at hp'

/-! ### The set-up of `flip_gen` -/

/-- The set-up loop of `flip_gen` succeeds on strictly positive strides, and
computes the walked box, the two step arrays, the start of the backward cursor
and the two counters. -/
theorem flip_setup_spec (rank : Nat) (shape : List Int) (bpe : Nat) (dstrides : List Nat)
    (axes : List Bool) (n : Nat) (hpos : ∀ a, a < n → 0 < dstrides.getD a 0) :
    ∃ it, flip_setup rank shape bpe dstrides axes n = .ok it ∧
      it.count = count_upto rank shape n ∧
      (it.first = true ↔ ∀ a, a < n → ¬ flipped axes a) ∧
      (it.swapped_dims = 0 ↔ ∀ a, a < n → ¬ flipped axes a) ∧
      0 ≤ it.swapped_dims ∧
      (∀ a, a < n → it.tshape a = flip_tshape shape axes a) ∧
      (∀ a, a < n → it.sstride a = byte_stride dstrides bpe a) ∧
      (∀ a, a < n → it.dstride a = flip_dstride dstrides bpe axes a) ∧
      it.dpos = offset (byte_stride dstrides bpe) (mirror shape axes (fun _ => 0)) n := by
  induction n with
  | zero =>
    refine ⟨_, rfl, rfl, ?_, ?_, ?_, ?_, ?_, ?_, ?_⟩ <;> simp [offset]
  | succ n ih =>
    obtain ⟨it, e, hcount, hfirst, hsw, hsw0, hts, hss, hds, hdp⟩ :=
      ih (fun a ha => hpos a (by omega))
    have hp : dstrides.getD n 0 > 0 := hpos n (by omega)
    have hall : ∀ (P : Nat → Prop), (∀ a, a < n + 1 → P a) ↔ ((∀ a, a < n → P a) ∧ P n) := by
      intro P
      constructor
      · intro h; exact ⟨fun a ha => h a (by omega), h n (by omega)⟩
      · rintro ⟨h1, h2⟩ a ha
        by_cases e : a = n
        · subst e; exact h2
        · exact h1 a (by omega)
    by_cases hax : axes.getD n false = true
    · have hfl : flipped axes n := hax
      refine ⟨_, by simp only [flip_setup, e, bind, Except.bind, hp, not_true, if_false, hax,
        if_true, pure, Except.pure]; rfl, ?_, ?_, ?_, ?_, ?_, ?_, ?_, ?_⟩
      · simp [count_upto, hcount]
      · simp only [hall, hfl, not_true, and_false]
        simp
      · simp only [hall, hfl, not_true, and_false, iff_false]
        omega
      · show 0 ≤ it.swapped_dims + 1
        omega
      · intro a ha
        by_cases ea : a = n
        · subst ea
          simp only [Function.update_same, flip_tshape, first_flipped, hfl, true_and]
          by_cases hf : it.first = true
          · rw [if_pos hf, if_pos (hfirst.1 hf)]
          · have : ¬ ∀ b, b < a → ¬ flipped axes b := fun h => hf (hfirst.2 h)
            rw [if_neg hf, if_neg this]
        · simp only [Function.update_noteq ea]
          exact hts a (by omega)
      · intro a ha
        by_cases ea : a = n
        · subst ea; simp only [Function.update_same]
        · simp only [Function.update_noteq ea]
          exact hss a (by omega)
      · intro a ha
        by_cases ea : a = n
        · subst ea; simp only [Function.update_same, flip_dstride, hfl, if_true]
        · simp only [Function.update_noteq ea]
          exact hds a (by omega)
      · show it.dpos + (extent shape n - 1) * byte_stride dstrides bpe n = _
        simp only [offset, hdp, mirror, hfl, if_true]
        ring
    · have hfl : ¬ flipped axes n := hax
      have hax' : axes.getD n false = false := by simpa using hax
      refine ⟨_, by simp only [flip_setup, e, bind, Except.bind, hp, not_true, if_false, hax',
        pure, Except.pure]; rfl, ?_, ?_, ?_, ?_, ?_, ?_, ?_, ?_⟩
      · simp [count_upto, hcount]
      · simp only [hall, hfl, not_false_eq_true, and_true]
        exact hfirst
      · simp only [hall, hfl, not_false_eq_true, and_true]
        exact hsw
      · exact hsw0
      · intro a ha
        by_cases ea : a = n
        · subst ea
          simp only [Function.update_same, flip_tshape, first_flipped, hfl, false_and, if_false]
        · simp only [Function.update_noteq ea]
          exact hts a (by omega)
      · intro a ha
        by_cases ea : a = n
        · subst ea; simp only [Function.update_same]
        · simp only [Function.update_noteq ea]
          exact hss a (by omega)
      · intro a ha
        by_cases ea : a = n
        · subst ea; simp only [Function.update_same, flip_dstride, hfl, if_false]
        · simp only [Function.update_noteq ea]
          exact hds a (by omega)
      · show it.dpos = _
        simp only [offset, hdp, mirror, hfl, if_false]
        ring

/-! ## The contracts -/

/-- C2: `strided_set_float` (copyTyped).  For every rank 1..16, every shape
with all extents at least 1 and every pair of element-denominated stride arrays
whose destination offsets are pairwise distinct and in bounds, the call returns
and the destination element at `Σ c_a * dstrides[a]` is the source element at
`Σ c_a * sstrides[a]` for every multi-index `c` of the shape; in particular
shape `[3]`, source `[10,20,30]`, both strides `[1]` gives `[10,20,30]`. -/
theorem strided_set_float_copies_view {α : Type} (fuel rank : Nat) (shape : List Int)
    (bpe : Nat) (dest : List α) (dstrides : List Nat) (src : List α) (sstrides : List Nat)
    (hr0 : 1 ≤ rank) (hr : rank ≤ 16)
    (hshape : ∀ a, a < rank → 1 ≤ extent shape a)
    (hinj : ∀ c c', InShape (extent shape) rank c → InShape (extent shape) rank c' →
      offset (stride dstrides) c rank = offset (stride dstrides) c' rank →
      ∀ a, a < rank → c a = c' a)
    (hsrc : ∀ c, InShape (extent shape) rank c →
      0 ≤ offset (stride sstrides) c rank ∧ offset (stride sstrides) c rank < src.length)
    (hdst : ∀ c, InShape (extent shape) rank c →
      0 ≤ offset (stride dstrides) c rank ∧ offset (stride dstrides) c rank < dest.length)
    (hfuel : extent_prod (extent shape) rank ≤ fuel) :
    (∃ dest', strided_set_float fuel rank shape bpe dest dstrides src sstrides = .ok dest' ∧
      ∀ c, InShape (extent shape) rank c →
        ∃ v, load src (offset (stride sstrides) c rank) = .ok v ∧
          load dest' (offset (stride dstrides) c rank) = .ok v) ∧
    (∀ (b : Nat) (d0 d1 d2 : Int),
      strided_set_float 3 1 [3] b [d0, d1, d2] [1] [10, 20, 30] [1] = .ok [10, 20, 30]) := by
  refine ⟨?_, fun b d0 d1 d2 => rfl⟩
  obtain ⟨dest', e, -, -, lw⟩ :=
    copy_view_spec (extent shape) sstrides dstrides rank 1 src dest hshape
      (fun c hc => by have := hsrc c hc; simp only [Nat.cast_one, mul_one]; omega)
      (fun c hc => by have := hdst c hc; simp only [Nat.cast_one, mul_one]; omega)
  refine ⟨dest', ?_, ?_⟩
  · rw [strided_set_float_eq_fold fuel rank shape bpe dest dstrides src sstrides hr0 hr hshape
      hfuel]
    exact e
  · intro c hc
    obtain ⟨s0, s1⟩ := hsrc c hc
    obtain ⟨v, hv⟩ := load_ok src (offset (stride sstrides) c rank) s0 s1
    refine ⟨v, hv, ?_⟩
    rw [← hv]
    have := lw c hc (fun c' hc' hlt heq => by
      have := ravel_congr (extent shape) c' c rank (hinj c' c hc' hc heq)
      omega) 0 (by decide)
    simpa using this

/-- The copy scenario of the specification: the hypotheses of C2 hold. -/
theorem strided_set_float_copies_view_witness :
    (∃ dest', strided_set_float 3 1 [3] 4 [0, 0, 0] [1] [10, 20, 30] [1] = .ok dest' ∧
      ∀ c, InShape (extent [3]) 1 c →
        ∃ v : Int, load [10, 20, 30] (offset (stride [1]) c 1) = .ok v ∧
          load dest' (offset (stride [1]) c 1) = .ok v) ∧
    (∀ (b : Nat) (d0 d1 d2 : Int),
      strided_set_float 3 1 [3] b [d0, d1, d2] [1] [10, 20, 30] [1] = .ok [10, 20, 30]) :=
  strided_set_float_copies_view 3 1 [3] 4 [0, 0, 0] [1] [10, 20, 30] [1] (by decide) (by decide)
    (by intro a ha; interval_cases a; decide)
    (by
      intro c c' h h' e a ha
      simp [offset, stride] at e
      interval_cases a; exact e)
    (by
      intro c h
      have h0 := h 0 (by decide)
      simp [offset, stride, extent] at h0 ⊢
      omega)
    (by
      intro c h
      have h0 := h 0 (by decide)
      simp [offset, stride, extent] at h0 ⊢
      omega)
    (by decide)

theorem strided_set_float_loop_eq_fold {α : Type} (rank : Nat) (shape : List Int)
    (dstrides : List Nat) (src : List α) (sstrides : List Nat) (fuel : Nat) (cur : Cursor)
    (dest : List α) (tr : List (Int × Int))
    (h : copy_trace (extent shape) (stride sstrides) (stride dstrides) rank fuel cur = some tr) :
    strided_set_float_loop rank shape dstrides src sstrides fuel cur dest =
      tr.foldlM (fun dest p => do let v ← load src p.1; store dest p.2 v) dest := by
  induction fuel generalizing cur dest tr with
  | zero => simp [copy_trace] at h
  | succ fuel ih =>
    unfold copy_trace at h
    unfold strided_set_float_loop
    revert h
    cases hc : carry (extent shape) (stride sstrides) (stride dstrides) rank cur with
    | none =>
      intro h
      simp only [Option.some.injEq] at h
      subst h
      simp only [List.foldlM_cons, List.foldlM_nil, bind_assoc]
    | some cur' =>
      intro h
      cases ht : copy_trace (extent shape) (stride sstrides) (stride dstrides) rank fuel
          cur' with
      | none => simp [ht] at h
      | some tr' =>
        simp only [ht, Option.map_some', Option.some.injEq] at h
        subst h
        simp only [List.foldlM_cons, bind_assoc]
        cases load src cur.spos with
        | error e => rfl
        | ok v =>
          simp only [bind, Except.bind]
          cases store dest cur.dpos v with
          | error e => rfl
          | ok d1 =>
            simp only
            exact ih cur' d1 tr' ht

/-- The traversal of the copies on unbounded integers.  For every rank 1..16
and every shape with extents at least 1, the sequence of offset pairs at which
the copies visit an element has as many entries as the shape has elements, its
`k`-th entry is the pair of offsets of the `k`-th multi-index in row-major
order, and every multi-index of the shape is the `k`-th one for exactly one
`k`.  Both functions are the element copy repeated along their sequence. -/
theorem copy_traversal_int (fuel rank : Nat) (shape : List Int) (bpe : Nat)
    (dstrides sstrides : List Nat) (hr0 : 1 ≤ rank) (hr : rank ≤ 16)
    (hshape : ∀ a, a < rank → 1 ≤ extent shape a)
    (hfuel : extent_prod (extent shape) rank ≤ fuel) :
    ∃ trf trg,
      strided_set_float_trace fuel rank shape dstrides sstrides = .ok trf ∧
      strided_set_gen_trace fuel rank shape bpe dstrides sstrides = .ok trg ∧
      (trf.length : Int) = extent_prod (extent shape) rank ∧
      (trg.length : Int) = extent_prod (extent shape) rank ∧
      (∀ (α : Type) (dest src : List α),
        strided_set_float fuel rank shape bpe dest dstrides src sstrides =
          trf.foldlM (fun dest p => do let v ← load src p.1; store dest p.2 v) dest ∧
        strided_set_gen fuel rank shape bpe dest dstrides src sstrides =
          trg.foldlM (fun dest p => copy_bytes src p.1 p.2 bpe dest) dest) ∧
      (∀ k : Nat, k < trf.length →
        InShape (extent shape) rank (unravel (extent shape) rank k) ∧
        ravel (extent shape) (unravel (extent shape) rank k) rank = k ∧
        trf[k]? = some (offset (stride sstrides) (unravel (extent shape) rank k) rank,
          offset (stride dstrides) (unravel (extent shape) rank k) rank) ∧
        trg[k]? = some (offset (stride sstrides) (unravel (extent shape) rank k) rank * bpe,
          offset (stride dstrides) (unravel (extent shape) rank k) rank * bpe)) ∧
      (∀ c, InShape (extent shape) rank c →
        ∃ k : Nat, (k < trf.length ∧ ∀ a, a < rank → unravel (extent shape) rank k a = c a) ∧
          ∀ j : Nat, (j < trf.length ∧ ∀ a, a < rank → unravel (extent shape) rank j a = c a) →
            j = k) := by
  have hTpos : ∀ a, a < rank → 0 < extent shape a := fun a ha => by
    have := hshape a ha; omega
  have hpos := extent_prod_pos (extent shape) rank hTpos
  have hc : count_upto rank shape rank ≠ 0 := by
    rw [count_upto_eq rank shape (by omega)]; omega
  have hr' : ¬ rank > MAX_RANK := by simp [MAX_RANK]; omega
  have hlen : (((extent_prod (extent shape) rank).toNat : Nat) : Int) =
      extent_prod (extent shape) rank := by omega
  refine ⟨(List.range (extent_prod (extent shape) rank).toNat).map
      (fun k : Nat => pair_at (extent shape) (stride sstrides) (stride dstrides) rank 0 0 k),
    (List.range (extent_prod (extent shape) rank).toNat).map
      (fun k : Nat => pair_at (extent shape) (byte_stride sstrides bpe)
        (byte_stride dstrides bpe) rank 0 0 k), ?_, ?_, ?_, ?_, ?_, ?_, ?_⟩
  · simp only [strided_set_float_trace, hr', hc, if_false,
      copy_trace_init (extent shape) (stride sstrides) (stride dstrides) rank fuel hr0 hshape
        hfuel]
  · simp only [strided_set_gen_trace, hr', hc, if_false,
      copy_trace_init (extent shape) (byte_stride sstrides bpe) (byte_stride dstrides bpe) rank
        fuel hr0 hshape hfuel]
  · simp only [List.length_map, List.length_range, hlen]
  · simp only [List.length_map, List.length_range, hlen]
  · intro α dest src
    constructor
    · simp only [strided_set_float, hr', hc, if_false]
      exact strided_set_float_loop_eq_fold rank shape dstrides src sstrides fuel _ dest _
        (copy_trace_init _ _ _ rank fuel hr0 hshape hfuel)
    · exact strided_set_gen_eq_fold fuel rank shape bpe dest dstrides src sstrides hr0 hr
        hshape hfuel
  · intro k hk
    simp only [List.length_map, List.length_range] at hk
    refine ⟨unravel_inShape _ _ hTpos _, ravel_unravel _ _ hTpos _ (by omega) (by omega), ?_, ?_⟩
    · rw [getElem?_map_range, if_pos hk]
      simp [pair_at]
    · rw [getElem?_map_range, if_pos hk, pair_at_byte]
  · intro c hcs
    have hb := ravel_bounds (extent shape) c rank hcs
    have hcast : (((ravel (extent shape) c rank).toNat : Nat) : Int) =
        ravel (extent shape) c rank := by omega
    refine ⟨(ravel (extent shape) c rank).toNat, ⟨?_, ?_⟩, ?_⟩
    · simp only [List.length_map, List.length_range]; omega
    · intro a ha
      rw [hcast]
      exact unravel_ravel _ c rank hcs a ha
    · rintro j ⟨hj, hja⟩
      simp only [List.length_map, List.length_range] at hj
      have h1 := ravel_unravel (extent shape) rank hTpos (j : Int) (by omega) (by omega)
      have h2 := ravel_congr (extent shape) _ c rank hja
      omega

/-- C9: an empty traversal is a no-op.  For every rank 0..16, if the rank is 0
or at least one extent of the shape is 0, then `strided_set_float` and
`strided_set_gen` return with the destination buffer unchanged, and `flip_gen`
(with strictly positive strides and any axis mask) returns with its buffer
unchanged; none of them visits an element. -/
theorem empty_traversal_noop {α : Type} (fuel rank : Nat) (shape : List Int) (bpe : Nat)
    (dest : List α) (dstrides : List Nat) (src : List α) (sstrides : List Nat)
    (buf : List α) (strides : List Nat) (axes : List Bool)
    (hr : rank ≤ 16)
    (hempty : rank = 0 ∨ ∃ a, a < rank ∧ extent shape a = 0)
    (hpos : ∀ a, a < rank → 0 < strides.getD a 0) :
    strided_set_float fuel rank shape bpe dest dstrides src sstrides = .ok dest ∧
    strided_set_gen fuel rank shape bpe dest dstrides src sstrides = .ok dest ∧
    flip_gen fuel rank shape bpe buf strides axes = .ok buf ∧
    strided_set_float_trace fuel rank shape dstrides sstrides = .ok [] ∧
    strided_set_gen_trace fuel rank shape bpe dstrides sstrides = .ok [] ∧
    flip_gen_trace fuel rank shape bpe strides axes = .ok [] := by
  have hr' : ¬ rank > MAX_RANK := by simp [MAX_RANK]; omega
  have hc : count_upto rank shape rank = 0 := by
    rcases hempty with h | ⟨a, ha, h0⟩
    · subst h; rfl
    · rw [count_upto_eq rank shape (by omega)]
      exact extent_prod_eq_zero _ rank a ha h0
  obtain ⟨it, e, hcount, -⟩ := flip_setup_spec rank shape bpe strides axes rank hpos
  rw [hc] at hcount
  refine ⟨?_, ?_, ?_, ?_, ?_, ?_⟩
  · simp only [strided_set_float, hr', hc, if_false, if_true]
  · simp only [strided_set_gen, hr', hc, if_false, if_true]
  · simp only [flip_gen, hr', if_false, e, bind, Except.bind, hcount, if_true]
    split <;> rfl
  · simp only [strided_set_float_trace, hr', hc, if_false, if_true]
  · simp only [strided_set_gen_trace, hr', hc, if_false, if_true]
  · simp only [flip_gen_trace, hr', if_false, e, bind, Except.bind, hcount, if_true]
    split <;> rfl

/-- A 2x0x3 shape: the hypotheses of C9 hold. -/
theorem empty_traversal_noop_witness :
    strided_set_float 0 3 [2, 0, 3] 4 [1, 2, 3] [3, 3, 1] [7, 8, 9] [3, 3, 1] = .ok [1, 2, 3] ∧
    strided_set_gen 0 3 [2, 0, 3] 4 [1, 2, 3] [3, 3, 1] [7, 8, 9] [3, 3, 1] = .ok [1, 2, 3] ∧
    flip_gen 0 3 [2, 0, 3] 4 [4, 5, 6] [3, 3, 1] [true, false, true] = .ok [4, 5, 6] ∧
    strided_set_float_trace 0 3 [2, 0, 3] [3, 3, 1] [3, 3, 1] = .ok [] ∧
    strided_set_gen_trace 0 3 [2, 0, 3] 4 [3, 3, 1] [3, 3, 1] = .ok [] ∧
    flip_gen_trace 0 3 [2, 0, 3] 4 [3, 3, 1] [true, false, true] = .ok [] :=
  empty_traversal_noop 0 3 [2, 0, 3] 4 [1, 2, 3] [3, 3, 1] [7, 8, 9] [3, 3, 1] [4, 5, 6]
    [3, 3, 1] [true, false, true] (by decide) (Or.inr ⟨1, by decide, by decide⟩)
    (by intro a ha; interval_cases a <;> decide)

/-- C10: `flip_gen` with an all-false axis mask is the identity.  For every
rank 0..16, every shape, every element width and every set of strictly positive
strides, the call returns the buffer unchanged, and swaps no element. -/
theorem flip_gen_no_axis {α : Type} (fuel rank : Nat) (shape : List Int) (bpe : Nat)
    (buf : List α) (strides : List Nat) (axes : List Bool)
    (hr : rank ≤ 16)
    (hpos : ∀ a, a < rank → 0 < strides.getD a 0)
    (hmask : ∀ a, a < rank → axes.getD a false = false) :
    flip_gen fuel rank shape bpe buf strides axes = .ok buf ∧
    flip_gen_trace fuel rank shape bpe strides axes = .ok [] := by
  have hr' : ¬ rank > MAX_RANK := by simp [MAX_RANK]; omega
  obtain ⟨it, e, -, -, hsw, -⟩ := flip_setup_spec rank shape bpe strides axes rank hpos
  have h0 : it.swapped_dims = 0 := hsw.2 (fun a ha => by
    unfold flipped; rw [hmask a ha]; decide)
  constructor
  · simp only [flip_gen, hr', if_false, e, bind, Except.bind, h0, if_true]
  · simp only [flip_gen_trace, hr', if_false, e, bind, Except.bind, h0, if_true]

/-- A 2x3 buffer and the empty mask: the hypotheses of C10 hold. -/
theorem flip_gen_no_axis_witness :
    flip_gen 0 2 [2, 3] 1 [1, 2, 3, 4, 5, 6] [3, 1] [false, false] = .ok [1, 2, 3, 4, 5, 6] ∧
    flip_gen_trace 0 2 [2, 3] 1 [3, 1] [false, false] = .ok [] :=
  flip_gen_no_axis 0 2 [2, 3] 1 [1, 2, 3, 4, 5, 6] [3, 1] [false, false] (by decide)
    (by intro a ha; interval_cases a <;> decide)
    (by intro a ha; interval_cases a <;> decide)

/-! ### The traversal of `flip_gen` -/

/-- The carry loop of `flip_gen` is the carry loop of the copies, followed by
the crossing guard on the cursor it moves to. -/
theorem flip_carry_eq (T σ δ : Nat → Int) (n : Nat) (cur : Cursor) :
    flip_carry T σ δ (n + 1) cur =
      (carry T σ δ (n + 1) cur).bind
        (fun cur' => if cur'.dpos < cur'.spos then none else some cur') := by
  induction n generalizing cur with
  | zero =>
    unfold flip_carry carry
    by_cases e : cur.coordinate 0 + 1 = T 0
    · simp [e]
    · simp only [e, if_false, Option.some_bind]
  | succ n ih =>
    unfold flip_carry carry
    by_cases e : cur.coordinate (n + 1) + 1 = T (n + 1)
    · simp only [e, if_true, Nat.succ_ne_zero, if_false]
      exact ih _
    · simp only [e, if_false, Option.some_bind]

theorem flip_carry_congr (T σ δ T' σ' δ' : Nat → Int) (n : Nat) (cur : Cursor)
    (hT : ∀ a, a < n → T a = T' a) (hσ : ∀ a, a < n → σ a = σ' a)
    (hδ : ∀ a, a < n → δ a = δ' a) :
    flip_carry T σ δ n cur = flip_carry T' σ' δ' n cur := by
  induction n generalizing cur with
  | zero => rfl
  | succ n ih =>
    unfold flip_carry
    rw [hT n (by omega), hσ n (by omega), hδ n (by omega)]
    simp only [ih _ (fun a ha => hT a (by omega)) (fun a ha => hσ a (by omega))
      (fun a ha => hδ a (by omega))]

theorem flip_trace_congr (T σ δ T' σ' δ' : Nat → Int) (n fuel : Nat) (cur : Cursor)
    (hT : ∀ a, a < n → T a = T' a) (hσ : ∀ a, a < n → σ a = σ' a)
    (hδ : ∀ a, a < n → δ a = δ' a) :
    flip_trace T σ δ n fuel cur = flip_trace T' σ' δ' n fuel cur := by
  induction fuel generalizing cur with
  | zero => rfl
  | succ fuel ih =>
    unfold flip_trace
    rw [flip_carry_congr T σ δ T' σ' δ' n cur hT hσ hδ]
    cases flip_carry T' σ' δ' n cur with
    | none => rfl
    | some cur' => simp only [ih cur']

/-- From the multi-index of row-major position `k` of the walked box, the main
loop of `flip_gen` visits the multi-indices of positions `k, ..., k + M - 1`
and returns: either `k + M` is the size of the box, or the crossing guard fires
at position `k + M`; the guard did not fire at the positions in between. -/
theorem flip_trace_spec (T σ δ : Nat → Int) (n : Nat) (S0 D0 : Int) (fuel : Nat) (cur : Cursor)
    (h : InShape T (n + 1) cur.coordinate)
    (hs : cur.spos = S0 + offset σ cur.coordinate (n + 1))
    (hd : cur.dpos = D0 + offset δ cur.coordinate (n + 1))
    (hf : extent_prod T (n + 1) ≤ ravel T cur.coordinate (n + 1) + fuel) :
    ∃ M : Nat, 1 ≤ M ∧ ravel T cur.coordinate (n + 1) + M ≤ extent_prod T (n + 1) ∧
      flip_trace T σ δ (n + 1) fuel cur =
        some ((List.range M).map
          (fun j : Nat => pair_at T σ δ (n + 1) S0 D0 (ravel T cur.coordinate (n + 1) + j))) ∧
      (∀ j : Nat, 1 ≤ j → j < M →
        ¬ (pair_at T σ δ (n + 1) S0 D0 (ravel T cur.coordinate (n + 1) + j)).2 <
          (pair_at T σ δ (n + 1) S0 D0 (ravel T cur.coordinate (n + 1) + j)).1) ∧
      (ravel T cur.coordinate (n + 1) + M < extent_prod T (n + 1) →
        (pair_at T σ δ (n + 1) S0 D0 (ravel T cur.coordinate (n + 1) + M)).2 <
          (pair_at T σ δ (n + 1) S0 D0 (ravel T cur.coordinate (n + 1) + M)).1) := by
  induction fuel generalizing cur with
  | zero =>
    have := (ravel_bounds T cur.coordinate (n + 1) h).2
    omega
  | succ fuel ih =>
    have hb := ravel_bounds T cur.coordinate (n + 1) h
    have hc := carry_spec T σ δ n cur h
    have e2 : List.range 1 = [0] := rfl
    unfold flip_trace
    rw [flip_carry_eq]
    revert hc
    cases carry T σ δ (n + 1) cur with
    | none =>
      intro hc
      refine ⟨1, le_refl 1, by simp only [Nat.cast_one]; omega, ?_, ?_, ?_⟩
      · simp only [Option.none_bind, e2, List.map_cons, List.map_nil, Nat.cast_zero, add_zero,
          pair_at_ravel T σ δ (n + 1) S0 D0 _ h, hs, hd]
      · intro j h1 h2; omega
      · intro hlt
        simp only [Nat.cast_one] at hlt
        have hc' : ravel T cur.coordinate (n + 1) + 1 = extent_prod T (n + 1) := hc
        omega
    | some cur' =>
      rintro ⟨hin, hr, -, hs', hd'⟩
      have hs2 : cur'.spos = S0 + offset σ cur'.coordinate (n + 1) := by omega
      have hd2 : cur'.dpos = D0 + offset δ cur'.coordinate (n + 1) := by omega
      have hb' := ravel_bounds T cur'.coordinate (n + 1) hin
      have hp' := pair_at_ravel T σ δ (n + 1) S0 D0 _ hin
      rw [hr] at hp'
      simp only [Option.some_bind]
      by_cases hg : cur'.dpos < cur'.spos
      · refine ⟨1, le_refl 1, by simp only [Nat.cast_one]; omega, ?_, ?_, ?_⟩
        · simp only [hg, if_true, e2, List.map_cons, List.map_nil, Nat.cast_zero, add_zero,
            pair_at_ravel T σ δ (n + 1) S0 D0 _ h, hs, hd]
        · intro j h1 h2; omega
        · intro _
          simp only [Nat.cast_one, hp']
          rw [← hs2, ← hd2]
          exact hg
      · obtain ⟨M, hM1, hM2, htr, hmid, hend⟩ := ih cur' hin hs2 hd2 (by omega)
        have hshift : ∀ j : Nat, ravel T cur'.coordinate (n + 1) + (j : Int) =
            ravel T cur.coordinate (n + 1) + ((j + 1 : Nat) : Int) := by
          intro j; rw [hr]; push_cast; ring
        refine ⟨M + 1, by omega, by push_cast; omega, ?_, ?_, ?_⟩
        · simp only [hg, if_false, htr, Option.map_some']
          rw [List.range_succ_eq_map, List.map_cons, List.map_map]
          congr 2
          · simp only [Nat.cast_zero, add_zero, pair_at_ravel T σ δ (n + 1) S0 D0 _ h, hs, hd]
          · apply List.map_congr_left
            intro j _
            simp only [Function.comp, hshift]
        · intro j h1 h2
          by_cases hj : j = 1
          · subst hj
            simp only [Nat.cast_one, hp']
            rw [← hs2, ← hd2]
            exact hg
          · obtain ⟨j', rfl⟩ : ∃ j', j = j' + 1 := ⟨j - 1, by omega⟩
            rw [← hshift]
            exact hmid j' (by omega) (by omega)
        · intro hlt
          rw [← hshift]
          exact hend (by rw [hshift]; exact hlt)

/-! ### The swap -/

theorem flip_gen_loop_eq_fold {α : Type} (rank bpe : Nat) (it : FlipIt) (fuel : Nat)
    (cur : Cursor) (dest : List α) (tr : List (Int × Int))
    (h : flip_trace it.tshape it.sstride it.dstride rank fuel cur = some tr) :
    flip_gen_loop rank bpe it fuel cur dest =
      tr.foldlM (fun dest p => swap_bytes p.1 p.2 bpe dest) dest := by
  induction fuel generalizing cur dest tr with
  | zero => simp [flip_trace] at h
  | succ fuel ih =>
    unfold flip_trace at h
    unfold flip_gen_loop
    revert h
    cases hc : flip_carry it.tshape it.sstride it.dstride rank cur with
    | none =>
      intro h
      simp only [Option.some.injEq] at h
      subst h
      simp only [List.foldlM_cons, List.foldlM_nil]
    | some cur' =>
      intro h
      cases ht : flip_trace it.tshape it.sstride it.dstride rank fuel cur' with
      | none => simp [ht] at h
      | some tr' =>
        simp only [ht, Option.map_some', Option.some.injEq] at h
        subst h
        simp only [List.foldlM_cons]
        cases hb : swap_bytes cur.spos cur.dpos bpe dest with
        | error e => rfl
        | ok d1 =>
          simp only [bind, Except.bind]
          exact ih cur' d1 tr' ht

/-- The byte loop of `flip_gen` exchanges the `w` bytes at `s` with the `w`
bytes at `d`, when the two ranges are in bounds and equal or disjoint. -/
theorem swap_bytes_spec {α : Type} (buf : List α) (s d : Int) (w : Nat)
    (hs0 : 0 ≤ s) (hs1 : s + w ≤ buf.length) (hd0 : 0 ≤ d) (hd1 : d + w ≤ buf.length)
    (hwf : s = d ∨ Apart w s d) :
    ∃ buf', swap_bytes s d w buf = .ok buf' ∧ buf'.length = buf.length ∧
      ∀ x, load buf' x = load buf (swap_pos w (s, d) x) := by
  induction w with
  | zero =>
    refine ⟨buf, rfl, rfl, ?_⟩
    intro x
    unfold swap_pos
    have h1 : ¬ (s ≤ x ∧ x < s + ((0 : Nat) : Int)) := by omega
    have h2 : ¬ (d ≤ x ∧ x < d + ((0 : Nat) : Int)) := by omega
    simp only [h1, h2, if_false]
  | succ w ih =>
    have hwf' : s = d ∨ Apart w s d := by
      unfold Apart at hwf ⊢
      omega
    have hwf2 : s = d ∨ s + (w + 1 : Nat) ≤ d ∨ d + (w + 1 : Nat) ≤ s := hwf
    obtain ⟨b1, e1, l1, r1⟩ := ih (by omega) (by omega) hwf'
    obtain ⟨tmp, htmp⟩ := load_ok b1 (d + w) (by omega) (by omega)
    obtain ⟨v, hv⟩ := load_ok b1 (s + w) (by omega) (by omega)
    have l2 : (b1.set (d + w).toNat v).length = buf.length := by simp [l1]
    refine ⟨(b1.set (d + w).toNat v).set (s + w).toNat tmp, ?_, by simp [l1], ?_⟩
    · simp only [swap_bytes, e1, htmp, hv, bind, Except.bind]
      rw [store_ok b1 (d + w) v (by omega) (by omega)]
      exact store_ok _ (s + w) tmp (by omega) (by omega)
    · intro x
      rw [load_set _ (s + w) tmp (by omega) (by omega),
        load_set b1 (d + w) v (by omega) (by omega)]
      rw [r1] at htmp hv
      have hfixd : swap_pos w (s, d) (d + w) = d + w := by
        unfold swap_pos
        have h1 : ¬ (s ≤ d + (w : Int) ∧ d + (w : Int) < s + (w : Int)) := by omega
        have h2 : ¬ (d ≤ d + (w : Int) ∧ d + (w : Int) < d + (w : Int)) := by omega
        simp only [h1, h2, if_false]
      have hfixs : swap_pos w (s, d) (s + w) = s + w := by
        unfold swap_pos
        have h1 : ¬ (s ≤ s + (w : Int) ∧ s + (w : Int) < s + (w : Int)) := by omega
        have h2 : ¬ (d ≤ s + (w : Int) ∧ s + (w : Int) < d + (w : Int)) := by omega
        simp only [h1, h2, if_false]
      rw [hfixd] at htmp
      rw [hfixs] at hv
      by_cases hxs : x = s + w
      · subst hxs
        simp only [if_true, ← htmp]
        congr 1
        unfold swap_pos
        have h1 : s ≤ s + (w : Int) ∧ s + (w : Int) < s + ((w + 1 : Nat) : Int) := by omega
        simp only [h1, and_self, if_true]
        omega
      · simp only [hxs, if_false]
        by_cases hxd : x = d + w
        · subst hxd
          simp only [if_true, ← hv]
          congr 1
          unfold swap_pos
          have h1 : ¬ (s ≤ d + (w : Int) ∧ d + (w : Int) < s + ((w + 1 : Nat) : Int)) := by
            omega
          have h2 : d ≤ d + (w : Int) ∧ d + (w : Int) < d + ((w + 1 : Nat) : Int) := by omega
          simp only [h1, h2, and_self, if_true, if_false]
          omega
        · simp only [hxd, if_false, r1]
          congr 1
          unfold swap_pos
          simp only
          by_cases c1 : s ≤ x ∧ x < s + (w : Int)
          · have c1' : s ≤ x ∧ x < s + ((w + 1 : Nat) : Int) := by omega
            simp only [c1, c1', and_self, if_true]
          · have c1' : ¬ (s ≤ x ∧ x < s + ((w + 1 : Nat) : Int)) := by omega
            simp only [c1, c1', if_false]
            by_cases c2 : d ≤ x ∧ x < d + (w : Int)
            · have c2' : d ≤ x ∧ x < d + ((w + 1 : Nat) : Int) := by omega
              simp only [c2, c2', and_self, if_true]
            · have c2' : ¬ (d ≤ x ∧ x < d + ((w + 1 : Nat) : Int)) := by omega
              simp only [c2, c2', if_false]

/-- Folding the element swap over in-bounds pairs `f 0, ..., f (m-1)` succeeds,
and moves the bytes as `flip_perm` says. -/
theorem swap_fold_spec {α : Type} (w : Nat) (f : Nat → Int × Int) (m : Nat) (buf : List α)
    (hin : ∀ j, j < m → 0 ≤ (f j).1 ∧ (f j).1 + w ≤ buf.length ∧
      0 ≤ (f j).2 ∧ (f j).2 + w ≤ buf.length ∧ ((f j).1 = (f j).2 ∨ Apart w (f j).1 (f j).2)) :
    ∃ buf', ((List.range m).map f).foldlM (fun dest p => swap_bytes p.1 p.2 w dest) buf =
        .ok buf' ∧ buf'.length = buf.length ∧
      ∀ x, load buf' x = load buf (flip_perm w f m x) := by
  induction m with
  | zero => exact ⟨buf, rfl, rfl, fun x => rfl⟩
  | succ m ih =>
    obtain ⟨b1, e1, l1, r1⟩ := ih (fun j hj => hin j (by omega))
    obtain ⟨h1, h2, h3, h4, h5⟩ := hin m (by omega)
    obtain ⟨b2, e2, l2, r2⟩ := swap_bytes_spec b1 (f m).1 (f m).2 w h1 (by rw [l1]; exact h2) h3
      (by rw [l1]; exact h4) h5
    refine ⟨b2, ?_, by rw [l2, l1], ?_⟩
    · rw [List.range_succ, List.map_append, List.foldlM_append, e1]
      simp only [List.map_cons, List.map_nil, List.foldlM_cons, List.foldlM_nil, bind,
        Except.bind, e2]
      rfl
    · intro x
      rw [r2, r1]
      rfl

theorem swap_pos_of_not_mem (w : Nat) (p : Int × Int) (x : Int) (h : ¬ InPair w p x) :
    swap_pos w p x = x := by
  unfold InPair at h
  unfold swap_pos
  have h1 : ¬ (p.1 ≤ x ∧ x < p.1 + w) := fun c => h (Or.inl c)
  have h2 : ¬ (p.2 ≤ x ∧ x < p.2 + w) := fun c => h (Or.inr c)
  simp only [h1, h2, if_false]

theorem flip_perm_fix (w : Nat) (f : Nat → Int × Int) (m : Nat) (x : Int)
    (h : ∀ j, j < m → ¬ InPair w (f j) x) : flip_perm w f m x = x := by
  induction m with
  | zero => rfl
  | succ m ih =>
    simp only [flip_perm, swap_pos_of_not_mem w (f m) x (h m (by omega))]
    exact ih (fun j hj => h j (by omega))

/-- A byte that only the `j`-th swap touches, and that this swap sends to a
byte that only it touches, is moved by the `j`-th swap alone. -/
theorem flip_perm_at (w : Nat) (f : Nat → Int × Int) (m j : Nat) (x : Int) (hj : j < m)
    (h : ∀ i, i < m → i ≠ j → ¬ InPair w (f i) x ∧ ¬ InPair w (f i) (swap_pos w (f j) x)) :
    flip_perm w f m x = swap_pos w (f j) x := by
  induction m with
  | zero => omega
  | succ m ih =>
    simp only [flip_perm]
    by_cases e : j = m
    · subst e
      exact flip_perm_fix w f j _ (fun i hi => (h i (by omega) (by omega)).2)
    · rw [swap_pos_of_not_mem w (f m) x (h m (by omega) (fun c => e c.symm)).1]
      exact ih (by omega) (fun i hi hne => h i (by omega) hne)

/-! ### The set-up of `flip_gen`, continued -/

theorem flip_tshape_bounds (shape : List Int) (axes : List Bool) (a : Nat)
    (h : 1 ≤ extent shape a) :
    1 ≤ flip_tshape shape axes a ∧ flip_tshape shape axes a ≤ extent shape a ∧
    (first_flipped axes a → extent shape a ≤ 2 * flip_tshape shape axes a ∧
      2 * flip_tshape shape axes a ≤ extent shape a + 1) ∧
    (¬ first_flipped axes a → flip_tshape shape axes a = extent shape a) := by
  unfold flip_tshape
  by_cases hf : first_flipped axes a
  · simp only [hf, if_true, not_true, false_implies, true_implies, and_true]
    rw [Int.tdiv_eq_ediv (by omega) (by decide)]
    omega
  · simp only [hf, if_false, not_false_eq_true, false_implies, true_implies, and_true]
    omega

theorem offset_stride_congr (σ σ' c : Nat → Int) (n : Nat) (h : ∀ a, a < n → σ a = σ' a) :
    offset σ c n = offset σ' c n := by
  induction n with
  | zero => rfl
  | succ n ih => simp [offset, ih (fun a ha => h a (by omega)), h n (by omega)]

/-- The backward cursor of `flip_gen` is the forward cursor of the mirror
image. -/
theorem mirror_offset (shape : List Int) (bpe : Nat) (dstrides : List Nat) (axes : List Bool)
    (c : Nat → Int) (n : Nat) :
    offset (byte_stride dstrides bpe) (mirror shape axes (fun _ => 0)) n +
        offset (flip_dstride dstrides bpe axes) c n =
      offset (byte_stride dstrides bpe) (mirror shape axes c) n := by
  induction n with
  | zero => rfl
  | succ n ih =>
    simp only [offset]
    have : mirror shape axes (fun _ => 0) n * byte_stride dstrides bpe n +
        c n * flip_dstride dstrides bpe axes n =
        mirror shape axes c n * byte_stride dstrides bpe n := by
      unfold mirror flip_dstride
      by_cases hf : flipped axes n
      · simp only [hf, if_true]; ring
      · simp only [hf, if_false]; ring
    linear_combination ih + this

theorem flip_pair_eq (shape : List Int) (bpe : Nat) (dstrides : List Nat) (axes : List Bool)
    (rank : Nat) (j : Nat) :
    pair_at (flip_tshape shape axes) (byte_stride dstrides bpe)
        (flip_dstride dstrides bpe axes) rank 0
        (offset (byte_stride dstrides bpe) (mirror shape axes (fun _ => 0)) rank) j =
      flip_pair shape bpe dstrides axes rank j := by
  unfold pair_at flip_pair
  rw [mirror_offset, offset_byte_stride, offset_byte_stride, zero_add]

/-- The run of `flip_gen` on a shape of positive extents, with positive strides and a
non-empty mask: it swaps the pairs `flip_pair 0, ..., flip_pair (M-1)` and
returns, where `M` is the size of the walked box or the first position at which
the crossing guard fires. -/
theorem flip_gen_eq_fold {α : Type} (fuel rank : Nat) (shape : List Int) (bpe : Nat)
    (buf : List α) (dstrides : List Nat) (axes : List Bool)
    (hr0 : 1 ≤ rank) (hr : rank ≤ 16)
    (hshape : ∀ a, a < rank → 1 ≤ extent shape a)
    (hpos : ∀ a, a < rank → 0 < dstrides.getD a 0)
    (hmask : ∃ a, a < rank ∧ flipped axes a)
    (hfuel : extent_prod (flip_tshape shape axes) rank ≤ fuel) :
    ∃ M : Nat, 1 ≤ M ∧ (M : Int) ≤ extent_prod (flip_tshape shape axes) rank ∧
      flip_gen_trace fuel rank shape bpe dstrides axes =
        .ok ((List.range M).map (flip_pair shape bpe dstrides axes rank)) ∧
      flip_gen fuel rank shape bpe buf dstrides axes =
        ((List.range M).map (flip_pair shape bpe dstrides axes rank)).foldlM
          (fun dest p => swap_bytes p.1 p.2 bpe dest) buf ∧
      (∀ j : Nat, 1 ≤ j → j < M →
        ¬ (flip_pair shape bpe dstrides axes rank j).2 <
          (flip_pair shape bpe dstrides axes rank j).1) ∧
      ((M : Int) < extent_prod (flip_tshape shape axes) rank →
        (flip_pair shape bpe dstrides axes rank M).2 <
          (flip_pair shape bpe dstrides axes rank M).1) := by
  have hr' : ¬ rank > MAX_RANK := by simp [MAX_RANK]; omega
  obtain ⟨it, e, hcount, -, hsw, -, hts, hss, hds, hdp⟩ :=
    flip_setup_spec rank shape bpe dstrides axes rank hpos
  have hsw' : it.swapped_dims ≠ 0 := by
    intro h0
    obtain ⟨a, ha, hfa⟩ := hmask
    exact hsw.1 h0 a ha hfa
  have hcnt : it.count ≠ 0 := by
    rw [hcount, count_upto_eq rank shape (by omega)]
    have := extent_prod_pos (extent shape) rank (fun a ha => by have := hshape a ha; omega)
    omega
  have hT : ∀ a, a < rank → 1 ≤ flip_tshape shape axes a :=
    fun a ha => (flip_tshape_bounds shape axes a (hshape a ha)).1
  obtain ⟨n, rfl⟩ : ∃ n, rank = n + 1 := ⟨rank - 1, by omega⟩
  obtain ⟨M, hM1, hM2, htr, hmid, hend⟩ := flip_trace_spec (flip_tshape shape axes)
    (byte_stride dstrides bpe) (flip_dstride dstrides bpe axes) n 0
    (offset (byte_stride dstrides bpe) (mirror shape axes (fun _ => 0)) (n + 1)) fuel
    { coordinate := fun _ => 0, spos := 0, dpos := it.dpos }
    (inShape_zero _ (n + 1) hT) (by simp [offset_zero]) (by simp [offset_zero, hdp])
    (by simp only [ravel_zero]; omega)
  simp only [ravel_zero, zero_add, flip_pair_eq] at hM2 htr hmid hend
  have htr' : flip_trace it.tshape it.sstride it.dstride (n + 1) fuel
      { coordinate := fun _ => 0, spos := 0, dpos := it.dpos } =
      some ((List.range M).map (flip_pair shape bpe dstrides axes (n + 1))) := by
    rw [flip_trace_congr _ _ _ _ _ _ (n + 1) fuel _ hts hss hds]
    exact htr
  refine ⟨M, hM1, hM2, ?_, ?_, hmid, hend⟩
  · simp only [flip_gen_trace, hr', if_false, e, bind, Except.bind, hsw', hcnt, htr']
  · simp only [flip_gen, hr', if_false, e, bind, Except.bind, hsw', hcnt]
    exact flip_gen_loop_eq_fold (n + 1) bpe it fuel _ buf _ htr'

/-! ### `flip_gen` seen through the view -/

theorem apart_of_ne (w : Nat) (e e' : Int) (h : e ≠ e') : Apart w (e * w) (e' * w) := by
  unfold Apart
  rcases lt_or_gt_of_ne h with h | h
  · left
    have : (e + 1) * (w : Int) ≤ e' * w := Int.mul_le_mul_of_nonneg_right (by omega) (by omega)
    have e1 : (e + 1) * (w : Int) = e * w + w := by ring
    omega
  · right
    have : (e' + 1) * (w : Int) ≤ e * w := Int.mul_le_mul_of_nonneg_right (by omega) (by omega)
    have e1 : (e' + 1) * (w : Int) = e' * w + w := by ring
    omega

theorem mirror_inShape (shape : List Int) (axes : List Bool) (n : Nat) (c : Nat → Int)
    (h : InShape (extent shape) n c) : InShape (extent shape) n (mirror shape axes c) := by
  intro a ha
  obtain ⟨h0, h1⟩ := h a ha
  unfold mirror
  by_cases hf : flipped axes a
  · simp only [hf, if_true]; omega
  · simp only [hf, if_false]; exact ⟨h0, h1⟩

theorem mirror_mirror (shape : List Int) (axes : List Bool) (c : Nat → Int) (a : Nat) :
    mirror shape axes (mirror shape axes c) a = c a := by
  unfold mirror
  by_cases hf : flipped axes a
  · simp only [hf, if_true]; omega
  · simp only [hf, if_false]

theorem mirror_congr (shape : List Int) (axes : List Bool) (c c' : Nat → Int) (a : Nat)
    (h : c a = c' a) : mirror shape axes c a = mirror shape axes c' a := by
  unfold mirror
  rw [h]

theorem inShape_of_tshape (shape : List Int) (axes : List Bool) (n : Nat) (c : Nat → Int)
    (hshape : ∀ a, a < n → 1 ≤ extent shape a)
    (h : InShape (flip_tshape shape axes) n c) : InShape (extent shape) n c := by
  intro a ha
  obtain ⟨h0, h1⟩ := h a ha
  have := (flip_tshape_bounds shape axes a (hshape a ha)).2.1
  exact ⟨h0, by omega⟩

/-- The `j`-th multi-index of the box that `flip_gen` walks. -/
theorem flip_index_inShape (shape : List Int) (axes : List Bool) (rank : Nat)
    (hshape : ∀ a, a < rank → 1 ≤ extent shape a) (j : Int) :
    InShape (flip_tshape shape axes) rank (unravel (flip_tshape shape axes) rank j) ∧
    InShape (extent shape) rank (unravel (flip_tshape shape axes) rank j) ∧
    InShape (extent shape) rank (mirror shape axes (unravel (flip_tshape shape axes) rank j)) := by
  have hT : ∀ a, a < rank → 0 < flip_tshape shape axes a := fun a ha => by
    have := (flip_tshape_bounds shape axes a (hshape a ha)).1; omega
  have h1 := unravel_inShape (flip_tshape shape axes) rank hT j
  have h2 := inShape_of_tshape shape axes rank _ hshape h1
  exact ⟨h1, h2, mirror_inShape shape axes rank _ h2⟩

/-- The call of `flip_gen` returns when the view is in bounds, and moves the bytes as the
composition of its swaps says. -/
theorem flip_gen_ok {α : Type} (fuel rank : Nat) (shape : List Int) (bpe : Nat)
    (buf : List α) (dstrides : List Nat) (axes : List Bool)
    (hr0 : 1 ≤ rank) (hr : rank ≤ 16)
    (hshape : ∀ a, a < rank → 1 ≤ extent shape a)
    (hpos : ∀ a, a < rank → 0 < dstrides.getD a 0)
    (hmask : ∃ a, a < rank ∧ flipped axes a)
    (hbuf : ∀ c, InShape (extent shape) rank c →
      0 ≤ offset (stride dstrides) c rank ∧
      (offset (stride dstrides) c rank + 1) * bpe ≤ buf.length)
    (hfuel : extent_prod (flip_tshape shape axes) rank ≤ fuel) :
    ∃ (M : Nat) (buf' : List α), 1 ≤ M ∧
      (M : Int) ≤ extent_prod (flip_tshape shape axes) rank ∧
      flip_gen_trace fuel rank shape bpe dstrides axes =
        .ok ((List.range M).map (flip_pair shape bpe dstrides axes rank)) ∧
      flip_gen fuel rank shape bpe buf dstrides axes = .ok buf' ∧
      buf'.length = buf.length ∧
      (∀ x, load buf' x = load buf (flip_perm bpe (flip_pair shape bpe dstrides axes rank) M x)) ∧
      (∀ j : Nat, 1 ≤ j → j < M →
        ¬ (flip_pair shape bpe dstrides axes rank j).2 <
          (flip_pair shape bpe dstrides axes rank j).1) ∧
      ((M : Int) < extent_prod (flip_tshape shape axes) rank →
        (flip_pair shape bpe dstrides axes rank M).2 <
          (flip_pair shape bpe dstrides axes rank M).1) := by
  obtain ⟨M, hM1, hM2, htr, hrun, hmid, hend⟩ :=
    flip_gen_eq_fold fuel rank shape bpe buf dstrides axes hr0 hr hshape hpos hmask hfuel
  have hin : ∀ j, j < M →
      0 ≤ (flip_pair shape bpe dstrides axes rank j).1 ∧
      (flip_pair shape bpe dstrides axes rank j).1 + bpe ≤ buf.length ∧
      0 ≤ (flip_pair shape bpe dstrides axes rank j).2 ∧
      (flip_pair shape bpe dstrides axes rank j).2 + bpe ≤ buf.length ∧
      ((flip_pair shape bpe dstrides axes rank j).1 = (flip_pair shape bpe dstrides axes rank j).2 ∨
        Apart bpe (flip_pair shape bpe dstrides axes rank j).1
          (flip_pair shape bpe dstrides axes rank j).2) := by
    intro j _
    obtain ⟨-, h2, h3⟩ := flip_index_inShape shape axes rank hshape (j : Int)
    obtain ⟨a0, a1⟩ := hbuf _ h2
    obtain ⟨b0, b1⟩ := hbuf _ h3
    have e1 : ∀ z : Int, (z + 1) * (bpe : Int) = z * bpe + bpe := fun z => by ring
    rw [e1] at a1 b1
    refine ⟨Int.mul_nonneg a0 (by omega), a1, Int.mul_nonneg b0 (by omega), b1, ?_⟩
    simp only [flip_pair]
    by_cases he : offset (stride dstrides) (unravel (flip_tshape shape axes) rank j) rank =
        offset (stride dstrides)
          (mirror shape axes (unravel (flip_tshape shape axes) rank j)) rank
    · left; rw [he]
    · right; exact apart_of_ne bpe _ _ he
  obtain ⟨buf', e, l, r⟩ := swap_fold_spec bpe (flip_pair shape bpe dstrides axes rank) M buf hin
  exact ⟨M, buf', hM1, hM2, htr, by rw [hrun]; exact e, l, r, hmid, hend⟩

theorem swap_pos_fst (w : Nat) (s d : Int) (i : Nat) (hi : i < w) :
    swap_pos w (s, d) (s + i) = d + i := by
  unfold swap_pos
  have c : s ≤ s + (i : Int) ∧ s + (i : Int) < s + (w : Int) := by omega
  simp only [c, and_self, if_true]
  omega

theorem swap_pos_snd (w : Nat) (s d : Int) (i : Nat) (hi : i < w)
    (hwf : s = d ∨ Apart w s d) : swap_pos w (s, d) (d + i) = s + i := by
  unfold swap_pos
  unfold Apart at hwf
  by_cases c : s ≤ d + (i : Int) ∧ d + (i : Int) < s + (w : Int)
  · simp only [c, and_self, if_true]
    omega
  · have c2 : d ≤ d + (i : Int) ∧ d + (i : Int) < d + (w : Int) := by omega
    simp only [c, c2, and_self, if_true, if_false]
    omega

/-- When the elements of different swaps are pairwise distinct, the composition
of the swaps exchanges the two elements of each swap. -/
theorem flip_perm_pairs (w : Nat) (e m : Nat → Int) (M : Nat)
    (hdis : ∀ j j', j < M → j' < M → j ≠ j' →
      e j ≠ e j' ∧ e j ≠ m j' ∧ m j ≠ e j' ∧ m j ≠ m j')
    (j : Nat) (hj : j < M) (i : Nat) (hi : i < w) :
    flip_perm w (fun j => (e j * w, m j * w)) M (e j * w + i) = m j * w + i ∧
    flip_perm w (fun j => (e j * w, m j * w)) M (m j * w + i) = e j * w + i := by
  have key : ∀ j', j' < M → j' ≠ j → ∀ z, (z = e j ∨ z = m j) →
      ¬ InPair w (e j' * w, m j' * w) (z * w + i) := by
    intro j' hj' hne z hz
    obtain ⟨d1, d2, d3, d4⟩ := hdis j j' hj hj' (fun c => hne c.symm)
    unfold InPair
    rintro (⟨a, b⟩ | ⟨a, b⟩)
    · have := element_eq_of_byte z (e j') w i (by omega) (by omega) a b
      rcases hz with hz | hz <;> subst hz
      · exact d1 this
      · exact d3 this
    · have := element_eq_of_byte z (m j') w i (by omega) (by omega) a b
      rcases hz with hz | hz <;> subst hz
      · exact d2 this
      · exact d4 this
  have hwf : e j * w = m j * w ∨ Apart w (e j * w) (m j * w) := by
    by_cases he : e j = m j
    · left; rw [he]
    · right; exact apart_of_ne w _ _ he
  constructor
  · rw [flip_perm_at w _ M j _ hj]
    · exact swap_pos_fst w _ _ i hi
    · intro i' hi' hne
      refine ⟨key i' hi' hne _ (Or.inl rfl), ?_⟩
      show ¬ InPair w (e i' * w, m i' * w) (swap_pos w (e j * w, m j * w) (e j * w + i))
      rw [swap_pos_fst w _ _ i hi]
      exact key i' hi' hne _ (Or.inr rfl)
  · rw [flip_perm_at w _ M j _ hj]
    · exact swap_pos_snd w _ _ i hi hwf
    · intro i' hi' hne
      refine ⟨key i' hi' hne _ (Or.inr rfl), ?_⟩
      show ¬ InPair w (e i' * w, m i' * w) (swap_pos w (e j * w, m j * w) (m j * w + i))
      rw [swap_pos_snd w _ _ i hi hwf]
      exact key i' hi' hne _ (Or.inl rfl)

/-- The swaps of `flip_gen` touch pairwise distinct elements, when distinct
multi-indices have distinct offsets and no walked multi-index is the mirror
image of another walked one. -/
theorem flip_pairs_distinct (shape : List Int) (dstrides : List Nat) (axes : List Bool)
    (rank M : Nat) (hshape : ∀ a, a < rank → 1 ≤ extent shape a)
    (hM : (M : Int) ≤ extent_prod (flip_tshape shape axes) rank)
    (hinj : ∀ c c', InShape (extent shape) rank c → InShape (extent shape) rank c' →
      offset (stride dstrides) c rank = offset (stride dstrides) c' rank →
      ∀ a, a < rank → c a = c' a)
    (hcross : ∀ j j' : Nat, j < M → j' < M → j ≠ j' →
      ¬ ∀ a, a < rank → unravel (flip_tshape shape axes) rank j a =
        mirror shape axes (unravel (flip_tshape shape axes) rank j') a)
    (j j' : Nat) (hj : j < M) (hj' : j' < M) (hne : j ≠ j') :
    offset (stride dstrides) (unravel (flip_tshape shape axes) rank j) rank ≠
      offset (stride dstrides) (unravel (flip_tshape shape axes) rank j') rank ∧
    offset (stride dstrides) (unravel (flip_tshape shape axes) rank j) rank ≠
      offset (stride dstrides)
        (mirror shape axes (unravel (flip_tshape shape axes) rank j')) rank ∧
    offset (stride dstrides)
        (mirror shape axes (unravel (flip_tshape shape axes) rank j)) rank ≠
      offset (stride dstrides) (unravel (flip_tshape shape axes) rank j') rank ∧
    offset (stride dstrides)
        (mirror shape axes (unravel (flip_tshape shape axes) rank j)) rank ≠
      offset (stride dstrides)
        (mirror shape axes (unravel (flip_tshape shape axes) rank j')) rank := by
  have hT : ∀ a, a < rank → 0 < flip_tshape shape axes a := fun a ha => by
    have := (flip_tshape_bounds shape axes a (hshape a ha)).1; omega
  obtain ⟨-, c1, m1⟩ := flip_index_inShape shape axes rank hshape (j : Int)
  obtain ⟨-, c2, m2⟩ := flip_index_inShape shape axes rank hshape (j' : Int)
  have hr1 := ravel_unravel (flip_tshape shape axes) rank hT (j : Int) (by omega) (by omega)
  have hr2 := ravel_unravel (flip_tshape shape axes) rank hT (j' : Int) (by omega) (by omega)
  have hsame : (∀ a, a < rank → unravel (flip_tshape shape axes) rank j a =
      unravel (flip_tshape shape axes) rank j' a) → False := by
    intro h
    have := ravel_congr (flip_tshape shape axes) _ _ rank h
    omega
  refine ⟨?_, ?_, ?_, ?_⟩
  · intro h
    exact hsame (hinj _ _ c1 c2 h)
  · intro h
    exact hcross j j' hj hj' hne (hinj _ _ c1 m2 h)
  · intro h
    exact hcross j' j hj' hj (fun c => hne c.symm) (fun a ha => (hinj _ _ m1 c2 h a ha).symm)
  · intro h
    apply hsame
    intro a ha
    have := mirror_congr shape axes _ _ a (hinj _ _ m1 m2 h a ha)
    rw [mirror_mirror, mirror_mirror] at this
    exact this

/-- When the elements of different swaps are pairwise distinct, the composition
of the swaps is an involution of the byte positions. -/
theorem flip_perm_invol (w : Nat) (e m : Nat → Int) (M : Nat)
    (hdis : ∀ j j', j < M → j' < M → j ≠ j' →
      e j ≠ e j' ∧ e j ≠ m j' ∧ m j ≠ e j' ∧ m j ≠ m j') (x : Int) :
    flip_perm w (fun j => (e j * w, m j * w)) M
      (flip_perm w (fun j => (e j * w, m j * w)) M x) = x := by
  by_cases h : ∃ j, j < M ∧ InPair w (e j * w, m j * w) x
  · obtain ⟨j, hj, hx⟩ := h
    unfold InPair at hx
    rcases hx with ⟨a, b⟩ | ⟨a, b⟩
    · have hi : (x - e j * w).toNat < w := by
        have : x - e j * (w : Int) < w := by simp only at a b; omega
        omega
      have hx : x = e j * w + ((x - e j * w).toNat : Nat) := by
        simp only at a b; omega
      obtain ⟨p1, p2⟩ := flip_perm_pairs w e m M hdis j hj _ hi
      rw [hx, p1, p2]
    · have hi : (x - m j * w).toNat < w := by
        have : x - m j * (w : Int) < w := by simp only at a b; omega
        omega
      have hx : x = m j * w + ((x - m j * w).toNat : Nat) := by
        simp only at a b; omega
      obtain ⟨p1, p2⟩ := flip_perm_pairs w e m M hdis j hj _ hi
      rw [hx, p2, p1]
  · have hfix : flip_perm w (fun j => (e j * w, m j * w)) M x = x :=
      flip_perm_fix w _ M x (fun j hj c => h ⟨j, hj, c⟩)
    rw [hfix, hfix]

theorem exists_first_flipped (axes : List Bool) (rank : Nat)
    (h : ∃ a, a < rank ∧ flipped axes a) : ∃ f, f < rank ∧ first_flipped axes f := by
  have hex : ∃ a, flipped axes a := by
    obtain ⟨a, -, ha⟩ := h
    exact ⟨a, ha⟩
  refine ⟨Nat.find hex, ?_, Nat.find_spec hex, fun b hb => Nat.find_min hex hb⟩
  obtain ⟨a, ha, hfa⟩ := h
  exact lt_of_le_of_lt (Nat.find_min' hex hfa) ha

theorem flip_gen_of_count_zero {α : Type} (fuel rank : Nat) (shape : List Int) (bpe : Nat)
    (buf : List α) (dstrides : List Nat) (axes : List Bool) (hr : rank ≤ 16)
    (hpos : ∀ a, a < rank → 0 < dstrides.getD a 0)
    (hc : count_upto rank shape rank = 0) :
    flip_gen fuel rank shape bpe buf dstrides axes = .ok buf := by
  have hr' : ¬ rank > MAX_RANK := by simp [MAX_RANK]; omega
  obtain ⟨it, e, hcount, -⟩ := flip_setup_spec rank shape bpe dstrides axes rank hpos
  rw [hc] at hcount
  simp only [flip_gen, hr', if_false, e, bind, Except.bind, hcount, if_true]
  split <;> rfl

/-- C7: `flip_gen` is self-inverse.  For every rank 1..16, every shape whose
selected axes all have even extent, every non-empty axis mask, every element
width and every set of strictly positive strides under which distinct
multi-indices have distinct offsets (the view lying inside the buffer), calling
`flip_gen` twice with the same arguments returns the original buffer, byte for
byte. -/
theorem flip_gen_self_inverse {α : Type} (fuel rank : Nat) (shape : List Int) (bpe : Nat)
    (buf : List α) (dstrides : List Nat) (axes : List Bool)
    (hr0 : 1 ≤ rank) (hr : rank ≤ 16)
    (hshape : ∀ a, a < rank → 0 ≤ extent shape a)
    (heven : ∀ a, a < rank → flipped axes a → extent shape a % 2 = 0)
    (hpos : ∀ a, a < rank → 0 < dstrides.getD a 0)
    (hmask : ∃ a, a < rank ∧ flipped axes a)
    (hinj : ∀ c c', InShape (extent shape) rank c → InShape (extent shape) rank c' →
      offset (stride dstrides) c rank = offset (stride dstrides) c' rank →
      ∀ a, a < rank → c a = c' a)
    (hbuf : ∀ c, InShape (extent shape) rank c →
      0 ≤ offset (stride dstrides) c rank ∧
      (offset (stride dstrides) c rank + 1) * bpe ≤ buf.length)
    (hfuel : extent_prod (flip_tshape shape axes) rank ≤ fuel) :
    ∃ buf1, flip_gen fuel rank shape bpe buf dstrides axes = .ok buf1 ∧
      flip_gen fuel rank shape bpe buf1 dstrides axes = .ok buf := by
  by_cases hz : ∃ a, a < rank ∧ extent shape a = 0
  · obtain ⟨a, ha, h0⟩ := hz
    have hc : count_upto rank shape rank = 0 := by
      rw [count_upto_eq rank shape (by omega)]
      exact extent_prod_eq_zero _ rank a ha h0
    exact ⟨buf, flip_gen_of_count_zero fuel rank shape bpe buf dstrides axes hr hpos hc,
      flip_gen_of_count_zero fuel rank shape bpe buf dstrides axes hr hpos hc⟩
  · have hshape1 : ∀ a, a < rank → 1 ≤ extent shape a := by
      intro a ha
      have h0 := hshape a ha
      have : extent shape a ≠ 0 := fun c => hz ⟨a, ha, c⟩
      omega
    obtain ⟨M, buf1, hM1, hM2, htr, e1, l1, r1, -, -⟩ :=
      flip_gen_ok fuel rank shape bpe buf dstrides axes hr0 hr hshape1 hpos hmask hbuf hfuel
    obtain ⟨M', buf2, -, -, htr', e2, l2, r2, -, -⟩ :=
      flip_gen_ok fuel rank shape bpe buf1 dstrides axes hr0 hr hshape1 hpos hmask
        (by rw [l1]; exact hbuf) hfuel
    have hMM : M' = M := by
      rw [htr] at htr'
      have := congrArg List.length (Except.ok.inj htr')
      simpa using this.symm
    subst hMM
    obtain ⟨f, hf, hff⟩ := exists_first_flipped axes rank hmask
    have hcross : ∀ j j' : Nat, j < M' → j' < M' → j ≠ j' →
        ¬ ∀ a, a < rank → unravel (flip_tshape shape axes) rank j a =
          mirror shape axes (unravel (flip_tshape shape axes) rank j') a := by
      intro j j' _ _ _ hall
      obtain ⟨t1, -, -⟩ := flip_index_inShape shape axes rank hshape1 (j : Int)
      obtain ⟨t2, -, -⟩ := flip_index_inShape shape axes rank hshape1 (j' : Int)
      have hb := (flip_tshape_bounds shape axes f (hshape1 f hf)).2.2.1 hff
      have hev := heven f hf hff.1
      have h1 := t1 f hf
      have h2 := t2 f hf
      have h3 := hall f hf
      unfold mirror at h3
      simp only [hff.1, if_true] at h3
      omega
    have hdis := flip_pairs_distinct shape dstrides axes rank M' hshape1 hM2 hinj hcross
    refine ⟨buf1, e1, ?_⟩
    rw [e2]
    congr 1
    apply buf_ext _ _ (by rw [l2, l1])
    intro x
    rw [r2, r1]
    congr 1
    exact flip_perm_invol bpe _ _ M' hdis x
/-- A column-major 2x2 buffer flipped along both axes: the hypotheses of C7
hold. -/
theorem flip_gen_self_inverse_witness :
    ∃ buf1, flip_gen 2 2 [2, 2] 1 [10, 11, 12, 13] [1, 2] [true, true] = .ok buf1 ∧
      flip_gen 2 2 [2, 2] 1 buf1 [1, 2] [true, true] = .ok [10, 11, 12, 13] :=
  flip_gen_self_inverse 2 2 [2, 2] 1 [10, 11, 12, 13] [1, 2] [true, true]
    (by decide) (by decide)
    (by intro a ha; interval_cases a <;> decide)
    (by intro a ha _; interval_cases a <;> decide)
    (by intro a ha; interval_cases a <;> decide)
    ⟨0, by decide, by decide⟩
    (by
      intro c c' h h' e a ha
      have h0 := h 0 (by decide)
      have h1 := h 1 (by decide)
      have h0' := h' 0 (by decide)
      have h1' := h' 1 (by decide)
      simp [offset, stride, extent] at e h0 h1 h0' h1'
      interval_cases a <;> omega)
    (by
      intro c h
      have h0 := h 0 (by decide)
      have h1 := h 1 (by decide)
      simp [offset, stride, extent] at h0 h1 ⊢
      omega)
    (by decide)

/-- C3 (failing input): on the row-major contiguous 2x3x2 buffer `0, ..., 11`
with the two inner axes selected, `flip_gen` mirrors the first outer slice and
returns at the crossing guard, leaving the second outer slice as it was; the
element at multi-index `(1,0,0)` is not the element that was at its mirror
image `(1,2,1)`. -/
theorem flip_gen_inner_axes_stops_early :
    flip_gen 4 3 [2, 3, 2] 1 [(0 : Int), 1, 2, 3, 4, 5, 6, 7, 8, 9, 10, 11] [6, 2, 1]
      [false, true, true] = .ok [5, 4, 3, 2, 1, 0, 6, 7, 8, 9, 10, 11] ∧
    flip_gen_trace 4 3 [2, 3, 2] 1 [6, 2, 1] [false, true, true] =
      .ok [(0, 5), (1, 4), (2, 3)] ∧
    load [(5 : Int), 4, 3, 2, 1, 0, 6, 7, 8, 9, 10, 11]
      (offset (stride [6, 2, 1]) (fun a => [1, 0, 0].getD a 0) 3) = .ok 6 ∧
    load [(0 : Int), 1, 2, 3, 4, 5, 6, 7, 8, 9, 10, 11]
      (offset (stride [6, 2, 1])
        (mirror [2, 3, 2] [false, true, true] (fun a => [1, 0, 0].getD a 0)) 3) = .ok 11 :=
  ⟨rfl, rfl, rfl, rfl⟩

/-- C6 (failing input): on the column-major 2x2 buffer `0, 1, 2, 3` (strides
`[1, 2]`, both extents even) with both axes selected, `flip_gen` swaps the
elements at offsets 0 and 3 and returns at the crossing guard; the element at
multi-index `(0,1)` (offset 2) is not the element that was at its mirror image
`(1,0)` (offset 1). -/
theorem flip_gen_column_major_stops_early :
    flip_gen 2 2 [2, 2] 1 [(0 : Int), 1, 2, 3] [1, 2] [true, true] = .ok [3, 1, 2, 0] ∧
    flip_gen_trace 2 2 [2, 2] 1 [1, 2] [true, true] = .ok [(0, 3)] ∧
    load [(3 : Int), 1, 2, 0] (offset (stride [1, 2]) (fun a => [0, 1].getD a 0) 2) = .ok 2 ∧
    load [(0 : Int), 1, 2, 3]
      (offset (stride [1, 2]) (mirror [2, 2] [true, true] (fun a => [0, 1].getD a 0)) 2) =
        .ok 1 :=
  ⟨rfl, rfl, rfl, rfl⟩

/-! ### Failure paths -/

theorem load_ne_assertion {α : Type} (buf : List α) (pos : Int) :
    load buf pos ≠ .error .assertion := by
  unfold load
  split
  · split <;> simp
  · simp

theorem store_ne_assertion {α : Type} (buf : List α) (pos : Int) (v : α) :
    store buf pos v ≠ .error .assertion := by
  unfold store
  split <;> simp

theorem copy_bytes_ne_assertion {α : Type} (src : List α) (spos dpos : Int) (w : Nat)
    (dest : List α) : copy_bytes src spos dpos w dest ≠ .error .assertion := by
  induction w with
  | zero => simp [copy_bytes, pure, Except.pure]
  | succ w ih =>
    unfold copy_bytes
    cases h1 : copy_bytes src spos dpos w dest with
    | error e =>
      simp only [bind, Except.bind]
      intro h
      rw [h1] at ih
      exact ih (by rw [Except.error.inj h])
    | ok d1 =>
      simp only [bind, Except.bind]
      cases h2 : load src (spos + w) with
      | error e =>
        simp only
        intro h
        exact load_ne_assertion src (spos + w) (by rw [h2, Except.error.inj h])
      | ok v =>
        simp only
        exact store_ne_assertion _ _ _

theorem swap_bytes_ne_assertion {α : Type} (spos dpos : Int) (w : Nat) (dest : List α) :
    swap_bytes spos dpos w dest ≠ .error .assertion := by
  induction w with
  | zero => simp [swap_bytes, pure, Except.pure]
  | succ w ih =>
    unfold swap_bytes
    cases h1 : swap_bytes spos dpos w dest with
    | error e =>
      simp only [bind, Except.bind]
      intro h
      rw [h1] at ih
      exact ih (by rw [Except.error.inj h])
    | ok d1 =>
      simp only [bind, Except.bind]
      cases h2 : load d1 (dpos + w) with
      | error e =>
        simp only
        intro h
        exact load_ne_assertion d1 (dpos + w) (by rw [h2, Except.error.inj h])
      | ok tmp =>
        simp only
        cases h3 : load d1 (spos + w) with
        | error e =>
          simp only
          intro h
          exact load_ne_assertion d1 (spos + w) (by rw [h3, Except.error.inj h])
        | ok v =>
          simp only
          cases h4 : store d1 (dpos + w) v with
          | error e =>
            simp only
            intro h
            exact store_ne_assertion d1 (dpos + w) v (by rw [h4, Except.error.inj h])
          | ok d2 =>
            simp only
            exact store_ne_assertion _ _ _

theorem strided_set_gen_loop_ne_assertion {α : Type} (rank : Nat) (shape : List Int)
    (bpe : Nat) (dstrides : List Nat) (src : List α) (sstrides : List Nat) (fuel : Nat)
    (cur : Cursor) (dest : List α) :
    strided_set_gen_loop rank shape bpe dstrides src sstrides fuel cur dest ≠
      .error .assertion := by
  induction fuel generalizing cur dest with
  | zero => simp [strided_set_gen_loop]
  | succ fuel ih =>
    unfold strided_set_gen_loop
    cases h1 : copy_bytes src cur.spos cur.dpos bpe dest with
    | error e =>
      simp only [bind, Except.bind]
      intro h
      exact copy_bytes_ne_assertion src cur.spos cur.dpos bpe dest
        (by rw [h1, Except.error.inj h])
    | ok d1 =>
      simp only [bind, Except.bind]
      cases carry (extent shape) (byte_stride sstrides bpe) (byte_stride dstrides bpe) rank
          cur with
      | none => simp [pure, Except.pure]
      | some cur' => exact ih cur' d1

theorem flip_gen_loop_ne_assertion {α : Type} (rank bpe : Nat) (it : FlipIt) (fuel : Nat)
    (cur : Cursor) (dest : List α) :
    flip_gen_loop rank bpe it fuel cur dest ≠ .error .assertion := by
  induction fuel generalizing cur dest with
  | zero => simp [flip_gen_loop]
  | succ fuel ih =>
    unfold flip_gen_loop
    cases h1 : swap_bytes cur.spos cur.dpos bpe dest with
    | error e =>
      simp only [bind, Except.bind]
      intro h
      exact swap_bytes_ne_assertion cur.spos cur.dpos bpe dest
        (by rw [h1, Except.error.inj h])
    | ok d1 =>
      simp only [bind, Except.bind]
      cases flip_carry it.tshape it.sstride it.dstride rank cur with
      | none => simp [pure, Except.pure]
      | some cur' => exact ih cur' d1

/-! ### The copies on any shape of non-negative extents -/

theorem count_zero_or_positive (rank : Nat) (shape : List Int)
    (hshape : ∀ a, a < rank → 0 ≤ extent shape a) :
    count_upto rank shape rank = 0 ∨ (1 ≤ rank ∧ ∀ a, a < rank → 1 ≤ extent shape a) := by
  by_cases hz : rank = 0 ∨ ∃ a, a < rank ∧ extent shape a = 0
  · left
    rcases hz with h | ⟨a, ha, h0⟩
    · subst h; rfl
    · rw [count_upto_eq rank shape (by omega)]
      exact extent_prod_eq_zero _ rank a ha h0
  · right
    refine ⟨by omega, fun a ha => ?_⟩
    have h0 := hshape a ha
    have : extent shape a ≠ 0 := fun c => hz (Or.inr ⟨a, ha, c⟩)
    omega

/-- The generic copy returns on every in-bounds pair of views of a shape of
non-negative extents, and changes no byte outside of the destination view. -/
theorem strided_set_gen_frame {α : Type} (fuel rank : Nat) (shape : List Int) (bpe : Nat)
    (dest : List α) (dstrides : List Nat) (src : List α) (sstrides : List Nat)
    (hr : rank ≤ 16)
    (hshape : ∀ a, a < rank → 0 ≤ extent shape a)
    (hsrc : ∀ c, InShape (extent shape) rank c →
      0 ≤ offset (stride sstrides) c rank ∧
      (offset (stride sstrides) c rank + 1) * bpe ≤ src.length)
    (hdst : ∀ c, InShape (extent shape) rank c →
      0 ≤ offset (stride dstrides) c rank ∧
      (offset (stride dstrides) c rank + 1) * bpe ≤ dest.length)
    (hfuel : extent_prod (extent shape) rank ≤ fuel) :
    ∃ dest', strided_set_gen fuel rank shape bpe dest dstrides src sstrides = .ok dest' ∧
      dest'.length = dest.length ∧
      ∀ x : Int, (∀ c, InShape (extent shape) rank c → ∀ i : Nat, i < bpe →
        x ≠ offset (stride dstrides) c rank * bpe + i) → load dest' x = load dest x := by
  have hr' : ¬ rank > MAX_RANK := by simp [MAX_RANK]; omega
  rcases count_zero_or_positive rank shape hshape with hc | ⟨hr0, hshape1⟩
  · exact ⟨dest, by simp only [strided_set_gen, hr', hc, if_false, if_true], rfl,
      fun x _ => rfl⟩
  · obtain ⟨dest', e, l, fr, -⟩ :=
      copy_view_spec (extent shape) sstrides dstrides rank bpe src dest hshape1 hsrc hdst
    refine ⟨dest', ?_, l, ?_⟩
    · rw [strided_set_gen_eq_fold fuel rank shape bpe dest dstrides src sstrides hr0 hr hshape1
        hfuel]
      exact e
    · intro x hx
      apply fr
      rintro c hc ⟨h0, h1⟩
      apply hx c hc (x - offset (stride dstrides) c rank * bpe).toNat
      · omega
      · omega

/-- The typed copy returns on every in-bounds pair of views of a shape of
non-negative extents, and changes no element outside of the destination
view. -/
theorem strided_set_float_frame {α : Type} (fuel rank : Nat) (shape : List Int) (bpe : Nat)
    (dest : List α) (dstrides : List Nat) (src : List α) (sstrides : List Nat)
    (hr : rank ≤ 16)
    (hshape : ∀ a, a < rank → 0 ≤ extent shape a)
    (hsrc : ∀ c, InShape (extent shape) rank c →
      0 ≤ offset (stride sstrides) c rank ∧ offset (stride sstrides) c rank < src.length)
    (hdst : ∀ c, InShape (extent shape) rank c →
      0 ≤ offset (stride dstrides) c rank ∧ offset (stride dstrides) c rank < dest.length)
    (hfuel : extent_prod (extent shape) rank ≤ fuel) :
    ∃ dest', strided_set_float fuel rank shape bpe dest dstrides src sstrides = .ok dest' ∧
      dest'.length = dest.length ∧
      ∀ x : Int, (∀ c, InShape (extent shape) rank c →
        x ≠ offset (stride dstrides) c rank) → load dest' x = load dest x := by
  have hr' : ¬ rank > MAX_RANK := by simp [MAX_RANK]; omega
  rcases count_zero_or_positive rank shape hshape with hc | ⟨hr0, hshape1⟩
  · exact ⟨dest, by simp only [strided_set_float, hr', hc, if_false, if_true], rfl,
      fun x _ => rfl⟩
  · obtain ⟨dest', e, l, fr, -⟩ :=
      copy_view_spec (extent shape) sstrides dstrides rank 1 src dest hshape1
        (fun c hc => by have := hsrc c hc; simp only [Nat.cast_one, mul_one]; omega)
        (fun c hc => by have := hdst c hc; simp only [Nat.cast_one, mul_one]; omega)
    refine ⟨dest', ?_, l, ?_⟩
    · rw [strided_set_float_eq_fold fuel rank shape bpe dest dstrides src sstrides hr0 hr
        hshape1 hfuel]
      exact e
    · intro x hx
      apply fr
      rintro c hc ⟨h0, h1⟩
      simp only [Nat.cast_one, mul_one] at h0 h1
      exact hx c hc (by omega)

/-- C11: the copies fail by assertion exactly on the rank limit.
`strided_set_float` and `strided_set_gen` abort by assertion if and only if
`rank > 16`; for every rank at most 16, every shape of non-negative extents and
every pair of in-bounds views they run to completion. -/
theorem copy_asserts_only_rank {α : Type} (fuel rank : Nat) (shape : List Int) (bpe : Nat)
    (dest : List α) (dstrides : List Nat) (src : List α) (sstrides : List Nat) :
    (strided_set_float fuel rank shape bpe dest dstrides src sstrides = .error .assertion ↔
      16 < rank) ∧
    (strided_set_gen fuel rank shape bpe dest dstrides src sstrides = .error .assertion ↔
      16 < rank) ∧
    (rank ≤ 16 → (∀ a, a < rank → 0 ≤ extent shape a) →
      extent_prod (extent shape) rank ≤ fuel →
      ((∀ c, InShape (extent shape) rank c →
          0 ≤ offset (stride sstrides) c rank ∧ offset (stride sstrides) c rank < src.length) →
        (∀ c, InShape (extent shape) rank c →
          0 ≤ offset (stride dstrides) c rank ∧ offset (stride dstrides) c rank < dest.length) →
        ∃ dest', strided_set_float fuel rank shape bpe dest dstrides src sstrides = .ok dest') ∧
      ((∀ c, InShape (extent shape) rank c →
          0 ≤ offset (stride sstrides) c rank ∧
          (offset (stride sstrides) c rank + 1) * bpe ≤ src.length) →
        (∀ c, InShape (extent shape) rank c →
          0 ≤ offset (stride dstrides) c rank ∧
          (offset (stride dstrides) c rank + 1) * bpe ≤ dest.length) →
        ∃ dest', strided_set_gen fuel rank shape bpe dest dstrides src sstrides = .ok dest')) := by
  refine ⟨?_, ?_, ?_⟩
  · constructor
    · intro h
      by_contra hr
      have hr' : ¬ rank > MAX_RANK := by simp [MAX_RANK]; omega
      simp only [strided_set_float, hr', if_false] at h
      split at h
      · simp at h
      · rw [strided_set_float_loop_eq_gen] at h
        exact strided_set_gen_loop_ne_assertion _ _ _ _ _ _ _ _ _ h
    · intro h
      have hr' : rank > MAX_RANK := by simp [MAX_RANK]; omega
      simp only [strided_set_float, hr', if_true]
  · constructor
    · intro h
      by_contra hr
      have hr' : ¬ rank > MAX_RANK := by simp [MAX_RANK]; omega
      simp only [strided_set_gen, hr', if_false] at h
      split at h
      · simp at h
      · exact strided_set_gen_loop_ne_assertion _ _ _ _ _ _ _ _ _ h
    · intro h
      have hr' : rank > MAX_RANK := by simp [MAX_RANK]; omega
      simp only [strided_set_gen, hr', if_true]
  · intro hr hshape hfuel
    constructor
    · intro hsrc hdst
      obtain ⟨d, e, -⟩ := strided_set_float_frame fuel rank shape bpe dest dstrides src sstrides
        hr hshape hsrc hdst hfuel
      exact ⟨d, e⟩
    · intro hsrc hdst
      obtain ⟨d, e, -⟩ := strided_set_gen_frame fuel rank shape bpe dest dstrides src sstrides
        hr hshape hsrc hdst hfuel
      exact ⟨d, e⟩

/-- A one-axis copy: the completion hypotheses of C11 hold. -/
theorem copy_asserts_only_rank_witness :
    (strided_set_float 3 1 [3] 1 [(0 : Int), 0, 0] [1] [10, 20, 30] [1] = .error .assertion ↔
      16 < 1) ∧
    (strided_set_gen 3 1 [3] 1 [(0 : Int), 0, 0] [1] [10, 20, 30] [1] = .error .assertion ↔
      16 < 1) ∧
    (∃ dest', strided_set_float 3 1 [3] 1 [(0 : Int), 0, 0] [1] [10, 20, 30] [1] = .ok dest') ∧
    (∃ dest', strided_set_gen 3 1 [3] 1 [(0 : Int), 0, 0] [1] [10, 20, 30] [1] = .ok dest') :=
  ⟨(copy_asserts_only_rank 3 1 [3] 1 [(0 : Int), 0, 0] [1] [10, 20, 30] [1]).1,
   (copy_asserts_only_rank 3 1 [3] 1 [(0 : Int), 0, 0] [1] [10, 20, 30] [1]).2.1,
   ((copy_asserts_only_rank 3 1 [3] 1 [(0 : Int), 0, 0] [1] [10, 20, 30] [1]).2.2
      (by decide) (by intro a ha; interval_cases a; decide) (by decide)).1
    (by
      intro c h
      have h0 := h 0 (by decide)
      simp [offset, stride, extent] at h0 ⊢
      omega)
    (by
      intro c h
      have h0 := h 0 (by decide)
      simp [offset, stride, extent] at h0 ⊢
      omega),
   ((copy_asserts_only_rank 3 1 [3] 1 [(0 : Int), 0, 0] [1] [10, 20, 30] [1]).2.2
      (by decide) (by intro a ha; interval_cases a; decide) (by decide)).2
    (by
      intro c h
      have h0 := h 0 (by decide)
      simp [offset, stride, extent] at h0 ⊢
      omega)
    (by
      intro c h
      have h0 := h 0 (by decide)
      simp [offset, stride, extent] at h0 ⊢
      omega)⟩

/-! ### The assertions of `flip_gen` -/

theorem flip_setup_ok_or_assertion (rank : Nat) (shape : List Int) (bpe : Nat)
    (dstrides : List Nat) (axes : List Bool) (n : Nat) :
    (∃ it, flip_setup rank shape bpe dstrides axes n = .ok it) ∨
      flip_setup rank shape bpe dstrides axes n = .error .assertion := by
  induction n with
  | zero => exact Or.inl ⟨_, rfl⟩
  | succ n ih =>
    unfold flip_setup
    rcases ih with ⟨it, e⟩ | e
    · simp only [e, bind, Except.bind]
      by_cases hp : dstrides.getD n 0 > 0
      · left
        by_cases hax : axes.getD n false = true
        · exact ⟨_, by simp only [hp, not_true, if_false, hax, if_true, pure, Except.pure]; rfl⟩
        · have hax' : axes.getD n false = false := by simpa using hax
          exact ⟨_, by simp only [hp, not_true, if_false, hax', pure, Except.pure]; rfl⟩
      · right
        simp only [hp, not_false_eq_true, if_true]
    · right
      simp only [e, bind, Except.bind]

theorem flip_setup_zero_stride (rank : Nat) (shape : List Int) (bpe : Nat)
    (dstrides : List Nat) (axes : List Bool) (n : Nat)
    (h : ∃ a, a < n ∧ dstrides.getD a 0 = 0) :
    flip_setup rank shape bpe dstrides axes n = .error .assertion := by
  induction n with
  | zero => obtain ⟨a, ha, -⟩ := h; omega
  | succ n ih =>
    obtain ⟨a, ha, h0⟩ := h
    unfold flip_setup
    rcases flip_setup_ok_or_assertion rank shape bpe dstrides axes n with ⟨it, e⟩ | e
    · by_cases ea : a = n
      · subst ea
        have hp : ¬ dstrides.getD a 0 > 0 := by omega
        simp only [e, bind, Except.bind, hp, not_false_eq_true, if_true]
      · have := ih ⟨a, by omega, h0⟩
        rw [e] at this
        simp at this
    · simp only [e, bind, Except.bind]

/-- C12 (counterexample): with rank 1 and the stride 0, `flip_gen` aborts by
assertion although the rank is within the limit. -/
theorem flip_gen_asserts_zero_stride :
    flip_gen 1 1 [2] 1 [(1 : Int), 2] [0] [true] = .error .assertion ∧ ¬ (16 < 1) :=
  ⟨rfl, by decide⟩

/-- C12 (amended): `flip_gen` performs two assertions, the rank limit and the
positivity of each stride.  It aborts by assertion if and only if `rank > 16`
or one of the strides `dstrides[a]`, `a < rank`, is zero; so for every rank at
most 16 and strictly positive strides it does not abort, whatever the axis mask
is. -/
theorem flip_gen_asserts_iff {α : Type} (fuel rank : Nat) (shape : List Int) (bpe : Nat)
    (buf : List α) (dstrides : List Nat) (axes : List Bool) :
    flip_gen fuel rank shape bpe buf dstrides axes = .error .assertion ↔
      (16 < rank ∨ ∃ a, a < rank ∧ dstrides.getD a 0 = 0) := by
  constructor
  · intro h
    by_contra hn
    have hr : rank ≤ 16 := by
      by_contra c; exact hn (Or.inl (by omega))
    have hpos : ∀ a, a < rank → 0 < dstrides.getD a 0 := by
      intro a ha
      by_contra c
      exact hn (Or.inr ⟨a, ha, by omega⟩)
    have hr' : ¬ rank > MAX_RANK := by simp [MAX_RANK]; omega
    obtain ⟨it, e, -⟩ := flip_setup_spec rank shape bpe dstrides axes rank hpos
    simp only [flip_gen, hr', if_false, e, bind, Except.bind] at h
    split at h
    · simp at h
    · split at h
      · simp at h
      · exact flip_gen_loop_ne_assertion _ _ _ _ _ _ h
  · rintro (h | h)
    · have hr' : rank > MAX_RANK := by simp [MAX_RANK]; omega
      simp only [flip_gen, hr', if_true]
    · by_cases hr' : rank > MAX_RANK
      · simp only [flip_gen, hr', if_true]
      · simp only [flip_gen, hr', if_false,
          flip_setup_zero_stride rank shape bpe dstrides axes rank h, bind, Except.bind]

/-- C13: the copies mutate only the addressed destination elements.  For every
rank at most 16, every shape of non-negative extents and stride arrays with
in-bounds views over two separate buffers, `strided_set_gen` (resp.
`strided_set_float`) returns a destination of the same length in which every
byte (resp. element) that is not at an offset `(Σ c_a * dstrides[a]) * bpe + i`,
`i < bpe` (resp. `Σ c_a * dstrides[a]`), of a multi-index `c` of the shape has
the value it had before the call.  The source is a separate buffer that the
functions only read: they return the destination alone. -/
theorem copy_frame {α : Type} (fuel rank : Nat) (shape : List Int) (bpe : Nat)
    (destb : List α) (dstrides : List Nat) (srcb : List α) (sstrides : List Nat)
    (dest src : List α)
    (hr : rank ≤ 16)
    (hshape : ∀ a, a < rank → 0 ≤ extent shape a)
    (hsrcb : ∀ c, InShape (extent shape) rank c →
      0 ≤ offset (stride sstrides) c rank ∧
      (offset (stride sstrides) c rank + 1) * bpe ≤ srcb.length)
    (hdstb : ∀ c, InShape (extent shape) rank c →
      0 ≤ offset (stride dstrides) c rank ∧
      (offset (stride dstrides) c rank + 1) * bpe ≤ destb.length)
    (hsrc : ∀ c, InShape (extent shape) rank c →
      0 ≤ offset (stride sstrides) c rank ∧ offset (stride sstrides) c rank < src.length)
    (hdst : ∀ c, InShape (extent shape) rank c →
      0 ≤ offset (stride dstrides) c rank ∧ offset (stride dstrides) c rank < dest.length)
    (hfuel : extent_prod (extent shape) rank ≤ fuel) :
    (∃ destb', strided_set_gen fuel rank shape bpe destb dstrides srcb sstrides = .ok destb' ∧
      destb'.length = destb.length ∧
      ∀ x : Int, (∀ c, InShape (extent shape) rank c → ∀ i : Nat, i < bpe →
        x ≠ offset (stride dstrides) c rank * bpe + i) → load destb' x = load destb x) ∧
    (∃ dest', strided_set_float fuel rank shape bpe dest dstrides src sstrides = .ok dest' ∧
      dest'.length = dest.length ∧
      ∀ x : Int, (∀ c, InShape (extent shape) rank c →
        x ≠ offset (stride dstrides) c rank) → load dest' x = load dest x) :=
  ⟨strided_set_gen_frame fuel rank shape bpe destb dstrides srcb sstrides hr hshape hsrcb hdstb
      hfuel,
   strided_set_float_frame fuel rank shape bpe dest dstrides src sstrides hr hshape hsrc hdst
      hfuel⟩

/-- A strided destination (every second element): the hypotheses of C13
hold. -/
theorem copy_frame_witness :
    (∃ destb', strided_set_gen 2 1 [2] 2 [(0 : Int), 1, 2, 3, 4, 5, 6, 7] [2]
        [10, 11, 12, 13] [1] = .ok destb' ∧
      destb'.length = [(0 : Int), 1, 2, 3, 4, 5, 6, 7].length ∧
      ∀ x : Int, (∀ c, InShape (extent [2]) 1 c → ∀ i : Nat, i < 2 →
        x ≠ offset (stride [2]) c 1 * (2 : Nat) + i) →
        load destb' x = load [(0 : Int), 1, 2, 3, 4, 5, 6, 7] x) ∧
    (∃ dest', strided_set_float 2 1 [2] 2 [(0 : Int), 1, 2, 3] [2] [10, 11] [1] = .ok dest' ∧
      dest'.length = [(0 : Int), 1, 2, 3].length ∧
      ∀ x : Int, (∀ c, InShape (extent [2]) 1 c →
        x ≠ offset (stride [2]) c 1) → load dest' x = load [(0 : Int), 1, 2, 3] x) :=
  copy_frame 2 1 [2] 2 [(0 : Int), 1, 2, 3, 4, 5, 6, 7] [2] [10, 11, 12, 13] [1]
    [(0 : Int), 1, 2, 3] [10, 11] (by decide)
    (by intro a ha; interval_cases a; decide)
    (by
      intro c h
      have h0 := h 0 (by decide)
      simp [offset, stride, extent] at h0 ⊢
      omega)
    (by
      intro c h
      have h0 := h 0 (by decide)
      simp [offset, stride, extent] at h0 ⊢
      omega)
    (by
      intro c h
      have h0 := h 0 (by decide)
      simp [offset, stride, extent] at h0 ⊢
      omega)
    (by
      intro c h
      have h0 := h 0 (by decide)
      simp [offset, stride, extent] at h0 ⊢
      omega)
    (by decide)

/-- The last writer of the copies on unbounded integers.  For every rank 1..16,
every shape with extents at least 1 and in-bounds views, the destination element
at the offset of a multi-index that is last in row-major order among those with
this destination offset is the source element of this multi-index. -/
theorem copy_last_writer_int {α : Type} (fuel rank : Nat) (shape : List Int) (bpe : Nat)
    (destb : List α) (dstrides : List Nat) (srcb : List α) (sstrides : List Nat)
    (dest src : List α)
    (hr0 : 1 ≤ rank) (hr : rank ≤ 16)
    (hshape : ∀ a, a < rank → 1 ≤ extent shape a)
    (hsrcb : ∀ c, InShape (extent shape) rank c →
      0 ≤ offset (stride sstrides) c rank ∧
      (offset (stride sstrides) c rank + 1) * bpe ≤ srcb.length)
    (hdstb : ∀ c, InShape (extent shape) rank c →
      0 ≤ offset (stride dstrides) c rank ∧
      (offset (stride dstrides) c rank + 1) * bpe ≤ destb.length)
    (hsrc : ∀ c, InShape (extent shape) rank c →
      0 ≤ offset (stride sstrides) c rank ∧ offset (stride sstrides) c rank < src.length)
    (hdst : ∀ c, InShape (extent shape) rank c →
      0 ≤ offset (stride dstrides) c rank ∧ offset (stride dstrides) c rank < dest.length)
    (hfuel : extent_prod (extent shape) rank ≤ fuel) :
    (∃ destb' dest',
      strided_set_gen fuel rank shape bpe destb dstrides srcb sstrides = .ok destb' ∧
      strided_set_float fuel rank shape bpe dest dstrides src sstrides = .ok dest' ∧
      ∀ c, InShape (extent shape) rank c →
        (∀ c', InShape (extent shape) rank c' →
          offset (stride dstrides) c' rank = offset (stride dstrides) c rank →
          ravel (extent shape) c' rank ≤ ravel (extent shape) c rank) →
        (∀ i : Nat, i < bpe →
          ∃ v, load srcb (offset (stride sstrides) c rank * bpe + i) = .ok v ∧
            load destb' (offset (stride dstrides) c rank * bpe + i) = .ok v) ∧
        ∃ v, load src (offset (stride sstrides) c rank) = .ok v ∧
          load dest' (offset (stride dstrides) c rank) = .ok v) ∧
    (∀ (b : Nat) (d0 : Int),
      strided_set_float 3 1 [3] b [d0] [0] [10, 20, 30] [1] = .ok [30] ∧
      strided_set_gen 3 1 [3] 1 [d0] [0] [10, 20, 30] [1] = .ok [30]) := by
  refine ⟨?_, fun b d0 => ⟨rfl, rfl⟩⟩
  obtain ⟨destb', eb, -, -, lwb⟩ :=
    copy_view_spec (extent shape) sstrides dstrides rank bpe srcb destb hshape hsrcb hdstb
  obtain ⟨dest', e, -, -, lw⟩ :=
    copy_view_spec (extent shape) sstrides dstrides rank 1 src dest hshape
      (fun c hc => by have := hsrc c hc; simp only [Nat.cast_one, mul_one]; omega)
      (fun c hc => by have := hdst c hc; simp only [Nat.cast_one, mul_one]; omega)
  refine ⟨destb', dest', ?_, ?_, ?_⟩
  · rw [strided_set_gen_eq_fold fuel rank shape bpe destb dstrides srcb sstrides hr0 hr hshape
      hfuel]
    exact eb
  · rw [strided_set_float_eq_fold fuel rank shape bpe dest dstrides src sstrides hr0 hr hshape
      hfuel]
    exact e
  · intro c hc hlast
    have hlast' : ∀ c', InShape (extent shape) rank c' →
        ravel (extent shape) c rank < ravel (extent shape) c' rank →
        offset (stride dstrides) c' rank ≠ offset (stride dstrides) c rank := by
      intro c' hc' hlt heq
      have := hlast c' hc' heq
      omega
    constructor
    · intro i hi
      obtain ⟨s0, s1⟩ := hsrcb c hc
      have e1 : (offset (stride sstrides) c rank + 1) * (bpe : Int) =
          offset (stride sstrides) c rank * bpe + bpe := by ring
      have hnn := Int.mul_nonneg s0 (by omega : (0 : Int) ≤ bpe)
      obtain ⟨v, hv⟩ := load_ok srcb (offset (stride sstrides) c rank * bpe + i) (by omega)
        (by omega)
      exact ⟨v, hv, by rw [← hv]; exact lwb c hc hlast' i hi⟩
    · obtain ⟨s0, s1⟩ := hsrc c hc
      obtain ⟨v, hv⟩ := load_ok src (offset (stride sstrides) c rank) s0 s1
      refine ⟨v, hv, ?_⟩
      rw [← hv]
      have := lw c hc hlast' 0 (by decide)
      simpa using this

/-! ### Termination and accesses of `flip_gen` -/

theorem extent_prod_nonneg (T : Nat → Int) (n : Nat) (h : ∀ a, a < n → 0 ≤ T a) :
    0 ≤ extent_prod T n := by
  induction n with
  | zero => simp [extent_prod]
  | succ n ih =>
    simp only [extent_prod]
    exact Int.mul_nonneg (ih (fun a ha => h a (by omega))) (h n (by omega))

/-- The empty runs of `flip_gen`: no selected axis, or a zero extent. -/
theorem flip_gen_empty {α : Type} (fuel rank : Nat) (shape : List Int) (bpe : Nat)
    (buf : List α) (dstrides : List Nat) (axes : List Bool) (hr : rank ≤ 16)
    (hpos : ∀ a, a < rank → 0 < dstrides.getD a 0)
    (h : count_upto rank shape rank = 0 ∨ ∀ a, a < rank → ¬ flipped axes a) :
    flip_gen fuel rank shape bpe buf dstrides axes = .ok buf ∧
    flip_gen_trace fuel rank shape bpe dstrides axes = .ok [] := by
  have hr' : ¬ rank > MAX_RANK := by simp [MAX_RANK]; omega
  obtain ⟨it, e, hcount, -, hsw, -⟩ := flip_setup_spec rank shape bpe dstrides axes rank hpos
  rcases h with hc | hm
  · rw [hc] at hcount
    constructor
    · simp only [flip_gen, hr', if_false, e, bind, Except.bind, hcount, if_true]
      split <;> rfl
    · simp only [flip_gen_trace, hr', if_false, e, bind, Except.bind, hcount, if_true]
      split <;> rfl
  · have h0 : it.swapped_dims = 0 := hsw.2 hm
    constructor
    · simp only [flip_gen, hr', if_false, e, bind, Except.bind, h0, if_true]
    · simp only [flip_gen_trace, hr', if_false, e, bind, Except.bind, h0, if_true]

theorem offset_nonneg (str c : Nat → Int) (n : Nat) (hc : ∀ a, a < n → 0 ≤ c a)
    (hs : ∀ a, a < n → 0 ≤ str a) : 0 ≤ offset str c n := by
  induction n with
  | zero => simp [offset]
  | succ n ih =>
    have h1 := ih (fun a ha => hc a (by omega)) (fun a ha => hs a (by omega))
    have h2 := Int.mul_nonneg (hc n (by omega)) (hs n (by omega))
    simp only [offset]
    omega

theorem extent_prod_le (T S : Nat → Int) (n : Nat)
    (h : ∀ a, a < n → 0 ≤ T a ∧ T a ≤ S a) : extent_prod T n ≤ extent_prod S n := by
  induction n with
  | zero => simp [extent_prod]
  | succ n ih =>
    have h1 := ih (fun a ha => h a (by omega))
    obtain ⟨t0, t1⟩ := h n (by omega)
    have h2 := extent_prod_nonneg T n (fun a ha => (h a (by omega)).1)
    simp only [extent_prod]
    calc extent_prod T n * T n ≤ extent_prod T n * S n := Int.mul_le_mul_of_nonneg_left t1 h2
      _ ≤ extent_prod S n * S n := Int.mul_le_mul_of_nonneg_right h1 (by omega)

/-- The accesses of the three kernels on unbounded integers.  For every rank
1..16 and every shape with extents at least 1, every offset pair that the copies
and `flip_gen` (strictly positive strides) visit is the pair of offsets of a
multi-index of the shape, resp. of a multi-index and its mirror image; the
functions are the element copy, resp. swap, repeated at these pairs, and they
return when the buffers contain the views. -/
theorem accesses_in_view_int {α : Type} (fuel rank : Nat) (shape : List Int) (bpe : Nat)
    (dest : List α) (dstrides : List Nat) (src : List α) (sstrides : List Nat)
    (destb srcb : List α) (buf : List α) (strides : List Nat) (axes : List Bool)
    (hr0 : 1 ≤ rank) (hr : rank ≤ 16)
    (hshape : ∀ a, a < rank → 1 ≤ extent shape a)
    (hpos : ∀ a, a < rank → 0 < strides.getD a 0)
    (hfuel : extent_prod (extent shape) rank ≤ fuel) :
    (∃ tr, strided_set_float_trace fuel rank shape dstrides sstrides = .ok tr ∧
      (∀ p ∈ tr, ∃ c, InShape (extent shape) rank c ∧
        p = (offset (stride sstrides) c rank, offset (stride dstrides) c rank)) ∧
      strided_set_float fuel rank shape bpe dest dstrides src sstrides =
        tr.foldlM (fun dest p => do let v ← load src p.1; store dest p.2 v) dest ∧
      ((∀ c, InShape (extent shape) rank c →
          0 ≤ offset (stride sstrides) c rank ∧ offset (stride sstrides) c rank < src.length) →
        (∀ c, InShape (extent shape) rank c →
          0 ≤ offset (stride dstrides) c rank ∧ offset (stride dstrides) c rank < dest.length) →
        ∃ dest', strided_set_float fuel rank shape bpe dest dstrides src sstrides = .ok dest')) ∧
    (∃ tr, strided_set_gen_trace fuel rank shape bpe dstrides sstrides = .ok tr ∧
      (∀ p ∈ tr, ∃ c, InShape (extent shape) rank c ∧
        p = (offset (stride sstrides) c rank * bpe, offset (stride dstrides) c rank * bpe)) ∧
      strided_set_gen fuel rank shape bpe destb dstrides srcb sstrides =
        tr.foldlM (fun dest p => copy_bytes srcb p.1 p.2 bpe dest) destb ∧
      ((∀ c, InShape (extent shape) rank c →
          0 ≤ offset (stride sstrides) c rank ∧
          (offset (stride sstrides) c rank + 1) * bpe ≤ srcb.length) →
        (∀ c, InShape (extent shape) rank c →
          0 ≤ offset (stride dstrides) c rank ∧
          (offset (stride dstrides) c rank + 1) * bpe ≤ destb.length) →
        ∃ dest', strided_set_gen fuel rank shape bpe destb dstrides srcb sstrides =
          .ok dest')) ∧
    (∃ tr, flip_gen_trace fuel rank shape bpe strides axes = .ok tr ∧
      (∀ p ∈ tr, ∃ c, InShape (extent shape) rank c ∧
        InShape (extent shape) rank (mirror shape axes c) ∧
        p = (offset (stride strides) c rank * bpe,
          offset (stride strides) (mirror shape axes c) rank * bpe)) ∧
      flip_gen fuel rank shape bpe buf strides axes =
        tr.foldlM (fun dest p => swap_bytes p.1 p.2 bpe dest) buf ∧
      ((∀ c, InShape (extent shape) rank c →
          0 ≤ offset (stride strides) c rank ∧
          (offset (stride strides) c rank + 1) * bpe ≤ buf.length) →
        ∃ buf', flip_gen fuel rank shape bpe buf strides axes = .ok buf')) := by
  have hTpos : ∀ a, a < rank → 0 < extent shape a := fun a ha => by
    have := hshape a ha; omega
  have hshape0 : ∀ a, a < rank → 0 ≤ extent shape a := fun a ha => by
    have := hshape a ha; omega
  have hpos' := extent_prod_pos (extent shape) rank hTpos
  have hc : count_upto rank shape rank ≠ 0 := by
    rw [count_upto_eq rank shape (by omega)]; omega
  have hr' : ¬ rank > MAX_RANK := by simp [MAX_RANK]; omega
  have hfuelT : extent_prod (flip_tshape shape axes) rank ≤ fuel := by
    refine le_trans (extent_prod_le _ _ rank (fun a ha => ?_)) hfuel
    have := flip_tshape_bounds shape axes a (hshape a ha)
    omega
  refine ⟨?_, ?_, ?_⟩
  · refine ⟨(List.range (extent_prod (extent shape) rank).toNat).map
      (fun k : Nat => pair_at (extent shape) (stride sstrides) (stride dstrides) rank 0 0 k),
      ?_, ?_, ?_, ?_⟩
    · simp only [strided_set_float_trace, hr', hc, if_false,
        copy_trace_init (extent shape) (stride sstrides) (stride dstrides) rank fuel hr0 hshape
          hfuel]
    · intro p hp
      obtain ⟨k, -, rfl⟩ := List.mem_map.1 hp
      exact ⟨_, unravel_inShape _ rank hTpos k, by simp [pair_at]⟩
    · simp only [strided_set_float, hr', hc, if_false]
      exact strided_set_float_loop_eq_fold rank shape dstrides src sstrides fuel _ dest _
        (copy_trace_init _ _ _ rank fuel hr0 hshape hfuel)
    · intro hsrc hdst
      obtain ⟨d, e, -⟩ := strided_set_float_frame fuel rank shape bpe dest dstrides src sstrides
        hr hshape0 hsrc hdst hfuel
      exact ⟨d, e⟩
  · refine ⟨(List.range (extent_prod (extent shape) rank).toNat).map
      (fun k : Nat => pair_at (extent shape) (byte_stride sstrides bpe)
        (byte_stride dstrides bpe) rank 0 0 k), ?_, ?_, ?_, ?_⟩
    · simp only [strided_set_gen_trace, hr', hc, if_false,
        copy_trace_init (extent shape) (byte_stride sstrides bpe) (byte_stride dstrides bpe)
          rank fuel hr0 hshape hfuel]
    · intro p hp
      obtain ⟨k, -, rfl⟩ := List.mem_map.1 hp
      exact ⟨_, unravel_inShape _ rank hTpos k, pair_at_byte _ _ _ _ _ _⟩
    · exact strided_set_gen_eq_fold fuel rank shape bpe destb dstrides srcb sstrides hr0 hr
        hshape hfuel
    · intro hsrc hdst
      obtain ⟨d, e, -⟩ := strided_set_gen_frame fuel rank shape bpe destb dstrides srcb
        sstrides hr hshape0 hsrc hdst hfuel
      exact ⟨d, e⟩
  · by_cases hm : ∃ a, a < rank ∧ flipped axes a
    · obtain ⟨M, -, -, htr, hrun, -, -⟩ :=
        flip_gen_eq_fold fuel rank shape bpe buf strides axes hr0 hr hshape hpos hm hfuelT
      refine ⟨_, htr, ?_, hrun, ?_⟩
      · intro p hp
        obtain ⟨j, -, rfl⟩ := List.mem_map.1 hp
        obtain ⟨-, h2, h3⟩ := flip_index_inShape shape axes rank hshape (j : Int)
        exact ⟨_, h2, h3, rfl⟩
      · intro hbuf
        obtain ⟨M', buf', -, -, -, e, -⟩ :=
          flip_gen_ok fuel rank shape bpe buf strides axes hr0 hr hshape hpos hm hbuf hfuelT
        exact ⟨buf', e⟩
    · obtain ⟨e1, e2⟩ := flip_gen_empty fuel rank shape bpe buf strides axes hr hpos
        (Or.inr (fun a ha hf => hm ⟨a, ha, hf⟩))
      exact ⟨[], e2, fun p hp => by simp at hp, by rw [e1]; rfl, fun _ => ⟨buf, e1⟩⟩

/-! ### Buffers of `w`-byte elements -/

theorem to_long_range (x : Int) :
    -9223372036854775808 ≤ to_long x ∧ to_long x < 9223372036854775808 := by
  unfold to_long; omega

theorem to_long_of_range (x : Int) (h0 : -9223372036854775808 ≤ x)
    (h1 : x < 9223372036854775808) : to_long x = x := by
  unfold to_long; omega

theorem to_long_modEq (x : Int) : Int.ModEq 18446744073709551616 (to_long x) x := by
  unfold Int.ModEq to_long; omega

theorem to_long_congr (a b : Int) (h : Int.ModEq 18446744073709551616 a b) :
    to_long a = to_long b := by
  unfold Int.ModEq at h; unfold to_long; omega

theorem byte_stride_w_modEq (strides : List Nat) (bpe : Nat) (dim : Nat) :
    Int.ModEq 18446744073709551616 (byte_stride_w strides bpe dim)
      (byte_stride strides bpe dim) := by
  unfold Int.ModEq byte_stride_w byte_stride
  push_cast
  omega

/-- The carry loop on machine words follows the carry loop on unbounded
integers: from corresponding cursors inside a box of `long` extents, with steps
that agree modulo `2^64`, both return or both move on to corresponding
cursors. -/
theorem carry_w_sim (T σ δ σw δw : Nat → Int) (n : Nat) (cur : Cursor)
    (hT : ∀ a, a < n → T a < 9223372036854775808)
    (hσ : ∀ a, a < n → Int.ModEq 18446744073709551616 (σw a) (σ a))
    (hδ : ∀ a, a < n → Int.ModEq 18446744073709551616 (δw a) (δ a))
    (hc : InShape T n cur.coordinate) :
    carry_w T σw δw n (wrap_cursor cur) = (carry T σ δ n cur).map wrap_cursor := by
  induction n generalizing cur with
  | zero => rfl
  | succ n ih =>
    obtain ⟨c0, c1⟩ := hc n (by omega)
    have hTn := hT n (by omega)
    have hco : to_long (cur.coordinate n + 1) = cur.coordinate n + 1 :=
      to_long_of_range _ (by omega) (by omega)
    have hs1 : to_long (to_long cur.spos + σw n) = to_long (cur.spos + σ n) :=
      to_long_congr _ _ ((to_long_modEq _).add (hσ n (by omega)))
    have hd1 : to_long (to_long cur.dpos + δw n) = to_long (cur.dpos + δ n) :=
      to_long_congr _ _ ((to_long_modEq _).add (hδ n (by omega)))
    have hs2 : to_long (to_long (cur.spos + σ n) - T n * σw n) =
        to_long (cur.spos + σ n - T n * σ n) :=
      to_long_congr _ _ ((to_long_modEq _).sub ((hσ n (by omega)).mul_left (T n)))
    have hd2 : to_long (to_long (cur.dpos + δ n) - T n * δw n) =
        to_long (cur.dpos + δ n - T n * δ n) :=
      to_long_congr _ _ ((to_long_modEq _).sub ((hδ n (by omega)).mul_left (T n)))
    unfold carry_w carry
    simp only [wrap_cursor, hco, hs1, hd1, hs2, hd2]
    by_cases e : cur.coordinate n + 1 = T n
    · rw [if_pos e, if_pos e]
      by_cases h0 : n = 0
      · rw [if_pos h0, if_pos h0]; rfl
      · rw [if_neg h0, if_neg h0]
        exact ih
          { coordinate := Function.update cur.coordinate n 0
            spos := cur.spos + σ n - T n * σ n
            dpos := cur.dpos + δ n - T n * δ n }
          (fun a ha => hT a (by omega)) (fun a ha => hσ a (by omega))
          (fun a ha => hδ a (by omega))
          ((hc.update n 0 ⟨by omega, by omega⟩).mono (by omega))
    · rw [if_neg e, if_neg e]; rfl

theorem wrap_cursor_of_range (cur : Cursor)
    (hs0 : -9223372036854775808 ≤ cur.spos) (hs1 : cur.spos < 9223372036854775808)
    (hd0 : -9223372036854775808 ≤ cur.dpos) (hd1 : cur.dpos < 9223372036854775808) :
    wrap_cursor cur = cur := by
  cases cur
  simp only [wrap_cursor, to_long_of_range _ hs0 hs1, to_long_of_range _ hd0 hd1]

/-- Inside a box all of whose offsets are `long` values, the carry loop on
machine words is the carry loop on unbounded integers. -/
theorem carry_w_eq (T σ δ σw δw : Nat → Int) (n : Nat) (S0 D0 : Int) (cur : Cursor)
    (hT : ∀ a, a < n + 1 → T a < 9223372036854775808)
    (hσ : ∀ a, a < n + 1 → Int.ModEq 18446744073709551616 (σw a) (σ a))
    (hδ : ∀ a, a < n + 1 → Int.ModEq 18446744073709551616 (δw a) (δ a))
    (hrng : ∀ c, InShape T (n + 1) c →
      (-9223372036854775808 ≤ S0 + offset σ c (n + 1) ∧
        S0 + offset σ c (n + 1) < 9223372036854775808) ∧
      (-9223372036854775808 ≤ D0 + offset δ c (n + 1) ∧
        D0 + offset δ c (n + 1) < 9223372036854775808))
    (h : InShape T (n + 1) cur.coordinate)
    (hs : cur.spos = S0 + offset σ cur.coordinate (n + 1))
    (hd : cur.dpos = D0 + offset δ cur.coordinate (n + 1)) :
    carry_w T σw δw (n + 1) cur = carry T σ δ (n + 1) cur := by
  have hr := hrng cur.coordinate h
  have hw : wrap_cursor cur = cur :=
    wrap_cursor_of_range cur (by omega) (by omega) (by omega) (by omega)
  have hsim := carry_w_sim T σ δ σw δw (n + 1) cur hT hσ hδ h
  rw [hw] at hsim
  rw [hsim]
  have hc := carry_spec T σ δ n cur h
  revert hc
  cases carry T σ δ (n + 1) cur with
  | none => intro _; rfl
  | some cur' =>
    rintro ⟨hin, -, -, hs', hd'⟩
    have hr' := hrng cur'.coordinate hin
    simp only [Option.map_some']
    rw [wrap_cursor_of_range cur' (by omega) (by omega) (by omega) (by omega)]

/-- The carry loop of `flip_gen` on machine words is the carry loop of the
copies on machine words, followed by the crossing guard. -/
theorem flip_carry_w_eq_carry_w (T σ δ : Nat → Int) (n : Nat) (cur : Cursor) :
    flip_carry_w T σ δ (n + 1) cur =
      (carry_w T σ δ (n + 1) cur).bind
        (fun cur' => if cur'.dpos < cur'.spos then none else some cur') := by
  induction n generalizing cur with
  | zero =>
    unfold flip_carry_w carry_w
    by_cases e : to_long (cur.coordinate 0 + 1) = T 0
    · simp [e]
    · simp only [e, if_false, Option.some_bind]
  | succ n ih =>
    unfold flip_carry_w carry_w
    by_cases e : to_long (cur.coordinate (n + 1) + 1) = T (n + 1)
    · simp only [e, if_true, Nat.succ_ne_zero, if_false]
      exact ih _
    · simp only [e, if_false, Option.some_bind]

theorem flip_carry_w_eq (T σ δ σw δw : Nat → Int) (n : Nat) (S0 D0 : Int) (cur : Cursor)
    (hT : ∀ a, a < n + 1 → T a < 9223372036854775808)
    (hσ : ∀ a, a < n + 1 → Int.ModEq 18446744073709551616 (σw a) (σ a))
    (hδ : ∀ a, a < n + 1 → Int.ModEq 18446744073709551616 (δw a) (δ a))
    (hrng : ∀ c, InShape T (n + 1) c →
      (-9223372036854775808 ≤ S0 + offset σ c (n + 1) ∧
        S0 + offset σ c (n + 1) < 9223372036854775808) ∧
      (-9223372036854775808 ≤ D0 + offset δ c (n + 1) ∧
        D0 + offset δ c (n + 1) < 9223372036854775808))
    (h : InShape T (n + 1) cur.coordinate)
    (hs : cur.spos = S0 + offset σ cur.coordinate (n + 1))
    (hd : cur.dpos = D0 + offset δ cur.coordinate (n + 1)) :
    flip_carry_w T σw δw (n + 1) cur = flip_carry T σ δ (n + 1) cur := by
  rw [flip_carry_w_eq_carry_w, flip_carry_eq,
    carry_w_eq T σ δ σw δw n S0 D0 cur hT hσ hδ hrng h hs hd]

theorem copy_bytes_w_eq {α : Type} (src : List α) (s d : Int) (w : Nat) (dest : List α)
    (hs0 : -9223372036854775808 ≤ s) (hs1 : s + w ≤ 9223372036854775808)
    (hd0 : -9223372036854775808 ≤ d) (hd1 : d + w ≤ 9223372036854775808) :
    copy_bytes_w src s d w dest = copy_bytes src s d w dest := by
  induction w with
  | zero => rfl
  | succ i ih =>
    unfold copy_bytes_w copy_bytes
    push_cast at hs1 hd1
    rw [ih (by omega) (by omega), to_long_of_range (s + i) (by omega) (by omega),
      to_long_of_range (d + i) (by omega) (by omega)]

theorem swap_bytes_w_eq {α : Type} (s d : Int) (w : Nat) (dest : List α)
    (hs0 : -9223372036854775808 ≤ s) (hs1 : s + w ≤ 9223372036854775808)
    (hd0 : -9223372036854775808 ≤ d) (hd1 : d + w ≤ 9223372036854775808) :
    swap_bytes_w s d w dest = swap_bytes s d w dest := by
  induction w with
  | zero => rfl
  | succ i ih =>
    unfold swap_bytes_w swap_bytes
    push_cast at hs1 hd1
    rw [ih (by omega) (by omega), to_long_of_range (s + i) (by omega) (by omega),
      to_long_of_range (d + i) (by omega) (by omega)]

/-- Inside a box all of whose offsets are `long` values, the copies on machine
words visit the same sequence of offsets as the copies on unbounded integers. -/
theorem copy_trace_w_eq (T σ δ σw δw : Nat → Int) (n : Nat) (S0 D0 : Int) (fuel : Nat)
    (cur : Cursor)
    (hT : ∀ a, a < n + 1 → T a < 9223372036854775808)
    (hσ : ∀ a, a < n + 1 → Int.ModEq 18446744073709551616 (σw a) (σ a))
    (hδ : ∀ a, a < n + 1 → Int.ModEq 18446744073709551616 (δw a) (δ a))
    (hrng : ∀ c, InShape T (n + 1) c →
      (-9223372036854775808 ≤ S0 + offset σ c (n + 1) ∧
        S0 + offset σ c (n + 1) < 9223372036854775808) ∧
      (-9223372036854775808 ≤ D0 + offset δ c (n + 1) ∧
        D0 + offset δ c (n + 1) < 9223372036854775808))
    (h : InShape T (n + 1) cur.coordinate)
    (hs : cur.spos = S0 + offset σ cur.coordinate (n + 1))
    (hd : cur.dpos = D0 + offset δ cur.coordinate (n + 1)) :
    copy_trace_w T σw δw (n + 1) fuel cur = copy_trace T σ δ (n + 1) fuel cur := by
  induction fuel generalizing cur with
  | zero => rfl
  | succ fuel ih =>
    unfold copy_trace_w copy_trace
    rw [carry_w_eq T σ δ σw δw n S0 D0 cur hT hσ hδ hrng h hs hd]
    have hc := carry_spec T σ δ n cur h
    revert hc
    cases carry T σ δ (n + 1) cur with
    | none => intro _; rfl
    | some cur' =>
      rintro ⟨hin, -, -, hs', hd'⟩
      simp only [ih cur' hin (by omega) (by omega)]

/-- Inside a box all of whose offsets are `long` values, `flip_gen` on machine
words visits the same sequence of offsets as `flip_gen` on unbounded
integers. -/
theorem flip_trace_w_eq (T σ δ σw δw : Nat → Int) (n : Nat) (S0 D0 : Int) (fuel : Nat)
    (cur : Cursor)
    (hT : ∀ a, a < n + 1 → T a < 9223372036854775808)
    (hσ : ∀ a, a < n + 1 → Int.ModEq 18446744073709551616 (σw a) (σ a))
    (hδ : ∀ a, a < n + 1 → Int.ModEq 18446744073709551616 (δw a) (δ a))
    (hrng : ∀ c, InShape T (n + 1) c →
      (-9223372036854775808 ≤ S0 + offset σ c (n + 1) ∧
        S0 + offset σ c (n + 1) < 9223372036854775808) ∧
      (-9223372036854775808 ≤ D0 + offset δ c (n + 1) ∧
        D0 + offset δ c (n + 1) < 9223372036854775808))
    (h : InShape T (n + 1) cur.coordinate)
    (hs : cur.spos = S0 + offset σ cur.coordinate (n + 1))
    (hd : cur.dpos = D0 + offset δ cur.coordinate (n + 1)) :
    flip_trace_w T σw δw (n + 1) fuel cur = flip_trace T σ δ (n + 1) fuel cur := by
  induction fuel generalizing cur with
  | zero => rfl
  | succ fuel ih =>
    unfold flip_trace_w flip_trace
    rw [flip_carry_w_eq T σ δ σw δw n S0 D0 cur hT hσ hδ hrng h hs hd, flip_carry_eq]
    have hc := carry_spec T σ δ n cur h
    revert hc
    cases carry T σ δ (n + 1) cur with
    | none => intro _; rfl
    | some cur' =>
      rintro ⟨hin, -, -, hs', hd'⟩
      simp only [Option.some_bind]
      by_cases hg : cur'.dpos < cur'.spos
      · simp only [hg, if_true]
      · simp only [hg, if_false, ih cur' hin (by omega) (by omega)]

theorem strided_set_float_loop_w_eq {α : Type} (n : Nat) (shape : List Int)
    (dstrides : List Nat) (src : List α) (sstrides : List Nat) (S0 D0 : Int) (fuel : Nat)
    (cur : Cursor) (dest : List α)
    (hT : ∀ a, a < n + 1 → extent shape a < 9223372036854775808)
    (hrng : ∀ c, InShape (extent shape) (n + 1) c →
      (-9223372036854775808 ≤ S0 + offset (stride sstrides) c (n + 1) ∧
        S0 + offset (stride sstrides) c (n + 1) < 9223372036854775808) ∧
      (-9223372036854775808 ≤ D0 + offset (stride dstrides) c (n + 1) ∧
        D0 + offset (stride dstrides) c (n + 1) < 9223372036854775808))
    (h : InShape (extent shape) (n + 1) cur.coordinate)
    (hs : cur.spos = S0 + offset (stride sstrides) cur.coordinate (n + 1))
    (hd : cur.dpos = D0 + offset (stride dstrides) cur.coordinate (n + 1)) :
    strided_set_float_loop_w (n + 1) shape dstrides src sstrides fuel cur dest =
      strided_set_float_loop (n + 1) shape dstrides src sstrides fuel cur dest := by
  induction fuel generalizing cur dest with
  | zero => rfl
  | succ fuel ih =>
    unfold strided_set_float_loop_w strided_set_float_loop
    rw [carry_w_eq (extent shape) (stride sstrides) (stride dstrides) (stride sstrides)
      (stride dstrides) n S0 D0 cur hT (fun _ _ => Int.ModEq.refl _)
      (fun _ _ => Int.ModEq.refl _) hrng h hs hd]
    have hc := carry_spec (extent shape) (stride sstrides) (stride dstrides) n cur h
    revert hc
    cases carry (extent shape) (stride sstrides) (stride dstrides) (n + 1) cur with
    | none => intro _; rfl
    | some cur' =>
      rintro ⟨hin, -, -, hs', hd'⟩
      simp only [ih cur' _ hin (by omega) (by omega)]

theorem strided_set_gen_loop_w_eq {α : Type} (n : Nat) (shape : List Int) (bpe : Nat)
    (dstrides : List Nat) (src : List α) (sstrides : List Nat) (S0 D0 : Int) (fuel : Nat)
    (cur : Cursor) (dest : List α)
    (hT : ∀ a, a < n + 1 → extent shape a < 9223372036854775808)
    (hrng : ∀ c, InShape (extent shape) (n + 1) c →
      (-9223372036854775808 ≤ S0 + offset (byte_stride sstrides bpe) c (n + 1) ∧
        S0 + offset (byte_stride sstrides bpe) c (n + 1) < 9223372036854775808 ∧
        S0 + offset (byte_stride sstrides bpe) c (n + 1) + bpe ≤ 9223372036854775808) ∧
      (-9223372036854775808 ≤ D0 + offset (byte_stride dstrides bpe) c (n + 1) ∧
        D0 + offset (byte_stride dstrides bpe) c (n + 1) < 9223372036854775808 ∧
        D0 + offset (byte_stride dstrides bpe) c (n + 1) + bpe ≤ 9223372036854775808))
    (h : InShape (extent shape) (n + 1) cur.coordinate)
    (hs : cur.spos = S0 + offset (byte_stride sstrides bpe) cur.coordinate (n + 1))
    (hd : cur.dpos = D0 + offset (byte_stride dstrides bpe) cur.coordinate (n + 1)) :
    strided_set_gen_loop_w (n + 1) shape bpe dstrides src sstrides fuel cur dest =
      strided_set_gen_loop (n + 1) shape bpe dstrides src sstrides fuel cur dest := by
  have hrng' : ∀ c, InShape (extent shape) (n + 1) c →
      (-9223372036854775808 ≤ S0 + offset (byte_stride sstrides bpe) c (n + 1) ∧
        S0 + offset (byte_stride sstrides bpe) c (n + 1) < 9223372036854775808) ∧
      (-9223372036854775808 ≤ D0 + offset (byte_stride dstrides bpe) c (n + 1) ∧
        D0 + offset (byte_stride dstrides bpe) c (n + 1) < 9223372036854775808) :=
    fun c hc => ⟨⟨(hrng c hc).1.1, (hrng c hc).1.2.1⟩, ⟨(hrng c hc).2.1, (hrng c hc).2.2.1⟩⟩
  induction fuel generalizing cur dest with
  | zero => rfl
  | succ fuel ih =>
    have hr := hrng cur.coordinate h
    unfold strided_set_gen_loop_w strided_set_gen_loop
    rw [carry_w_eq (extent shape) (byte_stride sstrides bpe) (byte_stride dstrides bpe)
      (byte_stride_w sstrides bpe) (byte_stride_w dstrides bpe) n S0 D0 cur hT
      (fun a _ => byte_stride_w_modEq sstrides bpe a)
      (fun a _ => byte_stride_w_modEq dstrides bpe a) hrng' h hs hd,
      copy_bytes_w_eq src cur.spos cur.dpos bpe dest (by omega) (by omega) (by omega) (by omega)]
    have hc := carry_spec (extent shape) (byte_stride sstrides bpe) (byte_stride dstrides bpe)
      n cur h
    revert hc
    cases carry (extent shape) (byte_stride sstrides bpe) (byte_stride dstrides bpe) (n + 1)
        cur with
    | none => intro _; rfl
    | some cur' =>
      rintro ⟨hin, -, -, hs', hd'⟩
      simp only [ih cur' _ hin (by omega) (by omega)]

theorem flip_gen_loop_w_eq {α : Type} (n : Nat) (bpe : Nat) (it itw : FlipIt) (S0 D0 : Int)
    (fuel : Nat) (cur : Cursor) (dest : List α)
    (htw : itw.tshape = it.tshape)
    (hT : ∀ a, a < n + 1 → it.tshape a < 9223372036854775808)
    (hσ : ∀ a, a < n + 1 → Int.ModEq 18446744073709551616 (itw.sstride a) (it.sstride a))
    (hδ : ∀ a, a < n + 1 → Int.ModEq 18446744073709551616 (itw.dstride a) (it.dstride a))
    (hrng : ∀ c, InShape it.tshape (n + 1) c →
      (-9223372036854775808 ≤ S0 + offset it.sstride c (n + 1) ∧
        S0 + offset it.sstride c (n + 1) < 9223372036854775808 ∧
        S0 + offset it.sstride c (n + 1) + bpe ≤ 9223372036854775808) ∧
      (-9223372036854775808 ≤ D0 + offset it.dstride c (n + 1) ∧
        D0 + offset it.dstride c (n + 1) < 9223372036854775808 ∧
        D0 + offset it.dstride c (n + 1) + bpe ≤ 9223372036854775808))
    (h : InShape it.tshape (n + 1) cur.coordinate)
    (hs : cur.spos = S0 + offset it.sstride cur.coordinate (n + 1))
    (hd : cur.dpos = D0 + offset it.dstride cur.coordinate (n + 1)) :
    flip_gen_loop_w (n + 1) bpe itw fuel cur dest =
      flip_gen_loop (n + 1) bpe it fuel cur dest := by
  have hrng' : ∀ c, InShape it.tshape (n + 1) c →
      (-9223372036854775808 ≤ S0 + offset it.sstride c (n + 1) ∧
        S0 + offset it.sstride c (n + 1) < 9223372036854775808) ∧
      (-9223372036854775808 ≤ D0 + offset it.dstride c (n + 1) ∧
        D0 + offset it.dstride c (n + 1) < 9223372036854775808) :=
    fun c hc => ⟨⟨(hrng c hc).1.1, (hrng c hc).1.2.1⟩, ⟨(hrng c hc).2.1, (hrng c hc).2.2.1⟩⟩
  induction fuel generalizing cur dest with
  | zero => rfl
  | succ fuel ih =>
    have hr := hrng cur.coordinate h
    unfold flip_gen_loop_w flip_gen_loop
    rw [htw, flip_carry_w_eq it.tshape it.sstride it.dstride itw.sstride itw.dstride n S0 D0 cur
      hT hσ hδ hrng' h hs hd, flip_carry_eq,
      swap_bytes_w_eq cur.spos cur.dpos bpe dest (by omega) (by omega) (by omega) (by omega)]
    have hc := carry_spec it.tshape it.sstride it.dstride n cur h
    revert hc
    cases carry it.tshape it.sstride it.dstride (n + 1) cur with
    | none => intro _; rfl
    | some cur' =>
      rintro ⟨hin, -, -, hs', hd'⟩
      simp only [Option.some_bind]
      by_cases hg : cur'.dpos < cur'.spos
      · simp only [hg, if_true]
      · simp only [hg, if_false, ih cur' _ hin (by omega) (by omega)]

theorem extent_prod_mono (T : Nat → Int) (n : Nat) (hT : ∀ a, a < n → 1 ≤ T a) (k : Nat)
    (hk : k ≤ n) : 1 ≤ extent_prod T k ∧ extent_prod T k ≤ extent_prod T n := by
  induction n with
  | zero =>
    have : k = 0 := by omega
    subst this
    simp [extent_prod]
  | succ n ih =>
    have h1 := extent_prod_pos T n (fun a ha => by have := hT a (by omega); omega)
    have h2 : extent_prod T n ≤ extent_prod T (n + 1) := by
      simp only [extent_prod]
      exact le_mul_of_one_le_right (by omega) (hT n (by omega))
    by_cases e : k = n + 1
    · subst e
      exact ⟨by omega, le_refl _⟩
    · have := ih (fun a ha => hT a (by omega)) (by omega)
      exact ⟨this.1, by omega⟩

theorem extent_le_prod (T : Nat → Int) (n : Nat) (hT : ∀ a, a < n → 1 ≤ T a) (a : Nat)
    (ha : a < n) : T a ≤ extent_prod T n := by
  have h1 := (extent_prod_mono T n hT a (by omega)).1
  have h2 := (extent_prod_mono T n hT (a + 1) (by omega)).2
  have h3 : T a ≤ extent_prod T (a + 1) := by
    simp only [extent_prod]
    exact le_mul_of_one_le_left (by have := hT a ha; omega) h1
  omega

/-- The counter `count` does not wrap when the product of the extents is a
`long` value. -/
theorem count_w_eq (rank : Nat) (shape : List Int) (h0 : 0 < rank) (n : Nat)
    (hT : ∀ a, a < n → 1 ≤ extent shape a)
    (hcount : extent_prod (extent shape) n < 9223372036854775808) :
    count_w rank shape n = count_upto rank shape n := by
  induction n with
  | zero => rfl
  | succ n ih =>
    have hm := extent_prod_mono (extent shape) (n + 1) hT n (by omega)
    have hp := (extent_prod_mono (extent shape) (n + 1) hT (n + 1) (le_refl _)).1
    unfold count_w count_upto
    rw [ih (fun a ha => hT a (by omega)) (by omega), count_upto_eq rank shape h0]
    simp only [extent_prod] at hp hcount
    exact to_long_of_range _ (by omega) hcount

theorem stride_nonneg (strides : List Nat) (a : Nat) : 0 ≤ stride strides a := by
  unfold stride; omega

theorem byte_stride_nonneg (strides : List Nat) (bpe : Nat) (a : Nat) :
    0 ≤ byte_stride strides bpe a := by
  unfold byte_stride; omega

/-- On a shape whose number of elements is a `long` value and on views whose
offsets are `long` values, `strided_set_float` on machine words is
`strided_set_float` on unbounded integers. -/
theorem strided_set_float_w_eq {α : Type} (fuel rank : Nat) (shape : List Int) (bpe : Nat)
    (dest : List α) (dstrides : List Nat) (src : List α) (sstrides : List Nat)
    (hr0 : 1 ≤ rank)
    (hshape : ∀ a, a < rank → 1 ≤ extent shape a)
    (hcount : extent_prod (extent shape) rank < 9223372036854775808)
    (hsrc : ∀ c, InShape (extent shape) rank c →
      offset (stride sstrides) c rank < 9223372036854775808)
    (hdst : ∀ c, InShape (extent shape) rank c →
      offset (stride dstrides) c rank < 9223372036854775808) :
    strided_set_float_w fuel rank shape bpe dest dstrides src sstrides =
      strided_set_float fuel rank shape bpe dest dstrides src sstrides ∧
    strided_set_float_trace_w fuel rank shape dstrides sstrides =
      strided_set_float_trace fuel rank shape dstrides sstrides := by
  have hcw := count_w_eq rank shape (by omega) rank hshape hcount
  have hT : ∀ a, a < rank → extent shape a < 9223372036854775808 := fun a ha => by
    have := extent_le_prod (extent shape) rank hshape a ha; omega
  obtain ⟨n, rfl⟩ : ∃ n, rank = n + 1 := ⟨rank - 1, by omega⟩
  have hrng : ∀ c, InShape (extent shape) (n + 1) c →
      (-9223372036854775808 ≤ 0 + offset (stride sstrides) c (n + 1) ∧
        0 + offset (stride sstrides) c (n + 1) < 9223372036854775808) ∧
      (-9223372036854775808 ≤ 0 + offset (stride dstrides) c (n + 1) ∧
        0 + offset (stride dstrides) c (n + 1) < 9223372036854775808) := by
    intro c hc
    have a1 := offset_nonneg (stride sstrides) c (n + 1) (fun a ha => (hc a ha).1)
      (fun a _ => stride_nonneg sstrides a)
    have a2 := offset_nonneg (stride dstrides) c (n + 1) (fun a ha => (hc a ha).1)
      (fun a _ => stride_nonneg dstrides a)
    have a3 := hsrc c hc
    have a4 := hdst c hc
    omega
  constructor
  · simp only [strided_set_float_w, strided_set_float, hcw]
    rw [strided_set_float_loop_w_eq n shape dstrides src sstrides 0 0 fuel _ dest hT hrng
      (inShape_zero _ (n + 1) hshape) (by simp [offset_zero]) (by simp [offset_zero])]
  · simp only [strided_set_float_trace_w, strided_set_float_trace, hcw]
    rw [copy_trace_w_eq (extent shape) (stride sstrides) (stride dstrides) (stride sstrides)
      (stride dstrides) n 0 0 fuel _ hT (fun _ _ => Int.ModEq.refl _)
      (fun _ _ => Int.ModEq.refl _) hrng
      (inShape_zero _ (n + 1) hshape) (by simp [offset_zero]) (by simp [offset_zero])]

/-- On a shape whose number of elements is a `long` value and on views whose
byte offsets are `long` values, `strided_set_gen` on machine words is
`strided_set_gen` on unbounded integers. -/
theorem strided_set_gen_w_eq {α : Type} (fuel rank : Nat) (shape : List Int) (bpe : Nat)
    (dest : List α) (dstrides : List Nat) (src : List α) (sstrides : List Nat)
    (hr0 : 1 ≤ rank)
    (hshape : ∀ a, a < rank → 1 ≤ extent shape a)
    (hcount : extent_prod (extent shape) rank < 9223372036854775808)
    (hsrc : ∀ c, InShape (extent shape) rank c →
      (offset (stride sstrides) c rank + 1) * bpe ≤ 9223372036854775808)
    (hdst : ∀ c, InShape (extent shape) rank c →
      (offset (stride dstrides) c rank + 1) * bpe ≤ 9223372036854775808) :
    strided_set_gen_w fuel rank shape bpe dest dstrides src sstrides =
      strided_set_gen fuel rank shape bpe dest dstrides src sstrides ∧
    strided_set_gen_trace_w fuel rank shape bpe dstrides sstrides =
      strided_set_gen_trace fuel rank shape bpe dstrides sstrides := by
  have hcw := count_w_eq rank shape (by omega) rank hshape hcount
  have hT : ∀ a, a < rank → extent shape a < 9223372036854775808 := fun a ha => by
    have := extent_le_prod (extent shape) rank hshape a ha; omega
  obtain ⟨n, rfl⟩ : ∃ n, rank = n + 1 := ⟨rank - 1, by omega⟩
  have hrng : ∀ c, InShape (extent shape) (n + 1) c →
      (-9223372036854775808 ≤ 0 + offset (byte_stride sstrides bpe) c (n + 1) ∧
        0 + offset (byte_stride sstrides bpe) c (n + 1) < 9223372036854775808 ∧
        0 + offset (byte_stride sstrides bpe) c (n + 1) + bpe ≤ 9223372036854775808) ∧
      (-9223372036854775808 ≤ 0 + offset (byte_stride dstrides bpe) c (n + 1) ∧
        0 + offset (byte_stride dstrides bpe) c (n + 1) < 9223372036854775808 ∧
        0 + offset (byte_stride dstrides bpe) c (n + 1) + bpe ≤ 9223372036854775808) := by
    intro c hc
    have a1 := offset_nonneg (byte_stride sstrides bpe) c (n + 1) (fun a ha => (hc a ha).1)
      (fun a _ => byte_stride_nonneg sstrides bpe a)
    have a2 := offset_nonneg (byte_stride dstrides bpe) c (n + 1) (fun a ha => (hc a ha).1)
      (fun a _ => byte_stride_nonneg dstrides bpe a)
    have a3 := hsrc c hc
    have a4 := hdst c hc
    have e1 : ∀ z : Int, (z + 1) * (bpe : Int) = z * bpe + bpe := fun z => by ring
    rw [e1] at a3 a4
    rw [offset_byte_stride] at a1 a2 ⊢
    rw [offset_byte_stride]
    by_cases hb : bpe = 0
    · subst hb; simp
    · omega
  have hrng' : ∀ c, InShape (extent shape) (n + 1) c →
      (-9223372036854775808 ≤ 0 + offset (byte_stride sstrides bpe) c (n + 1) ∧
        0 + offset (byte_stride sstrides bpe) c (n + 1) < 9223372036854775808) ∧
      (-9223372036854775808 ≤ 0 + offset (byte_stride dstrides bpe) c (n + 1) ∧
        0 + offset (byte_stride dstrides bpe) c (n + 1) < 9223372036854775808) :=
    fun c hc => ⟨⟨(hrng c hc).1.1, (hrng c hc).1.2.1⟩, ⟨(hrng c hc).2.1, (hrng c hc).2.2.1⟩⟩
  constructor
  · simp only [strided_set_gen_w, strided_set_gen, hcw]
    rw [strided_set_gen_loop_w_eq n shape bpe dstrides src sstrides 0 0 fuel _ dest hT hrng
      (inShape_zero _ (n + 1) hshape) (by simp [offset_zero]) (by simp [offset_zero])]
  · simp only [strided_set_gen_trace_w, strided_set_gen_trace, hcw]
    rw [copy_trace_w_eq (extent shape) (byte_stride sstrides bpe) (byte_stride dstrides bpe)
      (byte_stride_w sstrides bpe) (byte_stride_w dstrides bpe) n 0 0 fuel _ hT
      (fun a _ => byte_stride_w_modEq sstrides bpe a)
      (fun a _ => byte_stride_w_modEq dstrides bpe a) hrng'
      (inShape_zero _ (n + 1) hshape) (by simp [offset_zero]) (by simp [offset_zero])]

/-- The set-up loop of `flip_gen` on machine words computes the same walked box
and counters as on unbounded integers, and steps and a start of the backward
cursor that agree with them modulo `2^64`, when the number of elements is a
`long` value. -/
theorem flip_setup_w_sim (rank : Nat) (shape : List Int) (bpe : Nat) (dstrides : List Nat)
    (axes : List Bool) (h0 : 0 < rank) (n : Nat) (hn : n ≤ 16)
    (hpos : ∀ a, a < n → 0 < dstrides.getD a 0)
    (hshape : ∀ a, a < n → 1 ≤ extent shape a)
    (hext : ∀ a, a < n → extent shape a + 1 < 9223372036854775808)
    (hcount : extent_prod (extent shape) n < 9223372036854775808) :
    ∃ it itw, flip_setup rank shape bpe dstrides axes n = .ok it ∧
      flip_setup_w rank shape bpe dstrides axes n = .ok itw ∧
      itw.tshape = it.tshape ∧
      (∀ a, Int.ModEq 18446744073709551616 (itw.sstride a) (it.sstride a)) ∧
      (∀ a, Int.ModEq 18446744073709551616 (itw.dstride a) (it.dstride a)) ∧
      itw.dpos = to_long it.dpos ∧
      itw.swapped_dims = it.swapped_dims ∧
      (0 ≤ it.swapped_dims ∧ it.swapped_dims ≤ n) ∧
      itw.count = it.count ∧
      it.count = extent_prod (extent shape) n ∧
      itw.first = it.first := by
  induction n with
  | zero =>
    refine ⟨_, _, rfl, rfl, rfl, fun _ => Int.ModEq.refl _, fun _ => Int.ModEq.refl _, rfl, rfl,
      ⟨le_refl _, le_refl _⟩, rfl, ?_, rfl⟩
    simp [extent_prod, h0]
  | succ n ih =>
    have hm := extent_prod_mono (extent shape) (n + 1) hshape n (by omega)
    obtain ⟨it, itw, e, ew, hts, hss, hds, hdp, hsw, hsw0, hcw, hcnt, hfirst⟩ :=
      ih (by omega) (fun a ha => hpos a (by omega)) (fun a ha => hshape a (by omega))
        (fun a ha => hext a (by omega)) (by omega)
    have hp : dstrides.getD n 0 > 0 := hpos n (by omega)
    have hx := hshape n (by omega)
    have hx1 := hext n (by omega)
    have hst : Int.ModEq 18446744073709551616 (to_long (byte_stride_w dstrides bpe n))
        (byte_stride dstrides bpe n) :=
      (to_long_modEq _).trans (byte_stride_w_modEq dstrides bpe n)
    have hcount' : to_long (itw.count * extent shape n) = it.count * extent shape n := by
      rw [hcw, hcnt]
      simp only [extent_prod] at hcount
      have := Int.mul_pos (by omega : 0 < extent_prod (extent shape) n)
        (by omega : 0 < extent shape n)
      exact to_long_of_range _ (by omega) hcount
    have hcnt' : it.count * extent shape n = extent_prod (extent shape) (n + 1) := by
      rw [hcnt]; rfl
    by_cases hax : axes.getD n false = true
    · refine ⟨
        { tshape := Function.update it.tshape n
            (if it.first then Int.tdiv (extent shape n + 1) 2 else extent shape n)
          sstride := Function.update it.sstride n (byte_stride dstrides bpe n)
          dstride := Function.update it.dstride n (-byte_stride dstrides bpe n)
          dpos := it.dpos + (extent shape n - 1) * byte_stride dstrides bpe n
          swapped_dims := it.swapped_dims + 1
          count := it.count * extent shape n
          first := false },
        { tshape := Function.update itw.tshape n
            (if itw.first then Int.tdiv (to_long (extent shape n + 1)) 2 else extent shape n)
          sstride := Function.update itw.sstride n (to_long (byte_stride_w dstrides bpe n))
          dstride := Function.update itw.dstride n
            (to_long (-to_long (byte_stride_w dstrides bpe n)))
          dpos := to_long (itw.dpos +
            (extent shape n - 1) * to_long (byte_stride_w dstrides bpe n))
          swapped_dims := to_long (itw.swapped_dims + 1)
          count := to_long (itw.count * extent shape n)
          first := false }, ?_, ?_, ?_, ?_, ?_, ?_, ?_, ?_, ?_, ?_, ?_⟩
      · simp only [flip_setup, e, bind, Except.bind, hp, not_true, if_false, hax,
          if_true, pure, Except.pure]
      · simp only [flip_setup_w, ew, bind, Except.bind, hp, not_true, if_false, hax,
          if_true, pure, Except.pure]
      · show Function.update itw.tshape n _ = Function.update it.tshape n _
        rw [hts, hfirst, to_long_of_range (extent shape n + 1) (by omega) hx1]
      · intro a
        show Int.ModEq _ (Function.update itw.sstride n _ a) (Function.update it.sstride n _ a)
        by_cases ea : a = n
        · subst ea; simp only [Function.update_same]; exact hst
        · simp only [Function.update_noteq ea]; exact hss a
      · intro a
        show Int.ModEq _ (Function.update itw.dstride n _ a) (Function.update it.dstride n _ a)
        by_cases ea : a = n
        · subst ea; simp only [Function.update_same]
          exact (to_long_modEq _).trans hst.neg
        · simp only [Function.update_noteq ea]; exact hds a
      · show to_long _ = to_long _
        apply to_long_congr
        rw [hdp]
        exact (to_long_modEq _).add (hst.mul_left _)
      · show to_long (itw.swapped_dims + 1) = it.swapped_dims + 1
        rw [hsw]
        exact to_long_of_range _ (by omega) (by omega)
      · show 0 ≤ it.swapped_dims + 1 ∧ it.swapped_dims + 1 ≤ ((n + 1 : Nat) : Int)
        push_cast; omega
      · exact hcount'
      · exact hcnt'
      · rfl
    · refine ⟨
        { tshape := Function.update it.tshape n (extent shape n)
          sstride := Function.update it.sstride n (byte_stride dstrides bpe n)
          dstride := Function.update it.dstride n (byte_stride dstrides bpe n)
          dpos := it.dpos
          swapped_dims := it.swapped_dims
          count := it.count * extent shape n
          first := it.first },
        { tshape := Function.update itw.tshape n (extent shape n)
          sstride := Function.update itw.sstride n (to_long (byte_stride_w dstrides bpe n))
          dstride := Function.update itw.dstride n (to_long (byte_stride_w dstrides bpe n))
          dpos := itw.dpos
          swapped_dims := itw.swapped_dims
          count := to_long (itw.count * extent shape n)
          first := itw.first }, ?_, ?_, ?_, ?_, ?_, ?_, ?_, ?_, ?_, ?_, ?_⟩
      · simp only [flip_setup, e, bind, Except.bind, hp, not_true, if_false, hax,
          pure, Except.pure]
        rfl
      · simp only [flip_setup_w, ew, bind, Except.bind, hp, not_true, if_false, hax,
          pure, Except.pure]
        rfl
      · show Function.update itw.tshape n _ = Function.update it.tshape n _
        rw [hts]
      · intro a
        show Int.ModEq _ (Function.update itw.sstride n _ a) (Function.update it.sstride n _ a)
        by_cases ea : a = n
        · subst ea; simp only [Function.update_same]; exact hst
        · simp only [Function.update_noteq ea]; exact hss a
      · intro a
        show Int.ModEq _ (Function.update itw.dstride n _ a) (Function.update it.dstride n _ a)
        by_cases ea : a = n
        · subst ea; simp only [Function.update_same]; exact hst
        · simp only [Function.update_noteq ea]; exact hds a
      · exact hdp
      · exact hsw
      · show 0 ≤ it.swapped_dims ∧ it.swapped_dims ≤ ((n + 1 : Nat) : Int)
        push_cast; omega
      · exact hcount'
      · exact hcnt'
      · exact hfirst

/-- On a shape whose number of elements is a `long` value, with extents below
`2^63 - 1`, strictly positive strides and a view whose byte offsets are `long`
values, `flip_gen` on machine words is `flip_gen` on unbounded integers. -/
theorem flip_gen_w_eq {α : Type} (fuel rank : Nat) (shape : List Int) (bpe : Nat)
    (buf : List α) (dstrides : List Nat) (axes : List Bool)
    (hr0 : 1 ≤ rank) (hr : rank ≤ 16)
    (hshape : ∀ a, a < rank → 1 ≤ extent shape a)
    (hext : ∀ a, a < rank → extent shape a + 1 < 9223372036854775808)
    (hcount : extent_prod (extent shape) rank < 9223372036854775808)
    (hpos : ∀ a, a < rank → 0 < dstrides.getD a 0)
    (hrng : ∀ c, InShape (extent shape) rank c →
      (offset (stride dstrides) c rank + 1) * bpe ≤ 9223372036854775808) :
    flip_gen_w fuel rank shape bpe buf dstrides axes =
      flip_gen fuel rank shape bpe buf dstrides axes ∧
    flip_gen_trace_w fuel rank shape bpe dstrides axes =
      flip_gen_trace fuel rank shape bpe dstrides axes := by
  obtain ⟨it, itw, e, ew, hts, hss, hds, hdp, hsw, -, hcw, -, -⟩ :=
    flip_setup_w_sim rank shape bpe dstrides axes (by omega) rank hr hpos hshape hext hcount
  obtain ⟨it', e', -, -, -, -, hts', hss', hds', hdp'⟩ :=
    flip_setup_spec rank shape bpe dstrides axes rank hpos
  rw [e] at e'
  cases e'
  have hbytes : ∀ c, InShape (extent shape) rank c →
      0 ≤ offset (byte_stride dstrides bpe) c rank ∧
      offset (byte_stride dstrides bpe) c rank < 9223372036854775808 ∧
      offset (byte_stride dstrides bpe) c rank + bpe ≤ 9223372036854775808 := by
    intro c hc
    have a1 := offset_nonneg (byte_stride dstrides bpe) c rank (fun a ha => (hc a ha).1)
      (fun a _ => byte_stride_nonneg dstrides bpe a)
    have a3 := hrng c hc
    have e1 : ∀ z : Int, (z + 1) * (bpe : Int) = z * bpe + bpe := fun z => by ring
    rw [e1] at a3
    rw [offset_byte_stride] at a1 ⊢
    by_cases hb : bpe = 0
    · subst hb; simp
    · omega
  have hz : InShape (extent shape) rank (fun _ => 0) := inShape_zero _ rank hshape
  have hd0 := hbytes _ (mirror_inShape shape axes rank _ hz)
  have hdpw : itw.dpos = it.dpos := by
    rw [hdp, hdp']
    exact to_long_of_range _ (by omega) (by omega)
  have hTb : ∀ a, a < rank → it.tshape a < 9223372036854775808 := fun a ha => by
    rw [hts' a ha]
    have := (flip_tshape_bounds shape axes a (hshape a ha)).2.1
    have := hext a ha
    omega
  have hT1 : ∀ a, a < rank → 1 ≤ it.tshape a := fun a ha => by
    rw [hts' a ha]
    exact (flip_tshape_bounds shape axes a (hshape a ha)).1
  have hbox : ∀ c, InShape it.tshape rank c →
      (-9223372036854775808 ≤ 0 + offset it.sstride c rank ∧
        0 + offset it.sstride c rank < 9223372036854775808 ∧
        0 + offset it.sstride c rank + bpe ≤ 9223372036854775808) ∧
      (-9223372036854775808 ≤ it.dpos + offset it.dstride c rank ∧
        it.dpos + offset it.dstride c rank < 9223372036854775808 ∧
        it.dpos + offset it.dstride c rank + bpe ≤ 9223372036854775808) := by
    intro c hc
    have hc' : InShape (flip_tshape shape axes) rank c := fun a ha => by
      rw [← hts' a ha]; exact hc a ha
    have hc2 := inShape_of_tshape shape axes rank c hshape hc'
    have b1 := hbytes c hc2
    have b2 := hbytes _ (mirror_inShape shape axes rank c hc2)
    rw [offset_stride_congr it.sstride (byte_stride dstrides bpe) c rank hss',
      offset_stride_congr it.dstride (flip_dstride dstrides bpe axes) c rank hds', hdp',
      mirror_offset]
    omega
  have hbox' : ∀ c, InShape it.tshape rank c →
      (-9223372036854775808 ≤ 0 + offset it.sstride c rank ∧
        0 + offset it.sstride c rank < 9223372036854775808) ∧
      (-9223372036854775808 ≤ it.dpos + offset it.dstride c rank ∧
        it.dpos + offset it.dstride c rank < 9223372036854775808) :=
    fun c hc => ⟨⟨(hbox c hc).1.1, (hbox c hc).1.2.1⟩, ⟨(hbox c hc).2.1, (hbox c hc).2.2.1⟩⟩
  obtain ⟨n, rfl⟩ : ∃ n, rank = n + 1 := ⟨rank - 1, by omega⟩
  constructor
  · simp only [flip_gen_w, flip_gen, e, ew, bind, Except.bind, hsw, hcw, hdpw]
    rw [flip_gen_loop_w_eq n bpe it itw 0 it.dpos fuel _ buf hts hTb (fun a _ => hss a)
      (fun a _ => hds a) hbox (inShape_zero _ (n + 1) hT1) (by simp [offset_zero])
      (by simp [offset_zero])]
  · simp only [flip_gen_trace_w, flip_gen_trace, e, ew, bind, Except.bind, hsw, hcw, hdpw]
    rw [hts, flip_trace_w_eq it.tshape it.sstride it.dstride itw.sstride itw.dstride n 0 it.dpos
      fuel _ hTb (fun a _ => hss a) (fun a _ => hds a) hbox' (inShape_zero _ (n + 1) hT1)
      (by simp [offset_zero]) (by simp [offset_zero])]

/-! ### The contracts on machine words -/

theorem two_pow_63 : (2 : Int) ^ 63 = 9223372036854775808 := by norm_num

theorem foldlM_congr_mem {α β : Type} (l : List β) (f g : α → β → Except Failure α)
    (h : ∀ p ∈ l, ∀ d, f d p = g d p) (d : α) : l.foldlM f d = l.foldlM g d := by
  induction l generalizing d with
  | nil => rfl
  | cons p l ih =>
    simp only [List.foldlM_cons, h p (List.mem_cons_self _ _)]
    cases g d p with
    | error e => rfl
    | ok d' => exact ih (fun q hq => h q (List.mem_cons_of_mem _ hq)) d'

/-- C8 (counterexample): on the shape `[2^32, 2^32]`, whose extents are at least
1, the counter `count` wraps to 0 and both copies return before their first
element: their sequences of offsets are empty, while the product of the extents
is `2^64`.  On the shape `[2]` with the source stride `2^61 + 1` and the element
width 8, the byte step `sstrides[0] * bpe` wraps to 8: the second entry of the
sequence of `strided_set_gen` is `(8, 8)`, and the byte offset of the second
multi-index is `2^64 + 8`. -/
theorem copy_traversal_wraps :
    (∀ a, a < 2 → 1 ≤ extent [4294967296, 4294967296] a) ∧
    extent_prod (extent [4294967296, 4294967296]) 2 = 18446744073709551616 ∧
    (∀ fuel : Nat,
      strided_set_float_trace_w fuel 2 [4294967296, 4294967296] [0, 0] [0, 0] = .ok [] ∧
      strided_set_gen_trace_w fuel 2 [4294967296, 4294967296] 1 [0, 0] [0, 0] = .ok []) ∧
    strided_set_gen_trace_w 2 1 [2] 8 [1] [2305843009213693953] = .ok [(0, 0), (8, 8)] ∧
    offset (stride [2305843009213693953]) (unravel (extent [2]) 1 1) 1 * (8 : Nat) =
      18446744073709551624 :=
  ⟨by intro a ha; interval_cases a <;> decide, by decide, fun _ => ⟨rfl, rfl⟩, rfl,
    by decide⟩

/-- C8 (amended): odometer order of the copy traversal on 64-bit words.  For
every rank 1..16, every shape with extents at least 1 whose number of elements
is below `2^63`, every element width below `2^31` and all stride arrays whose
offsets over the shape, in elements and in bytes, stay below `2^63`, the
sequence of (source offset, destination offset) pairs at which
`strided_set_float` and `strided_set_gen` copy an element has length exactly the
product of the extents, and its `k`-th entry is the pair of offsets
`(Σ c_a * sstride_a, Σ c_a * dstride_a)` (in bytes for `strided_set_gen`) of the
`k`-th multi-index `c` in row-major order; every multi-index of the shape is
visited exactly once.  Both functions are the element copy repeated along their
sequence. -/
theorem copy_traversal_row_major (fuel rank : Nat) (shape : List Int) (bpe : Nat)
    (dstrides sstrides : List Nat) (hr0 : 1 ≤ rank) (hr : rank ≤ 16)
    (hshape : ∀ a, a < rank → 1 ≤ extent shape a)
    (hcount : extent_prod (extent shape) rank < 2 ^ 63)
    (hbpe : bpe < 2 ^ 31)
    (hsrc : ∀ c, InShape (extent shape) rank c →
      offset (stride sstrides) c rank < 2 ^ 63 ∧
      (offset (stride sstrides) c rank + 1) * bpe ≤ 2 ^ 63)
    (hdst : ∀ c, InShape (extent shape) rank c →
      offset (stride dstrides) c rank < 2 ^ 63 ∧
      (offset (stride dstrides) c rank + 1) * bpe ≤ 2 ^ 63)
    (hfuel : extent_prod (extent shape) rank ≤ fuel) :
    ∃ trf trg,
      strided_set_float_trace_w fuel rank shape dstrides sstrides = .ok trf ∧
      strided_set_gen_trace_w fuel rank shape bpe dstrides sstrides = .ok trg ∧
      (trf.length : Int) = extent_prod (extent shape) rank ∧
      (trg.length : Int) = extent_prod (extent shape) rank ∧
      (∀ (α : Type) (dest src : List α),
        strided_set_float_w fuel rank shape bpe dest dstrides src sstrides =
          trf.foldlM (fun dest p => do let v ← load src p.1; store dest p.2 v) dest ∧
        strided_set_gen_w fuel rank shape bpe dest dstrides src sstrides =
          trg.foldlM (fun dest p => copy_bytes_w src p.1 p.2 bpe dest) dest) ∧
      (∀ k : Nat, k < trf.length →
        InShape (extent shape) rank (unravel (extent shape) rank k) ∧
        ravel (extent shape) (unravel (extent shape) rank k) rank = k ∧
        trf[k]? = some (offset (stride sstrides) (unravel (extent shape) rank k) rank,
          offset (stride dstrides) (unravel (extent shape) rank k) rank) ∧
        trg[k]? = some (offset (stride sstrides) (unravel (extent shape) rank k) rank * bpe,
          offset (stride dstrides) (unravel (extent shape) rank k) rank * bpe)) ∧
      (∀ c, InShape (extent shape) rank c →
        ∃ k : Nat, (k < trf.length ∧ ∀ a, a < rank → unravel (extent shape) rank k a = c a) ∧
          ∀ j : Nat, (j < trf.length ∧ ∀ a, a < rank → unravel (extent shape) rank j a = c a) →
            j = k) := by
  have _ := hbpe
  rw [two_pow_63] at hcount
  simp only [two_pow_63] at hsrc hdst
  obtain ⟨trf, trg, e1, e2, l1, l2, hfold, hk, hc⟩ :=
    copy_traversal_int fuel rank shape bpe dstrides sstrides hr0 hr hshape hfuel
  have hf := fun (α : Type) (dest src : List α) =>
    strided_set_float_w_eq fuel rank shape bpe dest dstrides src sstrides hr0 hshape hcount
      (fun c hc => (hsrc c hc).1) (fun c hc => (hdst c hc).1)
  have hg := fun (α : Type) (dest src : List α) =>
    strided_set_gen_w_eq fuel rank shape bpe dest dstrides src sstrides hr0 hshape hcount
      (fun c hc => (hsrc c hc).2) (fun c hc => (hdst c hc).2)
  refine ⟨trf, trg, ?_, ?_, l1, l2, ?_, hk, hc⟩
  · rw [(hf Unit [] []).2]; exact e1
  · rw [(hg Unit [] []).2]; exact e2
  · intro α dest src
    refine ⟨by rw [(hf α dest src).1]; exact (hfold α dest src).1, ?_⟩
    rw [(hg α dest src).1, (hfold α dest src).2]
    apply foldlM_congr_mem
    intro p hp d
    obtain ⟨k, hkp⟩ := List.mem_iff_getElem?.1 hp
    have hlt : k < trg.length := by
      by_contra hge
      rw [List.getElem?_eq_none (by omega)] at hkp
      exact Option.noConfusion hkp
    obtain ⟨hin, -, -, hg4⟩ := hk k (by omega)
    rw [hkp] at hg4
    cases hg4
    have a1 := offset_nonneg (stride sstrides) _ rank (fun a ha => (hin a ha).1)
      (fun a _ => stride_nonneg sstrides a)
    have a2 := offset_nonneg (stride dstrides) _ rank (fun a ha => (hin a ha).1)
      (fun a _ => stride_nonneg dstrides a)
    have a3 := (hsrc _ hin).2
    have a4 := (hdst _ hin).2
    have e1 : ∀ z : Int, (z + 1) * (bpe : Int) = z * bpe + bpe := fun z => by ring
    rw [e1] at a3 a4
    have b1 := Int.mul_nonneg a1 (by omega : (0 : Int) ≤ bpe)
    have b2 := Int.mul_nonneg a2 (by omega : (0 : Int) ≤ bpe)
    exact (copy_bytes_w_eq src _ _ bpe d (by omega) a3 (by omega) a4).symm

/-- A 2x3 traversal with a transposed destination: the hypotheses of C8 hold. -/
theorem copy_traversal_row_major_witness :
    ∃ trf trg,
      strided_set_float_trace_w 6 2 [2, 3] [1, 2] [3, 1] = .ok trf ∧
      strided_set_gen_trace_w 6 2 [2, 3] 4 [1, 2] [3, 1] = .ok trg ∧
      (trf.length : Int) = extent_prod (extent [2, 3]) 2 ∧
      (trg.length : Int) = extent_prod (extent [2, 3]) 2 ∧
      (∀ (α : Type) (dest src : List α),
        strided_set_float_w 6 2 [2, 3] 4 dest [1, 2] src [3, 1] =
          trf.foldlM (fun dest p => do let v ← load src p.1; store dest p.2 v) dest ∧
        strided_set_gen_w 6 2 [2, 3] 4 dest [1, 2] src [3, 1] =
          trg.foldlM (fun dest p => copy_bytes_w src p.1 p.2 4 dest) dest) ∧
      (∀ k : Nat, k < trf.length →
        InShape (extent [2, 3]) 2 (unravel (extent [2, 3]) 2 k) ∧
        ravel (extent [2, 3]) (unravel (extent [2, 3]) 2 k) 2 = k ∧
        trf[k]? = some (offset (stride [3, 1]) (unravel (extent [2, 3]) 2 k) 2,
          offset (stride [1, 2]) (unravel (extent [2, 3]) 2 k) 2) ∧
        trg[k]? = some (offset (stride [3, 1]) (unravel (extent [2, 3]) 2 k) 2 * (4 : Nat),
          offset (stride [1, 2]) (unravel (extent [2, 3]) 2 k) 2 * (4 : Nat))) ∧
      (∀ c, InShape (extent [2, 3]) 2 c →
        ∃ k : Nat, (k < trf.length ∧ ∀ a, a < 2 → unravel (extent [2, 3]) 2 k a = c a) ∧
          ∀ j : Nat, (j < trf.length ∧ ∀ a, a < 2 → unravel (extent [2, 3]) 2 j a = c a) →
            j = k) :=
  copy_traversal_row_major 6 2 [2, 3] 4 [1, 2] [3, 1] (by decide) (by decide)
    (by intro a ha; interval_cases a <;> decide) (by decide) (by decide)
    (by
      intro c h
      have h0 := h 0 (by decide)
      have h1 := h 1 (by decide)
      simp [offset, stride, extent] at h0 h1 ⊢
      omega)
    (by
      intro c h
      have h0 := h 0 (by decide)
      have h1 := h 1 (by decide)
      simp [offset, stride, extent] at h0 h1 ⊢
      omega)
    (by decide)

/-- C18 (counterexample): on the shape `[2]` with the source stride `2^61 + 1`
and the element width 8, the byte step of `strided_set_gen` wraps to 8, and the
second element is read at the bytes `8 .. 15`; with the stride `2^63 + 1` and the
element width 2, `flip_gen` swaps the bytes at 0 and at 2.  Neither 8 nor 2 is a
byte `(c * stride) * bpe + i`, `i < bpe`, of a multi-index `c` of the shape. -/
theorem accesses_outside_view :
    strided_set_gen_trace_w 2 1 [2] 8 [1] [2305843009213693953] = .ok [(0, 0), (8, 8)] ∧
    (∀ c, InShape (extent [2]) 1 c → ∀ i : Nat, i < 8 →
      (8 : Int) ≠ offset (stride [2305843009213693953]) c 1 * (8 : Nat) + i) ∧
    flip_gen_trace_w 1 1 [2] 2 [9223372036854775809] [true] = .ok [(0, 2)] ∧
    (∀ c, InShape (extent [2]) 1 c → ∀ i : Nat, i < 2 →
      (2 : Int) ≠ offset (stride [9223372036854775809]) c 1 * (2 : Nat) + i) := by
  refine ⟨rfl, ?_, rfl, ?_⟩
  · intro c h i hi
    have h0 := h 0 (by decide)
    simp [offset, stride, extent] at h0 ⊢
    omega
  · intro c h i hi
    have h0 := h 0 (by decide)
    simp [offset, stride, extent] at h0 ⊢
    omega

/-- C18 (amended): accesses stay inside the view, on 64-bit words.  For every
rank 1..16, every shape with extents at least 1 whose number of elements is
below `2^63`, every element width below `2^31` and stride arrays whose offsets
over the shape, in elements and in bytes, stay below `2^63` (for `flip_gen`:
strictly positive strides and extents below `2^63 - 1`), every offset pair at
which `strided_set_float` / `strided_set_gen` read the source and write the
destination, and every offset pair at which `flip_gen` swaps two elements of its
buffer, is the pair of offsets `Σ c_a * stride_a` (times `bpe` on the byte
paths, where the bytes `+ i`, `i < bpe`, are touched) of a multi-index `c` of
the shape, resp. of `c` and its mirror image; the functions are the element
copy, resp. swap, repeated at these pairs only, so the out-of-range offsets of
the carry propagation are not dereferenced and a buffer that contains the view
makes every indexing succeed. -/
theorem accesses_in_view {α : Type} (fuel rank : Nat) (shape : List Int) (bpe : Nat)
    (dest : List α) (dstrides : List Nat) (src : List α) (sstrides : List Nat)
    (destb srcb : List α) (buf : List α) (strides : List Nat) (axes : List Bool)
    (hr0 : 1 ≤ rank) (hr : rank ≤ 16)
    (hshape : ∀ a, a < rank → 1 ≤ extent shape a)
    (hext : ∀ a, a < rank → extent shape a + 1 < 2 ^ 63)
    (hcount : extent_prod (extent shape) rank < 2 ^ 63)
    (hbpe : bpe < 2 ^ 31)
    (hpos : ∀ a, a < rank → 0 < strides.getD a 0)
    (hsrng : ∀ c, InShape (extent shape) rank c →
      offset (stride sstrides) c rank < 2 ^ 63 ∧
      (offset (stride sstrides) c rank + 1) * bpe ≤ 2 ^ 63)
    (hdrng : ∀ c, InShape (extent shape) rank c →
      offset (stride dstrides) c rank < 2 ^ 63 ∧
      (offset (stride dstrides) c rank + 1) * bpe ≤ 2 ^ 63)
    (hbrng : ∀ c, InShape (extent shape) rank c →
      (offset (stride strides) c rank + 1) * bpe ≤ 2 ^ 63)
    (hfuel : extent_prod (extent shape) rank ≤ fuel) :
    (∃ tr, strided_set_float_trace_w fuel rank shape dstrides sstrides = .ok tr ∧
      (∀ p ∈ tr, ∃ c, InShape (extent shape) rank c ∧
        p = (offset (stride sstrides) c rank, offset (stride dstrides) c rank)) ∧
      strided_set_float_w fuel rank shape bpe dest dstrides src sstrides =
        tr.foldlM (fun dest p => do let v ← load src p.1; store dest p.2 v) dest ∧
      ((∀ c, InShape (extent shape) rank c →
          0 ≤ offset (stride sstrides) c rank ∧ offset (stride sstrides) c rank < src.length) →
        (∀ c, InShape (extent shape) rank c →
          0 ≤ offset (stride dstrides) c rank ∧ offset (stride dstrides) c rank < dest.length) →
        ∃ dest', strided_set_float_w fuel rank shape bpe dest dstrides src sstrides =
          .ok dest')) ∧
    (∃ tr, strided_set_gen_trace_w fuel rank shape bpe dstrides sstrides = .ok tr ∧
      (∀ p ∈ tr, ∃ c, InShape (extent shape) rank c ∧
        p = (offset (stride sstrides) c rank * bpe, offset (stride dstrides) c rank * bpe)) ∧
      strided_set_gen_w fuel rank shape bpe destb dstrides srcb sstrides =
        tr.foldlM (fun dest p => copy_bytes_w srcb p.1 p.2 bpe dest) destb ∧
      ((∀ c, InShape (extent shape) rank c →
          0 ≤ offset (stride sstrides) c rank ∧
          (offset (stride sstrides) c rank + 1) * bpe ≤ srcb.length) →
        (∀ c, InShape (extent shape) rank c →
          0 ≤ offset (stride dstrides) c rank ∧
          (offset (stride dstrides) c rank + 1) * bpe ≤ destb.length) →
        ∃ dest', strided_set_gen_w fuel rank shape bpe destb dstrides srcb sstrides =
          .ok dest')) ∧
    (∃ tr, flip_gen_trace_w fuel rank shape bpe strides axes = .ok tr ∧
      (∀ p ∈ tr, ∃ c, InShape (extent shape) rank c ∧
        InShape (extent shape) rank (mirror shape axes c) ∧
        p = (offset (stride strides) c rank * bpe,
          offset (stride strides) (mirror shape axes c) rank * bpe)) ∧
      flip_gen_w fuel rank shape bpe buf strides axes =
        tr.foldlM (fun dest p => swap_bytes_w p.1 p.2 bpe dest) buf ∧
      ((∀ c, InShape (extent shape) rank c →
          0 ≤ offset (stride strides) c rank ∧
          (offset (stride strides) c rank + 1) * bpe ≤ buf.length) →
        ∃ buf', flip_gen_w fuel rank shape bpe buf strides axes = .ok buf')) := by
  have _ := hbpe
  rw [two_pow_63] at hcount
  simp only [two_pow_63] at hext hsrng hdrng hbrng
  obtain ⟨⟨t1, a1, a2, a3, a4⟩, ⟨t2, b1, b2, b3, b4⟩, ⟨t3, c1, c2, c3, c4⟩⟩ :=
    accesses_in_view_int fuel rank shape bpe dest dstrides src sstrides destb srcb buf strides
      axes hr0 hr hshape hpos hfuel
  have hf := strided_set_float_w_eq fuel rank shape bpe dest dstrides src sstrides hr0 hshape
    hcount (fun c hc => (hsrng c hc).1) (fun c hc => (hdrng c hc).1)
  have hg := strided_set_gen_w_eq fuel rank shape bpe destb dstrides srcb sstrides hr0 hshape
    hcount (fun c hc => (hsrng c hc).2) (fun c hc => (hdrng c hc).2)
  have hfl := flip_gen_w_eq fuel rank shape bpe buf strides axes hr0 hr hshape hext hcount hpos
    hbrng
  have e1 : ∀ z : Int, (z + 1) * (bpe : Int) = z * bpe + bpe := fun z => by ring
  have hbytes : ∀ (st : List Nat) (c : Nat → Int), InShape (extent shape) rank c →
      (offset (stride st) c rank + 1) * bpe ≤ 9223372036854775808 →
      -9223372036854775808 ≤ offset (stride st) c rank * bpe ∧
      offset (stride st) c rank * bpe + bpe ≤ 9223372036854775808 := by
    intro st c hc hle
    have n1 := offset_nonneg (stride st) c rank (fun a ha => (hc a ha).1)
      (fun a _ => stride_nonneg st a)
    have n2 := Int.mul_nonneg n1 (by omega : (0 : Int) ≤ bpe)
    rw [e1] at hle
    omega
  refine ⟨⟨t1, by rw [hf.2]; exact a1, a2, by rw [hf.1]; exact a3, ?_⟩,
    ⟨t2, by rw [hg.2]; exact b1, b2, ?_, ?_⟩, ⟨t3, by rw [hfl.2]; exact c1, c2, ?_, ?_⟩⟩
  · intro h1 h2
    rw [hf.1]; exact a4 h1 h2
  · rw [hg.1, b3]
    apply foldlM_congr_mem
    intro p hp d
    obtain ⟨c, hc, rfl⟩ := b2 p hp
    have s := hbytes sstrides c hc (hsrng c hc).2
    have t := hbytes dstrides c hc (hdrng c hc).2
    exact (copy_bytes_w_eq srcb _ _ bpe d s.1 s.2 t.1 t.2).symm
  · intro h1 h2
    rw [hg.1]; exact b4 h1 h2
  · rw [hfl.1, c3]
    apply foldlM_congr_mem
    intro p hp d
    obtain ⟨c, hc, hm, rfl⟩ := c2 p hp
    have s := hbytes strides c hc (hbrng c hc)
    have t := hbytes strides _ hm (hbrng _ hm)
    exact (swap_bytes_w_eq _ _ bpe d s.1 s.2 t.1 t.2).symm
  · intro h1
    rw [hfl.1]; exact c4 h1

/-- A one-axis view of three elements: the hypotheses of C18 hold, the in-bounds
ones included. -/
theorem accesses_in_view_witness :
    (∃ tr, strided_set_float_trace_w 3 1 [3] [1] [1] = .ok tr ∧
      (∀ p ∈ tr, ∃ c, InShape (extent [3]) 1 c ∧
        p = (offset (stride [1]) c 1, offset (stride [1]) c 1)) ∧
      strided_set_float_w 3 1 [3] 1 [(0 : Int), 0, 0] [1] [10, 20, 30] [1] =
        tr.foldlM (fun dest p => do let v ← load [(10 : Int), 20, 30] p.1; store dest p.2 v)
          [(0 : Int), 0, 0] ∧
      ∃ dest', strided_set_float_w 3 1 [3] 1 [(0 : Int), 0, 0] [1] [10, 20, 30] [1] =
        .ok dest') ∧
    (∃ tr, strided_set_gen_trace_w 3 1 [3] 1 [1] [1] = .ok tr ∧
      (∀ p ∈ tr, ∃ c, InShape (extent [3]) 1 c ∧
        p = (offset (stride [1]) c 1 * (1 : Nat), offset (stride [1]) c 1 * (1 : Nat))) ∧
      strided_set_gen_w 3 1 [3] 1 [(0 : Int), 0, 0] [1] [10, 20, 30] [1] =
        tr.foldlM (fun dest p => copy_bytes_w [(10 : Int), 20, 30] p.1 p.2 1 dest)
          [(0 : Int), 0, 0] ∧
      ∃ dest', strided_set_gen_w 3 1 [3] 1 [(0 : Int), 0, 0] [1] [10, 20, 30] [1] =
        .ok dest') ∧
    (∃ tr, flip_gen_trace_w 3 1 [3] 1 [1] [true] = .ok tr ∧
      (∀ p ∈ tr, ∃ c, InShape (extent [3]) 1 c ∧
        InShape (extent [3]) 1 (mirror [3] [true] c) ∧
        p = (offset (stride [1]) c 1 * (1 : Nat),
          offset (stride [1]) (mirror [3] [true] c) 1 * (1 : Nat))) ∧
      flip_gen_w 3 1 [3] 1 [(1 : Int), 2, 3] [1] [true] =
        tr.foldlM (fun dest p => swap_bytes_w p.1 p.2 1 dest) [(1 : Int), 2, 3] ∧
      ∃ buf', flip_gen_w 3 1 [3] 1 [(1 : Int), 2, 3] [1] [true] = .ok buf') :=
  have hb : ∀ c, InShape (extent [3]) 1 c →
      0 ≤ offset (stride [1]) c 1 ∧ offset (stride [1]) c 1 < ((3 : Nat) : Int) := by
    intro c h
    have h0 := h 0 (by decide)
    simp [offset, stride, extent] at h0 ⊢
    omega
  have hb' : ∀ c, InShape (extent [3]) 1 c →
      0 ≤ offset (stride [1]) c 1 ∧
      (offset (stride [1]) c 1 + 1) * ((1 : Nat) : Int) ≤ ((3 : Nat) : Int) := by
    intro c h
    have h0 := h 0 (by decide)
    simp [offset, stride, extent] at h0 ⊢
    omega
  have hw : ∀ c, InShape (extent [3]) 1 c →
      offset (stride [1]) c 1 < 2 ^ 63 ∧
      (offset (stride [1]) c 1 + 1) * ((1 : Nat) : Int) ≤ 2 ^ 63 := by
    intro c h
    have h0 := h 0 (by decide)
    simp [offset, stride, extent] at h0 ⊢
    omega
  match accesses_in_view 3 1 [3] 1 [(0 : Int), 0, 0] [1] [10, 20, 30] [1] [(0 : Int), 0, 0]
    [10, 20, 30] [(1 : Int), 2, 3] [1] [true] (by decide) (by decide)
    (by intro a ha; interval_cases a; decide)
    (by intro a ha; interval_cases a; decide)
    (by decide) (by decide)
    (by intro a ha; interval_cases a; decide)
    hw hw (fun c h => (hw c h).2)
    (by decide) with
  | ⟨⟨t1, a1, a2, a3, a4⟩, ⟨t2, b1, b2, b3, b4⟩, ⟨t3, c1, c2, c3, c4⟩⟩ =>
    ⟨⟨t1, a1, a2, a3, a4 hb hb⟩, ⟨t2, b1, b2, b3, b4 hb' hb'⟩, ⟨t3, c1, c2, c3, c4 hb'⟩⟩

/-- C19 (counterexample): on the shape `[2^32, 2^32]` with all strides 0, every
multi-index has the source offset 0 and the destination offset 0, inside the
one-element buffers `[7]` and `[0]`; the counter `count` wraps to 0 and both
copies return at once, so the destination element stays 0 and is not the source
element 7 of the last multi-index. -/
theorem copy_last_writer_wraps :
    (∀ a, a < 2 → 1 ≤ extent [4294967296, 4294967296] a) ∧
    (∀ c : Nat → Int, offset (stride [0, 0]) c 2 = 0) ∧
    (∀ fuel : Nat,
      strided_set_float_w fuel 2 [4294967296, 4294967296] 1 [(0 : Int)] [0, 0] [7] [0, 0] =
        .ok [0] ∧
      strided_set_gen_w fuel 2 [4294967296, 4294967296] 1 [(0 : Int)] [0, 0] [7] [0, 0] =
        .ok [0]) ∧
    load [(7 : Int)] 0 = .ok 7 ∧ load [(0 : Int)] 0 = .ok 0 :=
  ⟨by intro a ha; interval_cases a <;> decide, by intro c; simp [offset, stride],
    fun _ => ⟨rfl, rfl⟩, rfl, rfl⟩

/-- C19 (amended): overlapping destination offsets resolve to the last writer,
on 64-bit words.  For every rank 1..16, every shape with extents at least 1
whose number of elements is below `2^63`, every element width below `2^31` and
stride arrays over two separate in-bounds buffers of at most `2^63` bytes (resp.
elements), when several multi-indices have the same destination offset (a
destination stride of 0, for example), after `strided_set_gen` /
`strided_set_float` the destination element at that offset is the source
element of the last of those multi-indices in row-major order.
Scenario: shape `[3]`, destination stride `[0]`, source `[10,20,30]`. -/
theorem copy_last_writer {α : Type} (fuel rank : Nat) (shape : List Int) (bpe : Nat)
    (destb : List α) (dstrides : List Nat) (srcb : List α) (sstrides : List Nat)
    (dest src : List α)
    (hr0 : 1 ≤ rank) (hr : rank ≤ 16)
    (hshape : ∀ a, a < rank → 1 ≤ extent shape a)
    (hcount : extent_prod (extent shape) rank < 2 ^ 63)
    (hbpe : bpe < 2 ^ 31)
    (hsrcbl : (srcb.length : Int) ≤ 2 ^ 63) (hdstbl : (destb.length : Int) ≤ 2 ^ 63)
    (hsrcl : (src.length : Int) ≤ 2 ^ 63) (hdstl : (dest.length : Int) ≤ 2 ^ 63)
    (hsrcb : ∀ c, InShape (extent shape) rank c →
      0 ≤ offset (stride sstrides) c rank ∧
      (offset (stride sstrides) c rank + 1) * bpe ≤ srcb.length)
    (hdstb : ∀ c, InShape (extent shape) rank c →
      0 ≤ offset (stride dstrides) c rank ∧
      (offset (stride dstrides) c rank + 1) * bpe ≤ destb.length)
    (hsrc : ∀ c, InShape (extent shape) rank c →
      0 ≤ offset (stride sstrides) c rank ∧ offset (stride sstrides) c rank < src.length)
    (hdst : ∀ c, InShape (extent shape) rank c →
      0 ≤ offset (stride dstrides) c rank ∧ offset (stride dstrides) c rank < dest.length)
    (hfuel : extent_prod (extent shape) rank ≤ fuel) :
    (∃ destb' dest',
      strided_set_gen_w fuel rank shape bpe destb dstrides srcb sstrides = .ok destb' ∧
      strided_set_float_w fuel rank shape bpe dest dstrides src sstrides = .ok dest' ∧
      ∀ c, InShape (extent shape) rank c →
        (∀ c', InShape (extent shape) rank c' →
          offset (stride dstrides) c' rank = offset (stride dstrides) c rank →
          ravel (extent shape) c' rank ≤ ravel (extent shape) c rank) →
        (∀ i : Nat, i < bpe →
          ∃ v, load srcb (offset (stride sstrides) c rank * bpe + i) = .ok v ∧
            load destb' (offset (stride dstrides) c rank * bpe + i) = .ok v) ∧
        ∃ v, load src (offset (stride sstrides) c rank) = .ok v ∧
          load dest' (offset (stride dstrides) c rank) = .ok v) ∧
    (∀ (b : Nat) (d0 : Int),
      strided_set_float_w 3 1 [3] b [d0] [0] [10, 20, 30] [1] = .ok [30] ∧
      strided_set_gen_w 3 1 [3] 1 [d0] [0] [10, 20, 30] [1] = .ok [30]) := by
  refine ⟨?_, fun b d0 => ⟨rfl, rfl⟩⟩
  have _ := hbpe
  rw [two_pow_63] at hcount hsrcbl hdstbl hsrcl hdstl
  obtain ⟨⟨destb', dest', e1, e2, h⟩, -⟩ :=
    copy_last_writer_int fuel rank shape bpe destb dstrides srcb sstrides dest src hr0 hr
      hshape hsrcb hdstb hsrc hdst hfuel
  have hf := strided_set_float_w_eq fuel rank shape bpe dest dstrides src sstrides hr0 hshape
    hcount (fun c hc => by have := hsrc c hc; omega) (fun c hc => by have := hdst c hc; omega)
  have hg := strided_set_gen_w_eq fuel rank shape bpe destb dstrides srcb sstrides hr0 hshape
    hcount (fun c hc => by have := hsrcb c hc; omega) (fun c hc => by have := hdstb c hc; omega)
  exact ⟨destb', dest', by rw [hg.1]; exact e1, by rw [hf.1]; exact e2, h⟩

/-- The broadcast destination of the scenario (stride 0): the hypotheses of C19
hold. -/
theorem copy_last_writer_witness :
    (∃ destb' dest',
      strided_set_gen_w 3 1 [3] 2 [(0 : Int), 0] [0] [10, 11, 20, 21, 30, 31] [1] =
        .ok destb' ∧
      strided_set_float_w 3 1 [3] 2 [(0 : Int)] [0] [10, 20, 30] [1] = .ok dest' ∧
      ∀ c, InShape (extent [3]) 1 c →
        (∀ c', InShape (extent [3]) 1 c' →
          offset (stride [0]) c' 1 = offset (stride [0]) c 1 →
          ravel (extent [3]) c' 1 ≤ ravel (extent [3]) c 1) →
        (∀ i : Nat, i < 2 →
          ∃ v, load [(10 : Int), 11, 20, 21, 30, 31]
              (offset (stride [1]) c 1 * (2 : Nat) + i) = .ok v ∧
            load destb' (offset (stride [0]) c 1 * (2 : Nat) + i) = .ok v) ∧
        ∃ v, load [(10 : Int), 20, 30] (offset (stride [1]) c 1) = .ok v ∧
          load dest' (offset (stride [0]) c 1) = .ok v) ∧
    (∀ (b : Nat) (d0 : Int),
      strided_set_float_w 3 1 [3] b [d0] [0] [10, 20, 30] [1] = .ok [30] ∧
      strided_set_gen_w 3 1 [3] 1 [d0] [0] [10, 20, 30] [1] = .ok [30]) :=
  copy_last_writer 3 1 [3] 2 [(0 : Int), 0] [0] [10, 11, 20, 21, 30, 31] [1] [(0 : Int)]
    [10, 20, 30] (by decide) (by decide)
    (by intro a ha; interval_cases a; decide)
    (by decide) (by decide) (by decide) (by decide) (by decide) (by decide)
    (by
      intro c h
      have h0 := h 0 (by decide)
      simp [offset, stride, extent] at h0 ⊢
      omega)
    (by
      intro c h
      simp [offset, stride])
    (by
      intro c h
      have h0 := h 0 (by decide)
      simp [offset, stride, extent] at h0 ⊢
      omega)
    (by
      intro c h
      simp [offset, stride])
    (by decide)

end CeedNumerics
